import Mathlib

/-! Decision-forest scorer: the linearized RapidScorer.

A shallow embedding of `src/rapidscorer/LinearizedRapidScorer.h`, of `src/EqNode.h` and of the
model and document parsers of `src/main.cpp`, together with the parts of `Tree.h`, `Epitome.h`,
`ResultMask.h` and `DocGroup.h` that they use.

* C++ `double` is `Double`: either `nan` or an exact rational value. Comparisons follow
  IEEE-754 (every ordered comparison with `nan` is false); sums are exact.
* A pointer to an `InternalNode` is the record `InternalNode`: the fields the code reads through
  the pointer, plus the identity of the node (its tree and its position below the root).
* A bitset over the leaves of a tree is a `List Bool`, bit `i` at position `i`.
* `std::sort` is used through its contract (`IsStdSortResult`); `stdSort` is one sorting
  procedure that meets it, used to run the constructor on concrete forests.
* `score` reads `document.features[featureIndex]` without a bounds check. The functions of
  `score` take a parameter `junk : Nat → Double`, the value such a read finds at an index at or
  past the end of the feature vector; statements about `score` hold for every `junk`.
-/

namespace RapidScorer

/-! ## Doubles -/

/-- A C++ `double`: not-a-number, or a number. Finite values are exact rationals; infinities and
the sign of zero are not represented. -/
inductive Double where
  | nan
  | num (q : ℚ)
deriving DecidableEq

/-- The C++ `a < b` on doubles: false as soon as one side is `nan`. -/
def Double.lt : Double → Double → Bool
  | .num a, .num b => decide (a < b)
  | _, _ => false

/-- The C++ `a <= b` on doubles: false as soon as one side is `nan`. -/
def Double.le : Double → Double → Bool
  | .num a, .num b => decide (a ≤ b)
  | _, _ => false

/-- The C++ `a > b` on doubles. -/
def Double.gt (a b : Double) : Bool := b.lt a

/-- The C++ `a + b` on doubles, in exact arithmetic; `nan` is absorbing. -/
def Double.add : Double → Double → Double
  | .num a, .num b => .num (a + b)
  | _, _ => .nan

/-- Whether a double is not-a-number. -/
def Double.isNaN : Double → Bool
  | .nan => true
  | .num _ => false

/-! ## Trees and forests (`Tree.h`) -/

/-- Modelled from the spec: `Tree.h` (classes `Node`, `Leaf`, `InternalNode`) is not among the
sources. A leaf holds a real-valued weight; an internal node holds a feature index, a threshold
and its two children. -/
inductive Node where
  | leaf (value : Double)
  | internal (splittingFeatureIndex : Nat) (splittingThreshold : Double)
      (leftNode rightNode : Node)
deriving DecidableEq

/-- Modelled from the spec: `Node::numberOfLeaves` of the missing `Tree.h`, the number of leaves
of the subtree. -/
def Node.numberOfLeaves : Node → Nat
  | .leaf _ => 1
  | .internal _ _ l r => l.numberOfLeaves + r.numberOfLeaves

/-- Modelled from the spec: the leaf-value table of a tree (missing `Tree.h`), the weights of the
leaves in left-to-right depth-first order, so that the leaf with leaf index `i` is entry `i`. -/
def Node.leafValues : Node → List Double
  | .leaf v => [v]
  | .internal _ _ l r => l.leafValues ++ r.leafValues

/-- The positions of the leaves (branch choices from the root, `false` = left, `true` = right) in
left-to-right depth-first order: entry `i` is the position of the leaf with leaf index `i`. -/
def Node.leafPaths : Node → List (List Bool)
  | .leaf _ => [[]]
  | .internal _ _ l r =>
      l.leafPaths.map (fun p => false :: p) ++ r.leafPaths.map (fun p => true :: p)

/-- The subtree found by following the branch choices `path` from a node. -/
def Node.subtreeAt : Node → List Bool → Option Node
  | n, [] => some n
  | .leaf _, _ :: _ => none
  | .internal _ _ l _, false :: p => l.subtreeAt p
  | .internal _ _ _ r, true :: p => r.subtreeAt p

/-- Modelled from the spec: the number of leaves strictly to the left, in depth-first order, of
the node at position `path` (`leavesBefore` of the spec, computed by the missing
`Tree::countLeavesUntil`). -/
def Node.leavesBefore : Node → List Bool → Nat
  | .internal _ _ l _, false :: p => l.leavesBefore p
  | .internal _ _ l r, true :: p => l.numberOfLeaves + r.leavesBefore p
  | _, _ => 0

/-- A `std::shared_ptr<InternalNode>`: the members the code reads through the pointer
(`splittingFeatureIndex`, `splittingThreshold`, `leftNode`, `rightNode`, `getTreeIndex()`) and
the identity of the pointed node, namely its tree and its position below the root of that tree
(`false` = left child, `true` = right child). -/
structure InternalNode where
  splittingFeatureIndex : Nat
  splittingThreshold : Double
  leftNode : Node
  rightNode : Node
  treeIndex : Nat
  position : List Bool
deriving DecidableEq

/-- Modelled from the spec: class `Tree` of the missing `Tree.h`. `root` is the result of the
`dynamic_pointer_cast<InternalNode>` in `parseTree`: a null pointer when it is a leaf. -/
structure Tree where
  root : Node
deriving DecidableEq

/-- Modelled from the spec: `leafCount` of a tree (missing `Tree.h`). -/
def Tree.leafCount (t : Tree) : Nat := t.root.numberOfLeaves

/-- Modelled from the spec: `Tree::countLeavesUntil` of the missing `Tree.h`, the number of
leaves strictly to the left of the given internal node in depth-first order. -/
def Tree.countLeavesUntil (t : Tree) (node : InternalNode) : Nat :=
  t.root.leavesBefore node.position

/-- Modelled from the spec: class `Forest` of the missing `Tree.h`, an ordered collection of
trees; the tree index of a tree is its position in `trees`. -/
structure Forest where
  trees : List Tree
deriving DecidableEq

/-- Modelled from the spec: `SingleDocument` of the missing `DocGroup.h`, a dense vector of
doubles indexed from 0 (`main.cpp` fills `features` from a `std::vector<double>`). -/
structure SingleDocument where
  features : List Double
deriving DecidableEq

/-- The read `document.features[featureIndex]` of `score`. The subscript of a `std::vector` has no
bounds check: inside the vector it yields the stored feature, and at or past the end it yields
whatever lies behind the vector, which the program does not determine. `junk i` stands for the
value such a read finds at index `i`. -/
def SingleDocument.read (document : SingleDocument) (junk : Nat → Double) (featureIndex : Nat) :
    Double :=
  match document.features[featureIndex]? with
  | some value => value
  | none => junk featureIndex

/-! ## Blocks, epitomes and result masks (`Epitome.h`, `ResultMask.h`) -/

/-- The `Block` template argument: one of the unsigned integer types the driver instantiates. -/
inductive Block where
  | uint8
  | uint16
  | uint32
  | uint64
deriving DecidableEq

/-- The number of bits of a block. -/
def Block.width : Block → Nat
  | .uint8 => 8
  | .uint16 => 16
  | .uint32 => 32
  | .uint64 => 64

/-- Modelled from the spec: the width of the bitset a `ResultMask` keeps for a tree with
`leafCount` leaves, `ceil(leafCount / blockWidth) × blockWidth` (missing `ResultMask.h`). -/
def Block.roundUp (b : Block) (leafCount : Nat) : Nat :=
  ((leafCount + b.width - 1) / b.width) * b.width

/-- Modelled from the spec: `Epitome<Block>` of the missing `Epitome.h`, built by
`Epitome(leavesBefore, zeroRunLength)`: the bitset with a run of `zeroRunLength` zeros that starts
at position `leavesBefore`, and ones everywhere else. The block encoding of the run
(`firstBlock`, `lastBlock` and their two masks) is a storage layout of this bitset. -/
structure Epitome where
  leavesBefore : Nat
  zeroRunLength : Nat
deriving DecidableEq

/-- Bit `i` of an epitome: zero exactly inside the run. -/
def Epitome.bit (e : Epitome) (i : Nat) : Bool :=
  decide (i < e.leavesBefore ∨ e.leavesBefore + e.zeroRunLength ≤ i)

/-- The first `width` bits of an epitome. -/
def Epitome.bits (e : Epitome) (width : Nat) : List Bool :=
  (List.range width).map e.bit

/-- Modelled from the spec: `ResultMask<Block>` of the missing `ResultMask.h`: for every tree, in
forest order, the bitset over its leaves. -/
abbrev ResultMask := List (List Bool)

/-- Modelled from the spec: the constructor `ResultMask(forest)`: every bitset all-ones, of the
tree's leaf count rounded up to the block width. -/
def ResultMask.init (b : Block) (forest : Forest) : ResultMask :=
  forest.trees.map (fun t => List.replicate (b.roundUp t.leafCount) true)

/-- The bitwise AND of an accumulator with an epitome. -/
def andEpitome (acc : List Bool) (e : Epitome) : List Bool :=
  List.zipWith (fun x y => x && y) acc (e.bits acc.length)

/-- Modelled from the spec: `ResultMask::applyMask(epitome, treeIndex)`: AND the bitset stored for
the tree with the epitome. -/
def ResultMask.applyMask : ResultMask → Epitome → Nat → ResultMask
  | [], _, _ => []
  | acc :: rest, e, 0 => andEpitome acc e :: rest
  | acc :: rest, e, t + 1 => acc :: ResultMask.applyMask rest e t

/-- Modelled from the spec: the position of the lowest set bit of a bitset; undefined (`none`) on
the all-zero bitset. -/
def lowestSetBit : List Bool → Option Nat
  | [] => none
  | true :: _ => some 0
  | false :: bs => (lowestSetBit bs).map (fun k => k + 1)

/-- Modelled from the spec: `ResultMask::computeScore`, serial: for each tree in forest order, the
lowest set bit of its bitset is the leaf index, whose weight is looked up in the leaf-value
table of the tree and added to the running sum. -/
def computeScoreFrom : List Tree → ResultMask → Double → Option Double
  | [], _, sum => some sum
  | _ :: _, [], _ => none
  | t :: ts, acc :: rest, sum =>
      match lowestSetBit acc with
      | none => none
      | some leaf =>
          match t.root.leafValues[leaf]? with
          | none => none
          | some w => computeScoreFrom ts rest (sum.add w)

/-- Modelled from the spec: `ResultMask::computeScore` on the trees of the forest, from sum 0. -/
def ResultMask.computeScore (result : ResultMask) (forest : Forest) : Option Double :=
  computeScoreFrom forest.trees result (.num 0)

/-! ## The linearized scorer (`rapidscorer/LinearizedRapidScorer.h`) -/

/-- `LinearizedRapidScorer::addNodes`, on the subtree `node` at position `position` of tree
`treeIndex`: push the node, then its left child and its right child when they are internal
nodes. On a leaf (the `dynamic_pointer_cast` gives a null pointer) nothing is added. -/
def addNodes (treeIndex : Nat) : List Bool → Node → List InternalNode → List InternalNode
  | _, .leaf _, ret => ret
  | position, .internal f t l r, ret =>
      let ret := ret ++ [{ splittingFeatureIndex := f, splittingThreshold := t, leftNode := l,
                           rightNode := r, treeIndex := treeIndex, position := position }]
      let ret := addNodes treeIndex (position ++ [false]) l ret
      addNodes treeIndex (position ++ [true]) r ret

/-- `LinearizedRapidScorer::nodeComparator`. -/
def nodeComparator (node1 node2 : InternalNode) : Bool :=
  if node1.splittingFeatureIndex < node2.splittingFeatureIndex then true
  else if node1.splittingFeatureIndex > node2.splittingFeatureIndex then false
  else node1.splittingThreshold.lt node2.splittingThreshold

/-- The first loop of the constructor: `addNodes(nodes, tree.root)` for every tree, from tree
index `treeIndex` on. A root that is a leaf is a null `InternalNode` pointer, whose dereference
in `addNodes` fails. -/
def collectNodes : List Tree → Nat → List InternalNode → Option (List InternalNode)
  | [], _, nodes => some nodes
  | t :: ts, treeIndex, nodes =>
      match t.root with
      | .leaf _ => none
      | .internal f x l r =>
          collectNodes ts (treeIndex + 1) (addNodes treeIndex [] (.internal f x l r) nodes)

/-- The contract of `std::sort(first, last, comp)`: the result is a rearrangement of the input in
which no element is `comp`-smaller than an element placed before it. -/
def IsStdSortResult (nodes sorted : List InternalNode) : Prop :=
  sorted.Perm nodes ∧ sorted.Pairwise (fun a b => nodeComparator b a = false)

/-- Insertion of a node into a sorted list, before the first element it is smaller than. -/
def sortInsert (node : InternalNode) : List InternalNode → List InternalNode
  | [] => [node]
  | x :: xs => if nodeComparator node x then node :: x :: xs else x :: sortInsert node xs

/-- One sorting procedure for `std::sort(nodes.begin(), nodes.end(), nodeComparator)`: insertion
sort, which keeps the relative order of equal elements. -/
def stdSort (nodes : List InternalNode) : List InternalNode :=
  nodes.foldl (fun sorted node => sortInsert node sorted) []

/-- The epitome the constructor builds for a node:
`Epitome(forest->trees[node->getTreeIndex()].countLeavesUntil(node),
node->leftNode->numberOfLeaves())`. -/
def epitomeOf (forest : Forest) (node : InternalNode) : Epitome :=
  { leavesBefore :=
      match forest.trees[node.treeIndex]? with
      | some t => t.countLeavesUntil node
      | none => 0
    zeroRunLength := node.leftNode.numberOfLeaves }

/-- The class `LinearizedRapidScorer<Block>`: its members, the template argument, and the
counter `i` of the constructor loop. -/
structure LinearizedRapidScorer where
  block : Block
  forest : Forest
  featureThresholds : List Double
  treeIndexes : List Nat
  epitomes : List Epitome
  offsets : List Nat
  i : Nat
deriving DecidableEq

/-- The body of the second loop of the constructor, for one node. The inner `while` loop appends
`i` to `offsets` until `offsets.size() > node->splittingFeatureIndex`, that is
`splittingFeatureIndex + 1 - offsets.size()` times. -/
def LinearizedRapidScorer.addNode (s : LinearizedRapidScorer) (node : InternalNode) :
    LinearizedRapidScorer :=
  { s with
    featureThresholds := s.featureThresholds ++ [node.splittingThreshold]
    treeIndexes := s.treeIndexes ++ [node.treeIndex]
    epitomes := s.epitomes ++ [epitomeOf s.forest node]
    offsets := s.offsets ++
      List.replicate (node.splittingFeatureIndex + 1 - s.offsets.length) s.i
    i := s.i + 1 }

/-- The constructor after `std::sort`: the second loop over the sorted nodes. -/
def LinearizedRapidScorer.build (block : Block) (forest : Forest) (sorted : List InternalNode) :
    LinearizedRapidScorer :=
  sorted.foldl LinearizedRapidScorer.addNode
    { block := block, forest := forest, featureThresholds := [], treeIndexes := [],
      epitomes := [], offsets := [], i := 0 }

/-- The constructor `LinearizedRapidScorer(config, forest)`, with `stdSort` for `std::sort`. It
fails when a tree of the forest is rooted at a leaf. -/
def LinearizedRapidScorer.new (block : Block) (forest : Forest) : Option LinearizedRapidScorer :=
  (collectNodes forest.trees 0 []).map (fun nodes => build block forest (stdSort nodes))

/-- The loop of `std::lower_bound(first, last, value)` on the array `v`: `first` and `len` are
the loop variables, `fuel` bounds the number of iterations. -/
def lowerBoundLoop (v : List Double) (value : Double) : Nat → Nat → Nat → Nat
  | 0, first, _ => first
  | fuel + 1, first, len =>
      if len = 0 then first
      else
        let half := len / 2
        let middle := first + half
        if (v.getD middle .nan).lt value then
          lowerBoundLoop v value fuel (middle + 1) (len - half - 1)
        else
          lowerBoundLoop v value fuel first half

/-- The index returned by `std::lower_bound(v.begin() + start, v.begin() + stop, value)`; the
loop halves `len` at each iteration, so `stop - start` iterations are enough. -/
def lowerBound (v : List Double) (start stop : Nat) (value : Double) : Nat :=
  lowerBoundLoop v value (stop - start) start (stop - start)

/-- The body of the feature loop of `score` for one `featureIndex`. The feature is read
without a length test (`junk` gives the values found past the end of the feature vector). The
arrays of the scorer are read with a default value: the constructor keeps these indices inside
their bounds. -/
def LinearizedRapidScorer.scoreFeature (s : LinearizedRapidScorer) (junk : Nat → Double)
    (document : SingleDocument) (result : ResultMask) (featureIndex : Nat) : ResultMask :=
  let value := document.read junk featureIndex
  let start := s.offsets.getD featureIndex 0
  let stop :=
    if featureIndex + 1 < s.offsets.length then s.offsets.getD (featureIndex + 1) 0
    else s.featureThresholds.length
  let epitomesToEpitome := lowerBound s.featureThresholds start stop value
  (List.range' start (epitomesToEpitome - start)).foldl
    (fun r j => r.applyMask (s.epitomes.getD j ⟨0, 0⟩) (s.treeIndexes.getD j 0)) result

/-- `LinearizedRapidScorer::score` with the iterations of the feature loop executed in the order
`order`. The only step that can fail is `computeScore`. -/
def LinearizedRapidScorer.scoreInOrder (s : LinearizedRapidScorer) (junk : Nat → Double)
    (order : List Nat) (document : SingleDocument) : Option (List Double) :=
  match (order.foldl (s.scoreFeature junk document)
      (ResultMask.init s.block s.forest)).computeScore s.forest with
  | none => none
  | some total => some [total]

/-- `LinearizedRapidScorer::score`: the feature loop runs over `0 .. offsets.size() - 1`. -/
def LinearizedRapidScorer.score (s : LinearizedRapidScorer) (junk : Nat → Double)
    (document : SingleDocument) : Option (List Double) :=
  s.scoreInOrder junk (List.range s.offsets.length) document

/-! ## Equal nodes (`EqNode.h`) -/

/-- The C++ `a == b` on doubles: false as soon as one side is `nan`. -/
def Double.eq : Double → Double → Bool
  | .num a, .num b => decide (a = b)
  | _, _ => false

/-- The class `EqNode<Block>`. -/
structure EqNode where
  featureIndex : Nat
  featureThreshold : Double
  treeIndex : Nat
  epitome : Epitome
deriving DecidableEq

/-- The constructor `EqNode(node, epitome)`. -/
def EqNode.ofNode (node : InternalNode) (epitome : Epitome) : EqNode :=
  { featureIndex := node.splittingFeatureIndex
    featureThreshold := node.splittingThreshold
    treeIndex := node.treeIndex
    epitome := epitome }

/-- `EqNode::operator<`. -/
def EqNode.lt (a rhs : EqNode) : Bool :=
  if a.featureIndex < rhs.featureIndex then true
  else if a.featureIndex > rhs.featureIndex then false
  else a.featureThreshold.lt rhs.featureThreshold

/-- `EqNode::operator>`. -/
def EqNode.gt (a rhs : EqNode) : Bool := rhs.lt a

/-- `EqNode::operator<=`. -/
def EqNode.le (a rhs : EqNode) : Bool := !(rhs.lt a)

/-- `EqNode::operator>=`. -/
def EqNode.ge (a rhs : EqNode) : Bool := !(a.lt rhs)

/-! ## The reference: plain tree traversal -/

/-- The leaf a document reaches from a node with the rule "`features[featureIndex] <= threshold`
goes left, otherwise right": its position below the node. A missing feature gives `none`. -/
def Node.reach (features : List Double) : Node → Option (List Bool)
  | .leaf _ => some []
  | .internal f t l r =>
      match features[f]? with
      | none => none
      | some x =>
          if x.le t then (l.reach features).map (fun p => false :: p)
          else (r.reach features).map (fun p => true :: p)

/-- The weight of the leaf a document reaches from a node, with the same rule. -/
def Node.traverse (features : List Double) : Node → Option Double
  | .leaf v => some v
  | .internal f t l r =>
      match features[f]? with
      | none => none
      | some x => if x.le t then l.traverse features else r.traverse features

/-- The reference score: traverse each tree from its root, in forest order, and add the weight of
the reached leaf to the running sum. -/
def referenceFrom (features : List Double) : List Tree → Double → Option Double
  | [], sum => some sum
  | t :: ts, sum =>
      match t.root.traverse features with
      | none => none
      | some w => referenceFrom features ts (sum.add w)

/-- The reference score of a document on a forest. -/
def referenceScore (forest : Forest) (document : SingleDocument) : Option Double :=
  referenceFrom document.features forest.trees (.num 0)

/-! ## Scenarios -/

/-- The tree of scenario S1: one split on feature 0 at 0.5, left leaf 1.0, right leaf 2.0. -/
def treeS1 : Tree := ⟨.internal 0 (.num (1/2)) (.leaf (.num 1)) (.leaf (.num 2))⟩

/-- The forest of scenario S1. -/
def forestS1 : Forest := ⟨[treeS1]⟩

/-- The forest of scenario S2: two trees, each identical to the tree of S1. -/
def forestS2 : Forest := ⟨[treeS1, treeS1]⟩

/-! ## The model parser (`main.cpp`) -/

/-- A JSON value that is not an object or array, as `rapidjson` (an external library) presents
it. -/
inductive JsonScalar where
  | null
  | bool (b : Bool)
  | int (i : Int)
  | double (d : Double)
  | string (s : String)
deriving DecidableEq

/-- A JSON object of the model file, seen through the members `parseNode` reads: each member is
absent (`none`) or present with its value; the two children are JSON objects. -/
inductive JsonObject where
  | mk (split_feature decision_type default_left threshold leaf_value : Option JsonScalar)
      (left_child right_child : Option JsonObject)

/-- `GetInt()` of `rapidjson`: the value must be an integer that fits an `int`. -/
def JsonScalar.getInt : JsonScalar → Option Int
  | .int i => if -2 ^ 31 ≤ i ∧ i < 2 ^ 31 then some i else none
  | _ => none

/-- `GetDouble()` of `rapidjson`: the value must be a number. -/
def JsonScalar.getDouble : JsonScalar → Option Double
  | .double d => some d
  | .int i => some (.num i)
  | _ => none

/-- `parseNode` of `main.cpp`. A failed `assert`, the lookup of an absent member and a getter
on a value of the wrong type all abort the program: the result is `none`. The `int` feature
index becomes the unsigned `splittingFeatureIndex`. -/
def parseNode : JsonObject → Option Node
  | .mk (some sf) dt dl th _ lc rc =>
      if dt ≠ some (.string "<=") then none
      else if dl ≠ some (.bool true) then none
      else
        match sf.getInt, th.bind JsonScalar.getDouble, lc, rc with
        | some i, some x, some jl, some jr =>
            match parseNode jl, parseNode jr with
            | some l, some r => some (.internal (i % 2 ^ 32).toNat x l r)
            | _, _ => none
        | _, _, _, _ => none
  | .mk none _ _ _ lv _ _ =>
      match lv.bind JsonScalar.getDouble with
      | some v => some (.leaf v)
      | none => none

/-- Whether the JSON tree has, at some depth (the node itself, or below the children of a node
with a `split_feature`), a node with a `split_feature` member whose `decision_type` is not
`"<="` or whose `default_left` is not `true`. -/
def JsonObject.rejected : JsonObject → Bool
  | .mk (some _) dt dl _ _ lc rc =>
      decide (dt ≠ some (.string "<=")) || decide (dl ≠ some (.bool true)) ||
        (match lc with
          | some jl => jl.rejected
          | none => false) ||
        (match rc with
          | some jr => jr.rejected
          | none => false)
  | .mk none _ _ _ _ _ _ => false

/-- Whether a JSON value is a feature index: an `int` that is not negative. -/
def JsonScalar.isFeatureIndex (v : JsonScalar) : Bool :=
  match v.getInt with
  | some i => decide (0 ≤ i)
  | none => false

/-- Whether the JSON tree is well-formed: a node with a `split_feature` has a non-negative `int`
feature, a numeric `threshold` and two well-formed children; a node without has a numeric
`leaf_value`. -/
def JsonObject.wellFormed : JsonObject → Bool
  | .mk (some sf) _ _ th _ lc rc =>
      sf.isFeatureIndex && (th.bind JsonScalar.getDouble).isSome &&
        (match lc with
          | some jl => jl.wellFormed
          | none => false) &&
        (match rc with
          | some jr => jr.wellFormed
          | none => false)
  | .mk none _ _ _ lv _ _ => (lv.bind JsonScalar.getDouble).isSome

/-- The JSON of the tree of S1. -/
def jsonS1 : JsonObject :=
  .mk (some (.int 0)) (some (.string "<=")) (some (.bool true)) (some (.double (.num (1/2)))) none
    (some (.mk none none none none (some (.double (.num 1))) none none))
    (some (.mk none none none none (some (.double (.num 2))) none none))

/-- The JSON of the tree of S1 with the decision type `"<"` in a node below the root. -/
def jsonBadChild : JsonObject :=
  .mk (some (.int 0)) (some (.string "<=")) (some (.bool true)) (some (.double (.num (1/2))))
    none
    (some (.mk none none none none (some (.double (.num 1))) none none))
    (some (.mk (some (.int 0)) (some (.string "<")) (some (.bool true))
      (some (.double (.num (1/2)))) none
      (some (.mk none none none none (some (.double (.num 1))) none none))
      (some (.mk none none none none (some (.double (.num 2))) none none))))

/-! ## The document parser (`main.cpp`) -/

/-- `std::getline(ss, token, ' ')` on the unread characters of the stream: at the end of the
stream it fails (`none`); otherwise it returns the characters up to the next space, or up to the
end of the stream, and leaves the characters after that space unread. -/
def getline : List Char → Option (List Char × List Char)
  | [] => none
  | c :: cs =>
      if c = ' ' then some ([], cs)
      else
        match getline cs with
        | none => some ([c], [])
        | some (token, rest) => some (c :: token, rest)

/-- The `while (std::getline(ss, token, ' '))` loop of `parseDocumentLine`, `ss` being the
unread characters and `ret` the vector built so far. `sscanf` is the C library call
`sscanf(token.c_str(), "%d:%lf", &featureId, &value)`: it gives the two values when the call
returns 2. A failed `assert` aborts the program (`none`). Every iteration consumes a character,
so `fuel` greater than the number of unread characters is enough. -/
def parseDocumentLoop (sscanf : List Char → Option (Int × Double)) :
    Nat → List Char → List Double → Option (List Double)
  | 0, _, _ => none
  | fuel + 1, ss, ret =>
      match getline ss with
      | none => some ret
      | some (token, rest) =>
          match sscanf token with
          | some (featureId, value) =>
              if featureId = ((ret ++ [value]).length : Int) then
                parseDocumentLoop sscanf fuel rest (ret ++ [value])
              else none
          | none => parseDocumentLoop sscanf fuel rest ret

/-- The unread characters after a `std::getline` whose token is ignored. -/
def skipToken (ss : List Char) : List Char :=
  match getline ss with
  | none => []
  | some (_, rest) => rest

/-- `parseDocumentLine` of `main.cpp`: two tokens are read and ignored, then the loop runs on
the rest of the line. -/
def parseDocumentLine (sscanf : List Char → Option (Int × Double)) (line : List Char) :
    Option (List Double) :=
  parseDocumentLoop sscanf ((skipToken (skipToken line)).length + 1)
    (skipToken (skipToken line)) []

/-- The decimal digits at the start of a character sequence: their value continuing `value`,
how many there are, and the characters after them. -/
def readDigits : List Char → Nat → Nat × Nat × List Char
  | [], value => (value, 0, [])
  | c :: cs, value =>
      if '0' ≤ c ∧ c ≤ '9' then
        let r := readDigits cs (10 * value + (c.toNat - 48))
        (r.1, r.2.1 + 1, r.2.2)
      else (value, 0, c :: cs)

/-- The conversion `%d` on a token in plain decimal notation: an optional sign and at least one
digit; the characters after the number are returned as well. -/
def scanInt (s : List Char) : Option (Int × List Char) :=
  match s with
  | '-' :: cs =>
      let r := readDigits cs 0
      if r.2.1 = 0 then none else some (-(r.1 : Int), r.2.2)
  | '+' :: cs =>
      let r := readDigits cs 0
      if r.2.1 = 0 then none else some ((r.1 : Int), r.2.2)
  | cs =>
      let r := readDigits cs 0
      if r.2.1 = 0 then none else some ((r.1 : Int), r.2.2)

/-- The digits of an unsigned decimal number `ddd` or `ddd.ddd`, as an exact rational. -/
def scanUnsigned (s : List Char) : Option ℚ :=
  let r := readDigits s 0
  match r.2.2 with
  | '.' :: cs =>
      let q := readDigits cs 0
      if r.2.1 + q.2.1 = 0 then none
      else some ((r.1 : ℚ) + (q.1 : ℚ) / (10 ^ q.2.1 : Nat))
  | _ => if r.2.1 = 0 then none else some (r.1 : ℚ)

/-- The conversion `%lf` on a token in plain decimal notation (no exponent, no `inf` or `nan`),
with its exact value. -/
def scanDouble (s : List Char) : Option Double :=
  match s with
  | '-' :: cs => (scanUnsigned cs).map (fun q => .num (-q))
  | '+' :: cs => (scanUnsigned cs).map (fun q => .num q)
  | cs => (scanUnsigned cs).map (fun q => .num q)

/-- The call `sscanf(token, "%d:%lf", &featureId, &value)` on tokens in plain decimal notation:
the two values when it returns 2. -/
def sscanfDecimal (token : List Char) : Option (Int × Double) :=
  match scanInt token with
  | some (featureId, ':' :: rest) => (scanDouble rest).map (fun value => (featureId, value))
  | _ => none

/-- The tokens `std::getline` returns when it is called until it fails. -/
def tokensOf : List Char → List (List Char)
  | [] => []
  | c :: cs =>
      if c = ' ' then [] :: tokensOf cs
      else
        match tokensOf cs with
        | [] => [[c]]
        | token :: rest => (c :: token) :: rest

/-- The loop of `parseDocumentLine` on the tokens that remain to be read. -/
def parseTokens (sscanf : List Char → Option (Int × Double)) :
    List (List Char) → List Double → Option (List Double)
  | [], ret => some ret
  | token :: rest, ret =>
      match sscanf token with
      | some (featureId, value) =>
          if featureId = ((ret ++ [value]).length : Int) then
            parseTokens sscanf rest (ret ++ [value])
          else none
      | none => parseTokens sscanf rest ret

/-- Whether each label is its 1-based position, the positions starting after `start`. -/
def labelsOk : Nat → List (Int × Double) → Bool
  | _, [] => true
  | start, (featureId, _) :: rest =>
      decide (featureId = ((start + 1 : Nat) : Int)) && labelsOk (start + 1) rest

/-- Tokens joined by single spaces. -/
def joinSpace : List (List Char) → List Char
  | [] => []
  | [token] => token
  | token :: rest => token ++ ' ' :: joinSpace rest

/-! ## Auxiliary notions for the proofs -/

/-- The test that decides whether `score` applies the epitome of a split on feature `f` with
threshold `threshold`: `threshold < document.features[f]` (a missing feature reads as `nan`). -/
def conditionFails (features : List Double) (f : Nat) (threshold : Double) : Bool :=
  threshold.lt (features.getD f .nan)

/-- The internal nodes of a subtree in the order `addNodes` pushes them. -/
def nodesOf (treeIndex : Nat) : List Bool → Node → List InternalNode
  | _, .leaf _ => []
  | position, .internal f t l r =>
      { splittingFeatureIndex := f, splittingThreshold := t, leftNode := l, rightNode := r,
        treeIndex := treeIndex, position := position } ::
        (nodesOf treeIndex (position ++ [false]) l ++ nodesOf treeIndex (position ++ [true]) r)

/-- The internal nodes of the trees of a forest, tree by tree, from tree index `treeIndex`. -/
def forestNodes : List Tree → Nat → List InternalNode
  | [], _ => []
  | t :: ts, treeIndex => nodesOf treeIndex [] t.root ++ forestNodes ts (treeIndex + 1)

/-- The leaf index, within the subtree, of the leaf reached when each split sends the document
right exactly if `conditionFails`. -/
def Node.exitIndex (features : List Double) : Node → Nat
  | .leaf _ => 0
  | .internal f t l r =>
      if conditionFails features f t then l.numberOfLeaves + r.exitIndex features
      else l.exitIndex features

/-- Whether bit `i` is set in every epitome of a failing node of the subtree, the subtree having
`before` leaves to its left. -/
def Node.survives (features : List Double) (i : Nat) : Nat → Node → Bool
  | _, .leaf _ => true
  | before, .internal f t l r =>
      (!conditionFails features f t || Epitome.bit ⟨before, l.numberOfLeaves⟩ i) &&
        (l.survives features i before && r.survives features i (before + l.numberOfLeaves))

/-- Whether a node is an internal node. -/
def Node.isInternal : Node → Bool
  | .leaf _ => false
  | .internal _ _ _ _ => true

/-- The result mask after a sequence of `applyMask(epitome, treeIndex)` calls. -/
def applyAll (r : ResultMask) (apps : List (Epitome × Nat)) : ResultMask :=
  apps.foldl (fun r a => r.applyMask a.1 a.2) r

/-- The arguments `(epitomes[j], treeIndexes[j])` of the `applyMask` call for flattened entry
`j`. -/
def LinearizedRapidScorer.entry (s : LinearizedRapidScorer) (j : Nat) : Epitome × Nat :=
  (s.epitomes.getD j ⟨0, 0⟩, s.treeIndexes.getD j 0)

/-- The document `document` continued up to length `n` by the values that reads past its end
find: the feature loop of `score` over `featureIndex < n` reads the same values from both. -/
def SingleDocument.pad (document : SingleDocument) (junk : Nat → Double) (n : Nat) :
    SingleDocument :=
  ⟨document.features ++
    (List.range (n - document.features.length)).map
      (fun i => junk (document.features.length + i))⟩

/-- The flattened entries `j` for which the iteration `featureIndex` of the feature loop of
`score` calls `applyMask`, in call order: `start, ..., epitomesToEpitome - 1`, on a document
that holds the feature `featureIndex`. -/
def LinearizedRapidScorer.appliedAt (s : LinearizedRapidScorer) (document : SingleDocument)
    (featureIndex : Nat) : List Nat :=
  let start := s.offsets.getD featureIndex 0
  let stop :=
    if featureIndex + 1 < s.offsets.length then s.offsets.getD (featureIndex + 1) 0
    else s.featureThresholds.length
  List.range' start
    (lowerBound s.featureThresholds start stop (document.features.getD featureIndex .nan) - start)

/-- The flattened entries for which `score` calls `applyMask`, in call order, when the feature
loop runs in the order `order`. -/
def LinearizedRapidScorer.appliedInOrder (s : LinearizedRapidScorer) (order : List Nat)
    (document : SingleDocument) : List Nat :=
  order.flatMap (s.appliedAt document)

/-- The flattened entries for which `score` calls `applyMask`, in call order. -/
def LinearizedRapidScorer.applied (s : LinearizedRapidScorer) (document : SingleDocument) :
    List Nat :=
  s.appliedInOrder (List.range s.offsets.length) document

/-- The nodes are in ascending order of feature index. -/
def FeatureSorted (sorted : List InternalNode) : Prop :=
  sorted.Pairwise (fun a b => a.splittingFeatureIndex ≤ b.splittingFeatureIndex)

/-- The exclusive end of the slice of feature `featureIndex`, as `score` computes it. -/
def LinearizedRapidScorer.stopOf (s : LinearizedRapidScorer) (featureIndex : Nat) : Nat :=
  if featureIndex + 1 < s.offsets.length then s.offsets.getD (featureIndex + 1) 0
  else s.featureThresholds.length

/-- The sum `computeScore` returns when every tree contributes the leaf of `Node.exitIndex`:
the weights are added in forest order to the running sum. -/
def exitScoreFrom (features : List Double) : List Tree → Double → Double
  | [], sum => sum
  | t :: ts, sum =>
      exitScoreFrom features ts
        (sum.add (t.root.leafValues.getD (t.root.exitIndex features) .nan))

/-- A forest with a not-a-number threshold: one tree, one split on feature 0 at NaN, left leaf
1.0, right leaf 2.0. -/
def forestNaN : Forest := ⟨[⟨.internal 0 .nan (.leaf (.num 1)) (.leaf (.num 2))⟩]⟩

/-- A forest with a not-a-number threshold above a second split on the same feature: the root
splits feature 0 at NaN (left leaf 1.0), its right child splits feature 0 at 1.0 (leaves 2.0 and
3.0). -/
def forestNaNRoot : Forest :=
  ⟨[⟨.internal 0 .nan (.leaf (.num 1))
      (.internal 0 (.num 1) (.leaf (.num 2)) (.leaf (.num 3)))⟩]⟩

/-- A forest with a sparse feature distribution: one tree, one split on feature 2 at 1.0. -/
def forestSparse : Forest := ⟨[⟨.internal 2 (.num 1) (.leaf (.num 1)) (.leaf (.num 2))⟩]⟩

/-- A forest of one tree of depth 2: the root splits feature 1 at 2.0, its left child splits
feature 0 at 1.0 (leaves 10 and 20), its right child splits feature 1 at 1.0 (leaves 30 and
40). -/
def forestDeep : Forest :=
  ⟨[⟨.internal 1 (.num 2)
      (.internal 0 (.num 1) (.leaf (.num 10)) (.leaf (.num 20)))
      (.internal 1 (.num 1) (.leaf (.num 30)) (.leaf (.num 40)))⟩]⟩

/-- A forest in which two nodes with the same split are separated by a NaN threshold: one tree
whose root splits feature 0 at 1.0 (left leaf 1.0), whose right child splits feature 0 at NaN
(left leaf 2.0), and whose right grandchild splits feature 0 at 1.0 (leaves 3.0 and 4.0). -/
def forestTies : Forest :=
  ⟨[⟨.internal 0 (.num 1) (.leaf (.num 1))
      (.internal 0 .nan (.leaf (.num 2))
        (.internal 0 (.num 1) (.leaf (.num 3)) (.leaf (.num 4))))⟩]⟩

/-- The number of internal nodes of a subtree. -/
def Node.internalCount : Node → Nat
  | .leaf _ => 0
  | .internal _ _ l r => 1 + l.internalCount + r.internalCount

/-- Two `EqNode`s with the same split (feature 3, threshold 0.5) of different trees, with
different epitomes. -/
def eqNodeA : EqNode := ⟨3, .num (1/2), 0, ⟨0, 1⟩⟩

/-- See `eqNodeA`. -/
def eqNodeB : EqNode := ⟨3, .num (1/2), 7, ⟨2, 4⟩⟩

/-- An `EqNode` on feature 3 with the larger threshold 1.5. -/
def eqNodeC : EqNode := ⟨3, .num (3/2), 1, ⟨1, 1⟩⟩

unseal Rat.add Rat.mul Rat.inv

/-! ## Bitsets -/

theorem andEpitome_length (acc : List Bool) (e : Epitome) :
    (andEpitome acc e).length = acc.length := by
  simp [andEpitome, Epitome.bits]

theorem andEpitome_getD (acc : List Bool) (e : Epitome) (i : Nat) :
    (andEpitome acc e).getD i false = (acc.getD i false && e.bit i) := by
  by_cases h : i < acc.length
  · have h2 : i < (andEpitome acc e).length := by rw [andEpitome_length]; exact h
    rw [List.getD_eq_getElem _ _ h2, List.getD_eq_getElem _ _ h]
    simp [andEpitome, Epitome.bits]
  · have h2 : ¬ i < (andEpitome acc e).length := by rw [andEpitome_length]; exact h
    rw [List.getD_eq_default _ _ (Nat.le_of_not_lt h2), List.getD_eq_default _ _ (Nat.le_of_not_lt h)]
    rfl

theorem applyMask_length (r : ResultMask) (e : Epitome) (t : Nat) :
    (r.applyMask e t).length = r.length := by
  induction r generalizing t with
  | nil => rfl
  | cons acc rest ih =>
    cases t with
    | zero => rfl
    | succ t => simp [ResultMask.applyMask, ih]

theorem applyMask_getD (r : ResultMask) (e : Epitome) (t u : Nat) :
    (r.applyMask e t).getD u [] = if u = t then andEpitome (r.getD u []) e else r.getD u [] := by
  induction r generalizing t u with
  | nil => by_cases h : u = t <;> simp [ResultMask.applyMask, andEpitome, h]
  | cons acc rest ih =>
    cases t with
    | zero =>
      cases u with
      | zero => simp [ResultMask.applyMask]
      | succ u => simp [ResultMask.applyMask]
    | succ t =>
      cases u with
      | zero => simp [ResultMask.applyMask]
      | succ u => simpa [ResultMask.applyMask] using ih t u

theorem applyAll_length (r : ResultMask) (apps : List (Epitome × Nat)) :
    (applyAll r apps).length = r.length := by
  induction apps generalizing r with
  | nil => rfl
  | cons a rest ih => simp only [applyAll, List.foldl_cons] at ih ⊢; rw [ih, applyMask_length]

theorem applyAll_append (r : ResultMask) (xs ys : List (Epitome × Nat)) :
    applyAll r (xs ++ ys) = applyAll (applyAll r xs) ys := by
  simp [applyAll, List.foldl_append]

theorem applyAll_getD (r : ResultMask) (apps : List (Epitome × Nat)) (t i : Nat) :
    ((applyAll r apps).getD t []).getD i false =
      ((r.getD t []).getD i false && apps.all (fun a => decide (a.2 ≠ t) || a.1.bit i)) := by
  induction apps generalizing r with
  | nil => simp [applyAll]
  | cons a rest ih =>
    have h := ih (r.applyMask a.1 a.2)
    simp only [applyAll, List.foldl_cons] at h ⊢
    rw [h, applyMask_getD]
    by_cases ht : t = a.2
    · subst ht
      rw [if_pos rfl, andEpitome_getD]
      simp [Bool.and_assoc]
    · have ht2 : a.2 ≠ t := fun h => ht h.symm
      simp [ht, ht2]

theorem applyAll_getD_length (r : ResultMask) (apps : List (Epitome × Nat)) (t : Nat) :
    ((applyAll r apps).getD t []).length = (r.getD t []).length := by
  induction apps generalizing r with
  | nil => rfl
  | cons a rest ih =>
    have h := ih (r.applyMask a.1 a.2)
    simp only [applyAll, List.foldl_cons] at h ⊢
    rw [h, applyMask_getD]
    by_cases ht : t = a.2
    · simp [ht, andEpitome_length]
    · simp [ht]

theorem lowestSetBit_eq_some (bs : List Bool) (k : Nat) (hk : bs.getD k false = true)
    (hlow : ∀ i, i < k → bs.getD i false = false) : lowestSetBit bs = some k := by
  induction bs generalizing k with
  | nil => simp at hk
  | cons b bs ih =>
    cases k with
    | zero =>
      have hb : b = true := by simpa using hk
      subst hb
      rfl
    | succ k =>
      have hb : b = false := by simpa using hlow 0 (Nat.succ_pos k)
      subst hb
      have hk2 : bs.getD k false = true := by simpa using hk
      have hlow2 : ∀ i, i < k → bs.getD i false = false := by
        intro i hi
        simpa using hlow (i + 1) (Nat.succ_lt_succ hi)
      simp [lowestSetBit, ih k hk2 hlow2]

/-! ## Trees -/

theorem Node.numberOfLeaves_pos (n : Node) : 0 < n.numberOfLeaves := by
  cases n with
  | leaf v => simp [Node.numberOfLeaves]
  | internal f t l r =>
    have := Node.numberOfLeaves_pos l
    simp only [Node.numberOfLeaves]
    omega

theorem Node.leafValues_length (n : Node) : n.leafValues.length = n.numberOfLeaves := by
  induction n with
  | leaf v => rfl
  | internal f t l r ihl ihr => simp [Node.leafValues, Node.numberOfLeaves, ihl, ihr]

theorem Node.leafPaths_length (n : Node) : n.leafPaths.length = n.numberOfLeaves := by
  induction n with
  | leaf v => rfl
  | internal f t l r ihl ihr => simp [Node.leafPaths, Node.numberOfLeaves, ihl, ihr]

theorem Node.exitIndex_lt (features : List Double) (n : Node) :
    n.exitIndex features < n.numberOfLeaves := by
  induction n with
  | leaf v => simp [Node.exitIndex, Node.numberOfLeaves]
  | internal f t l r ihl ihr =>
    simp only [Node.exitIndex, Node.numberOfLeaves]
    split <;> omega

theorem addNodes_eq (treeIndex : Nat) (position : List Bool) (node : Node)
    (ret : List InternalNode) :
    addNodes treeIndex position node ret = ret ++ nodesOf treeIndex position node := by
  induction node generalizing position ret with
  | leaf v => simp [addNodes, nodesOf]
  | internal f t l r ihl ihr => simp [addNodes, nodesOf, ihl, ihr]

theorem collectNodes_eq (trees : List Tree) (treeIndex : Nat) (nodes : List InternalNode)
    (h : ∀ t ∈ trees, t.root.isInternal = true) :
    collectNodes trees treeIndex nodes = some (nodes ++ forestNodes trees treeIndex) := by
  induction trees generalizing treeIndex nodes with
  | nil => simp [collectNodes, forestNodes]
  | cons t ts ih =>
    have ht : t.root.isInternal = true := h t (List.mem_cons_self _ _)
    have hts : ∀ u ∈ ts, u.root.isInternal = true := fun u hu => h u (List.mem_cons_of_mem _ hu)
    cases hr : t.root with
    | leaf v => simp [hr, Node.isInternal] at ht
    | internal f x l r =>
      simp only [collectNodes, hr, forestNodes]
      rw [ih _ _ hts, addNodes_eq, List.append_assoc]

theorem collectNodes_isSome (trees : List Tree) (treeIndex : Nat) (nodes result : List InternalNode)
    (h : collectNodes trees treeIndex nodes = some result) :
    ∀ t ∈ trees, t.root.isInternal = true := by
  induction trees generalizing treeIndex nodes with
  | nil => simp
  | cons t ts ih =>
    cases hr : t.root with
    | leaf v => simp [collectNodes, hr] at h
    | internal f x l r =>
      simp only [collectNodes, hr] at h
      intro u hu
      rcases List.mem_cons.mp hu with rfl | hu
      · simp [hr, Node.isInternal]
      · exact ih _ _ h u hu

theorem Node.survives_outside (features : List Double) (n : Node) (before i : Nat)
    (h : i < before ∨ before + n.numberOfLeaves ≤ i) : n.survives features i before = true := by
  induction n generalizing before with
  | leaf v => rfl
  | internal f t l r ihl ihr =>
    simp only [Node.numberOfLeaves] at h
    have hl := ihl before (by omega)
    have hr := ihr (before + l.numberOfLeaves) (by omega)
    have hb : Epitome.bit ⟨before, l.numberOfLeaves⟩ i = true := by
      simp only [Epitome.bit, decide_eq_true_eq]; omega
    simp [Node.survives, hl, hr, hb]

theorem Node.survives_exitIndex (features : List Double) (n : Node) (before : Nat) :
    n.survives features (before + n.exitIndex features) before = true := by
  induction n generalizing before with
  | leaf v => rfl
  | internal f t l r ihl ihr =>
    by_cases hc : conditionFails features f t = true
    · have hr := ihr (before + l.numberOfLeaves)
      have hl := Node.survives_outside features l before
        (before + (l.numberOfLeaves + r.exitIndex features)) (by omega)
      have hb : Epitome.bit ⟨before, l.numberOfLeaves⟩
          (before + (l.numberOfLeaves + r.exitIndex features)) = true := by
        simp only [Epitome.bit, decide_eq_true_eq]; omega
      rw [Nat.add_assoc] at hr
      simp [Node.survives, Node.exitIndex, hc, hl, hr, hb]
    · have hc2 : conditionFails features f t = false := by simpa using hc
      have hlt := Node.exitIndex_lt features l
      have hl := ihl before
      have hr := Node.survives_outside features r (before + l.numberOfLeaves)
        (before + l.exitIndex features) (by omega)
      simp [Node.survives, Node.exitIndex, hc2, hl, hr]

theorem Node.survives_below_exitIndex (features : List Double) (n : Node) (before j : Nat)
    (hj : j < n.exitIndex features) : n.survives features (before + j) before = false := by
  induction n generalizing before j with
  | leaf v => simp [Node.exitIndex] at hj
  | internal f t l r ihl ihr =>
    by_cases hc : conditionFails features f t = true
    · simp only [Node.exitIndex, hc, if_true] at hj
      by_cases hjl : j < l.numberOfLeaves
      · have hb : Epitome.bit ⟨before, l.numberOfLeaves⟩ (before + j) = false := by
          simp only [Epitome.bit, decide_eq_false_iff_not]; omega
        simp [Node.survives, hc, hb]
      · have hr := ihr (before + l.numberOfLeaves) (j - l.numberOfLeaves) (by omega)
        have he : before + l.numberOfLeaves + (j - l.numberOfLeaves) = before + j := by omega
        rw [he] at hr
        simp [Node.survives, hr]
    · have hc2 : conditionFails features f t = false := by simpa using hc
      simp only [Node.exitIndex, hc2] at hj
      have hl := ihl before j (by simpa using hj)
      simp [Node.survives, hl]

theorem Node.subtreeAt_snoc (root : Node) (position : List Bool) (f : Nat) (t : Double)
    (l r : Node) (h : root.subtreeAt position = some (.internal f t l r)) :
    root.subtreeAt (position ++ [false]) = some l ∧
    root.subtreeAt (position ++ [true]) = some r ∧
    root.leavesBefore (position ++ [false]) = root.leavesBefore position ∧
    root.leavesBefore (position ++ [true]) = root.leavesBefore position + l.numberOfLeaves := by
  induction position generalizing root with
  | nil =>
    simp only [Node.subtreeAt, Option.some.injEq] at h
    subst h
    cases l <;> cases r <;> simp [Node.subtreeAt, Node.leavesBefore]
  | cons b position ih =>
    cases root with
    | leaf v => simp [Node.subtreeAt] at h
    | internal f2 t2 l2 r2 =>
      cases b with
      | false =>
        simp only [Node.subtreeAt] at h
        have := ih l2 h
        simpa [Node.subtreeAt, Node.leavesBefore] using this
      | true =>
        simp only [Node.subtreeAt] at h
        obtain ⟨h1, h2, h3, h4⟩ := ih r2 h
        refine ⟨by simpa [Node.subtreeAt] using h1, by simpa [Node.subtreeAt] using h2, ?_, ?_⟩
        · simp [Node.leavesBefore, h3]
        · simp [Node.leavesBefore, h4, Nat.add_assoc]

theorem nodesOf_treeIndex (treeIndex : Nat) (position : List Bool) (node : Node)
    (n : InternalNode) (h : n ∈ nodesOf treeIndex position node) : n.treeIndex = treeIndex := by
  induction node generalizing position with
  | leaf v => simp [nodesOf] at h
  | internal f t l r ihl ihr =>
    simp only [nodesOf, List.mem_cons, List.mem_append] at h
    rcases h with rfl | h | h
    · rfl
    · exact ihl _ h
    · exact ihr _ h

theorem nodesOf_survives (features : List Double) (i treeIndex : Nat) (root : Node)
    (position : List Bool) (node : Node) (h : root.subtreeAt position = some node) :
    (∀ n ∈ nodesOf treeIndex position node,
        conditionFails features n.splittingFeatureIndex n.splittingThreshold = true →
        Epitome.bit ⟨root.leavesBefore n.position, n.leftNode.numberOfLeaves⟩ i = true) ↔
      node.survives features i (root.leavesBefore position) = true := by
  induction node generalizing position with
  | leaf v => simp [nodesOf, Node.survives]
  | internal f t l r ihl ihr =>
    obtain ⟨h1, h2, h3, h4⟩ := Node.subtreeAt_snoc root position f t l r h
    have hl := ihl (position ++ [false]) h1
    have hr := ihr (position ++ [true]) h2
    rw [h3] at hl
    rw [h4] at hr
    simp only [nodesOf, List.mem_cons, List.mem_append, Node.survives, Bool.and_eq_true,
      Bool.or_eq_true, Bool.not_eq_true']
    rw [← hl, ← hr]
    constructor
    · intro hall
      refine ⟨?_, fun n hn => hall n (Or.inr (Or.inl hn)), fun n hn => hall n (Or.inr (Or.inr hn))⟩
      by_cases hc : conditionFails features f t = true
      · exact Or.inr (hall _ (Or.inl rfl) hc)
      · exact Or.inl (by simpa using hc)
    · rintro ⟨h0, hl2, hr2⟩ n hn hc
      rcases hn with rfl | hn | hn
      · rcases h0 with h0 | h0
        · rw [h0] at hc; exact absurd hc (by simp)
        · exact h0
      · exact hl2 n hn hc
      · exact hr2 n hn hc

theorem mem_forestNodes (trees : List Tree) (k : Nat) (n : InternalNode) :
    n ∈ forestNodes trees k ↔
      ∃ idx t, trees[idx]? = some t ∧ n ∈ nodesOf (k + idx) [] t.root := by
  induction trees generalizing k with
  | nil => simp [forestNodes]
  | cons t ts ih =>
    simp only [forestNodes, List.mem_append, ih]
    constructor
    · rintro (h | ⟨idx, u, hu, hn⟩)
      · exact ⟨0, t, by simp, by simpa using h⟩
      · exact ⟨idx + 1, u, by simpa using hu, by
          have he : k + (idx + 1) = k + 1 + idx := by omega
          rw [he]; exact hn⟩
    · rintro ⟨idx, u, hu, hn⟩
      cases idx with
      | zero =>
        simp only [List.getElem?_cons_zero, Option.some.injEq] at hu
        subst hu
        exact Or.inl (by simpa using hn)
      | succ idx =>
        refine Or.inr ⟨idx, u, by simpa using hu, ?_⟩
        have he : k + (idx + 1) = k + 1 + idx := by omega
        rw [he] at hn; exact hn

theorem mem_forestNodes_tree (trees : List Tree) (ti : Nat) (t : Tree) (n : InternalNode)
    (ht : trees[ti]? = some t) :
    (n ∈ forestNodes trees 0 ∧ n.treeIndex = ti) ↔ n ∈ nodesOf ti [] t.root := by
  constructor
  · rintro ⟨hn, hti⟩
    obtain ⟨idx, u, hu, hmem⟩ := (mem_forestNodes trees 0 n).mp hn
    have hidx := nodesOf_treeIndex _ _ _ _ hmem
    simp only [Nat.zero_add] at hidx hmem
    rw [hti] at hidx
    subst hidx
    rw [ht] at hu
    cases hu
    exact hmem
  · intro hn
    exact ⟨(mem_forestNodes trees 0 n).mpr ⟨ti, t, ht, by simpa using hn⟩,
      nodesOf_treeIndex _ _ _ _ hn⟩

/-! ## The feature loop of `score` -/

theorem read_eq_getElem (document : SingleDocument) (junk : Nat → Double) (f : Nat)
    (hf : f < document.features.length) :
    document.read junk f = document.features.getD f .nan := by
  have h1 : document.features[f]? = some document.features[f] := List.getElem?_eq_getElem hf
  have h2 : document.features.getD f .nan = document.features[f] := List.getD_eq_getElem _ _ hf
  simp only [SingleDocument.read, h1, h2]

theorem read_eq_pad (document : SingleDocument) (junk : Nat → Double) (n f : Nat) (hf : f < n) :
    document.read junk f = (document.pad junk n).features.getD f .nan := by
  by_cases hlen : f < document.features.length
  · rw [read_eq_getElem document junk f hlen]
    simp only [SingleDocument.pad]
    rw [List.getD_eq_getElem _ _ hlen,
      List.getD_eq_getElem _ _ (by simp only [List.length_append]; omega)]
    exact (List.getElem_append_left hlen).symm
  · have hle : document.features.length ≤ f := Nat.le_of_not_lt hlen
    have h1 : document.features[f]? = none := List.getElem?_eq_none hle
    have hlt : f - document.features.length <
        ((List.range (n - document.features.length)).map
          (fun i => junk (document.features.length + i))).length := by
      simp only [List.length_map, List.length_range]
      omega
    have hlt2 : f < (document.features ++ (List.range (n - document.features.length)).map
        (fun i => junk (document.features.length + i))).length := by
      simp only [List.length_append, List.length_map, List.length_range]
      omega
    simp only [SingleDocument.read, h1, SingleDocument.pad]
    rw [List.getD_eq_getElem _ _ hlt2, List.getElem_append_right hle]
    simp only [List.getElem_map, List.getElem_range]
    congr 1
    omega

theorem scoreFeature_eq (s : LinearizedRapidScorer) (junk : Nat → Double)
    (document : SingleDocument) (r : ResultMask) (f : Nat) (hf : f < document.features.length) :
    s.scoreFeature junk document r f = applyAll r ((s.appliedAt document f).map s.entry) := by
  simp only [LinearizedRapidScorer.scoreFeature, read_eq_getElem document junk f hf,
    LinearizedRapidScorer.appliedAt, applyAll, List.foldl_map, LinearizedRapidScorer.entry]

theorem scoreFeature_pad (s : LinearizedRapidScorer) (junk : Nat → Double)
    (document : SingleDocument) (r : ResultMask) (n f : Nat) (hf : f < n) :
    s.scoreFeature junk document r f =
      applyAll r ((s.appliedAt (document.pad junk n) f).map s.entry) := by
  simp only [LinearizedRapidScorer.scoreFeature, read_eq_pad document junk n f hf,
    LinearizedRapidScorer.appliedAt, applyAll, List.foldl_map, LinearizedRapidScorer.entry]

theorem foldl_scoreFeature_some (s : LinearizedRapidScorer) (junk : Nat → Double)
    (document : SingleDocument) (order : List Nat) (r : ResultMask)
    (h : ∀ f ∈ order, f < document.features.length) :
    order.foldl (s.scoreFeature junk document) r =
      applyAll r ((s.appliedInOrder order document).map s.entry) := by
  induction order generalizing r with
  | nil => simp [LinearizedRapidScorer.appliedInOrder, applyAll]
  | cons f rest ih =>
    have hf := h f (List.mem_cons_self _ _)
    have hrest : ∀ g ∈ rest, g < document.features.length :=
      fun g hg => h g (List.mem_cons_of_mem _ hg)
    rw [List.foldl_cons, scoreFeature_eq s junk document r f hf, ih _ hrest]
    simp [LinearizedRapidScorer.appliedInOrder, applyAll_append]

theorem foldl_scoreFeature_pad (s : LinearizedRapidScorer) (junk : Nat → Double)
    (document : SingleDocument) (n : Nat) (order : List Nat) (r : ResultMask)
    (h : ∀ f ∈ order, f < n) :
    order.foldl (s.scoreFeature junk document) r =
      applyAll r ((s.appliedInOrder order (document.pad junk n)).map s.entry) := by
  induction order generalizing r with
  | nil => simp [LinearizedRapidScorer.appliedInOrder, applyAll]
  | cons f rest ih =>
    have hf := h f (List.mem_cons_self _ _)
    have hrest : ∀ g ∈ rest, g < n := fun g hg => h g (List.mem_cons_of_mem _ hg)
    rw [List.foldl_cons, scoreFeature_pad s junk document r n f hf, ih _ hrest]
    simp [LinearizedRapidScorer.appliedInOrder, applyAll_append]

/-! ## The constructor -/

theorem foldl_addNode (l : List InternalNode) (s : LinearizedRapidScorer) :
    (l.foldl LinearizedRapidScorer.addNode s).block = s.block ∧
    (l.foldl LinearizedRapidScorer.addNode s).forest = s.forest ∧
    (l.foldl LinearizedRapidScorer.addNode s).featureThresholds =
      s.featureThresholds ++ l.map (fun n => n.splittingThreshold) ∧
    (l.foldl LinearizedRapidScorer.addNode s).treeIndexes =
      s.treeIndexes ++ l.map (fun n => n.treeIndex) ∧
    (l.foldl LinearizedRapidScorer.addNode s).epitomes =
      s.epitomes ++ l.map (epitomeOf s.forest) ∧
    (l.foldl LinearizedRapidScorer.addNode s).i = s.i + l.length := by
  induction l generalizing s with
  | nil => simp
  | cons n l ih =>
    obtain ⟨h1, h2, h3, h4, h5, h6⟩ := ih (s.addNode n)
    simp only [List.foldl_cons, List.map_cons, List.length_cons]
    refine ⟨h1, h2, ?_, ?_, ?_, ?_⟩
    · rw [h3]; simp [LinearizedRapidScorer.addNode]
    · rw [h4]; simp [LinearizedRapidScorer.addNode]
    · rw [h5]; simp [LinearizedRapidScorer.addNode]
    · rw [h6]; simp only [LinearizedRapidScorer.addNode]; omega

theorem build_fields (block : Block) (forest : Forest) (sorted : List InternalNode) :
    (LinearizedRapidScorer.build block forest sorted).block = block ∧
    (LinearizedRapidScorer.build block forest sorted).forest = forest ∧
    (LinearizedRapidScorer.build block forest sorted).featureThresholds =
      sorted.map (fun n => n.splittingThreshold) ∧
    (LinearizedRapidScorer.build block forest sorted).treeIndexes =
      sorted.map (fun n => n.treeIndex) ∧
    (LinearizedRapidScorer.build block forest sorted).epitomes =
      sorted.map (epitomeOf forest) ∧
    (LinearizedRapidScorer.build block forest sorted).i = sorted.length := by
  simpa [LinearizedRapidScorer.build] using foldl_addNode sorted
    { block := block, forest := forest, featureThresholds := [], treeIndexes := [],
      epitomes := [], offsets := [], i := 0 }

theorem build_snoc (block : Block) (forest : Forest) (p : List InternalNode) (n : InternalNode) :
    LinearizedRapidScorer.build block forest (p ++ [n]) =
      (LinearizedRapidScorer.build block forest p).addNode n := by
  simp [LinearizedRapidScorer.build, List.foldl_append]

theorem build_offsets (block : Block) (forest : Forest) (sorted : List InternalNode)
    (hs : FeatureSorted sorted) :
    (∀ n ∈ sorted,
      n.splittingFeatureIndex < (LinearizedRapidScorer.build block forest sorted).offsets.length) ∧
    (∀ f, f < (LinearizedRapidScorer.build block forest sorted).offsets.length →
      (LinearizedRapidScorer.build block forest sorted).offsets.getD f 0 =
        sorted.countP (fun n => decide (n.splittingFeatureIndex < f))) ∧
    (0 < (LinearizedRapidScorer.build block forest sorted).offsets.length →
      ∃ n ∈ sorted,
        (LinearizedRapidScorer.build block forest sorted).offsets.length =
          n.splittingFeatureIndex + 1) := by
  induction sorted using List.reverseRecOn with
  | nil => simp [LinearizedRapidScorer.build]
  | append_singleton p n ih =>
    have hp : FeatureSorted p := (List.pairwise_append.mp hs).1
    have hle : ∀ m ∈ p, m.splittingFeatureIndex ≤ n.splittingFeatureIndex :=
      fun m hm => (List.pairwise_append.mp hs).2.2 m hm n (List.mem_singleton_self n)
    obtain ⟨ha, hb, hc⟩ := ih hp
    have hi := (build_fields block forest p).2.2.2.2.2
    rw [build_snoc]
    generalize LinearizedRapidScorer.build block forest p = s at ha hb hc hi
    have hlen : (s.addNode n).offsets.length =
        s.offsets.length + (n.splittingFeatureIndex + 1 - s.offsets.length) := by
      simp [LinearizedRapidScorer.addNode]
    have hoff : (s.addNode n).offsets =
        s.offsets ++ List.replicate (n.splittingFeatureIndex + 1 - s.offsets.length) s.i := rfl
    refine ⟨?_, ?_, ?_⟩
    · intro m hm
      rcases List.mem_append.mp hm with hm | hm
      · have := ha m hm; omega
      · have : m = n := by simpa using hm
        subst this; omega
    · intro f hf
      rw [List.countP_append, hoff]
      by_cases hfo : f < s.offsets.length
      · obtain ⟨m, hm, hmlen⟩ := hc (by omega)
        have hmn := hle m hm
        have hn : ¬ n.splittingFeatureIndex < f := by omega
        rw [List.getD_append _ _ _ _ hfo, hb f hfo]
        simp [hn]
      · have hall : ∀ m ∈ p, decide (m.splittingFeatureIndex < f) = true := by
          intro m hm
          have := ha m hm
          simp only [decide_eq_true_eq]; omega
        have hn : ¬ n.splittingFeatureIndex < f := by omega
        rw [List.getD_append_right _ _ _ _ (Nat.le_of_not_lt hfo)]
        rw [List.countP_eq_length.mpr hall, hi]
        have hk : f - s.offsets.length < n.splittingFeatureIndex + 1 - s.offsets.length := by
          omega
        simp [List.getD_eq_getElem?_getD, List.getElem?_replicate, hk, hn]
    · intro _
      by_cases hfo : n.splittingFeatureIndex + 1 ≤ s.offsets.length
      · obtain ⟨m, hm, hmlen⟩ := hc (by omega)
        exact ⟨m, List.mem_append_left _ hm, by omega⟩
      · exact ⟨n, List.mem_append_right _ (List.mem_singleton_self n), by omega⟩

theorem nodeComparator_false (a b : InternalNode) (h : nodeComparator b a = false) :
    a.splittingFeatureIndex ≤ b.splittingFeatureIndex ∧
    (a.splittingFeatureIndex = b.splittingFeatureIndex →
      b.splittingThreshold.lt a.splittingThreshold = false) := by
  unfold nodeComparator at h
  by_cases h1 : b.splittingFeatureIndex < a.splittingFeatureIndex
  · simp [h1] at h
  · by_cases h2 : b.splittingFeatureIndex > a.splittingFeatureIndex
    · exact ⟨by omega, fun he => by omega⟩
    · simp only [h1, h2, if_false] at h
      exact ⟨by omega, fun _ => h⟩

theorem IsStdSortResult.featureSorted (nodes sorted : List InternalNode)
    (h : IsStdSortResult nodes sorted) : FeatureSorted sorted :=
  h.2.imp (fun {a b} hab => (nodeComparator_false a b hab).1)

theorem countP_feature_lt (sorted : List InternalNode) (hs : FeatureSorted sorted) (f j : Nat)
    (n : InternalNode) (hj : sorted[j]? = some n) :
    j < sorted.countP (fun m => decide (m.splittingFeatureIndex < f)) ↔
      n.splittingFeatureIndex < f := by
  induction sorted generalizing j with
  | nil => simp at hj
  | cons a rest ih =>
    have hrest : FeatureSorted rest := (List.pairwise_cons.mp hs).2
    have hle : ∀ b ∈ rest, a.splittingFeatureIndex ≤ b.splittingFeatureIndex :=
      (List.pairwise_cons.mp hs).1
    by_cases ha : a.splittingFeatureIndex < f
    · cases j with
      | zero =>
        simp only [List.getElem?_cons_zero, Option.some.injEq] at hj
        subst hj
        simp [List.countP_cons, ha]
      | succ j =>
        simp only [List.getElem?_cons_succ] at hj
        have := ih hrest j hj
        simp only [List.countP_cons, ha, decide_True, if_true]
        omega
    · have hzero : rest.countP (fun m => decide (m.splittingFeatureIndex < f)) = 0 := by
        rw [List.countP_eq_zero]
        intro b hb
        have := hle b hb
        simp only [decide_eq_true_eq]; omega
      have hn : ¬ n.splittingFeatureIndex < f := by
        cases j with
        | zero =>
          simp only [List.getElem?_cons_zero, Option.some.injEq] at hj
          subst hj; exact ha
        | succ j =>
          simp only [List.getElem?_cons_succ] at hj
          have := hle n (List.getElem?_mem hj)
          omega
      simp [List.countP_cons, ha, hzero, hn]

theorem build_stopOf (block : Block) (forest : Forest) (sorted : List InternalNode)
    (hs : FeatureSorted sorted) (f : Nat)
    (hf : f < (LinearizedRapidScorer.build block forest sorted).offsets.length) :
    (LinearizedRapidScorer.build block forest sorted).stopOf f =
      sorted.countP (fun n => decide (n.splittingFeatureIndex < f + 1)) := by
  obtain ⟨ha, hb, hc⟩ := build_offsets block forest sorted hs
  unfold LinearizedRapidScorer.stopOf
  by_cases h1 : f + 1 < (LinearizedRapidScorer.build block forest sorted).offsets.length
  · rw [if_pos h1, hb (f + 1) h1]
  · rw [if_neg h1, (build_fields block forest sorted).2.2.1, List.length_map]
    symm
    rw [List.countP_eq_length]
    intro n hn
    have := ha n hn
    simp only [decide_eq_true_eq]; omega

theorem build_slice (block : Block) (forest : Forest) (sorted : List InternalNode)
    (hs : FeatureSorted sorted) (f : Nat)
    (hf : f < (LinearizedRapidScorer.build block forest sorted).offsets.length)
    (j : Nat) (n : InternalNode) (hj : sorted[j]? = some n) :
    ((LinearizedRapidScorer.build block forest sorted).offsets.getD f 0 ≤ j ∧
      j < (LinearizedRapidScorer.build block forest sorted).stopOf f) ↔
      n.splittingFeatureIndex = f := by
  rw [build_stopOf block forest sorted hs f hf, (build_offsets block forest sorted hs).2.1 f hf]
  have h1 := countP_feature_lt sorted hs f j n hj
  have h2 := countP_feature_lt sorted hs (f + 1) j n hj
  omega

theorem build_slice_le (block : Block) (forest : Forest) (sorted : List InternalNode)
    (hs : FeatureSorted sorted) (f : Nat)
    (hf : f < (LinearizedRapidScorer.build block forest sorted).offsets.length) :
    (LinearizedRapidScorer.build block forest sorted).offsets.getD f 0 ≤
      (LinearizedRapidScorer.build block forest sorted).stopOf f ∧
    (LinearizedRapidScorer.build block forest sorted).stopOf f ≤ sorted.length := by
  rw [build_stopOf block forest sorted hs f hf, (build_offsets block forest sorted hs).2.1 f hf]
  refine ⟨?_, List.countP_le_length _⟩
  apply List.countP_mono_left
  intro n _ hn
  simp only [decide_eq_true_eq] at hn ⊢
  omega

/-! ## `std::lower_bound` -/

theorem lowerBoundLoop_bounds (v : List Double) (value : Double) (fuel first len : Nat) :
    first ≤ lowerBoundLoop v value fuel first len ∧
      lowerBoundLoop v value fuel first len ≤ first + len := by
  induction fuel generalizing first len with
  | zero => simp [lowerBoundLoop]
  | succ fuel ih =>
    unfold lowerBoundLoop
    by_cases hlen : len = 0
    · simp [hlen]
    · simp only [hlen, if_false]
      split
      · have := ih (first + len / 2 + 1) (len - len / 2 - 1)
        omega
      · have := ih first (len / 2)
        omega

theorem lowerBoundLoop_spec (v : List Double) (value : Double) (fuel first len : Nat)
    (hfuel : len ≤ fuel)
    (hmono : ∀ i j, first ≤ i → i ≤ j → j < first + len →
      (v.getD j .nan).lt value = true → (v.getD i .nan).lt value = true) :
    ∀ j, first ≤ j → j < first + len →
      (j < lowerBoundLoop v value fuel first len ↔ (v.getD j .nan).lt value = true) := by
  induction fuel generalizing first len with
  | zero =>
    intro j h1 h2
    omega
  | succ fuel ih =>
    intro j h1 h2
    have hlen : len ≠ 0 := by omega
    unfold lowerBoundLoop
    simp only [hlen, if_false]
    by_cases hmid : (v.getD (first + len / 2) .nan).lt value = true
    · simp only [hmid, if_true]
      have hb := lowerBoundLoop_bounds v value fuel (first + len / 2 + 1) (len - len / 2 - 1)
      by_cases hj : j ≤ first + len / 2
      · have hp := hmono j (first + len / 2) h1 hj (by omega) hmid
        constructor
        · intro _; exact hp
        · intro _; omega
      · exact ih (first + len / 2 + 1) (len - len / 2 - 1) (by omega)
          (fun a b ha hab hb2 => hmono a b (by omega) hab (by omega)) j (by omega) (by omega)
    · rw [if_neg hmid]
      have hb := lowerBoundLoop_bounds v value fuel first (len / 2)
      by_cases hj : j < first + len / 2
      · exact ih first (len / 2) (by omega)
          (fun a b ha hab hb2 => hmono a b ha hab (by omega)) j h1 hj
      · have hp : ¬ (v.getD j .nan).lt value = true :=
          fun hp => hmid (hmono (first + len / 2) j (by omega) (by omega) h2 hp)
        constructor
        · intro _; omega
        · intro h; exact absurd h hp

theorem lowerBound_bounds (v : List Double) (start stop : Nat) (value : Double)
    (h : start ≤ stop) :
    start ≤ lowerBound v start stop value ∧ lowerBound v start stop value ≤ stop := by
  have := lowerBoundLoop_bounds v value (stop - start) start (stop - start)
  unfold lowerBound
  omega

theorem lowerBound_spec (v : List Double) (start stop : Nat) (value : Double)
    (hmono : ∀ i j, start ≤ i → i ≤ j → j < stop →
      (v.getD j .nan).lt value = true → (v.getD i .nan).lt value = true)
    (j : Nat) (h1 : start ≤ j) (h2 : j < stop) :
    j < lowerBound v start stop value ↔ (v.getD j .nan).lt value = true := by
  unfold lowerBound
  exact lowerBoundLoop_spec v value (stop - start) start (stop - start) (Nat.le_refl _)
    (fun a b ha hab hb => hmono a b ha hab (by omega)) j h1 (by omega)

/-! ## Which entries `score` applies -/

theorem Double.lt_of_sorted (a b v : Double) (ha : a.isNaN = false) (hb : b.isNaN = false)
    (h1 : b.lt a = false) (h2 : b.lt v = true) : a.lt v = true := by
  cases a with
  | nan => simp [Double.isNaN] at ha
  | num x =>
    cases b with
    | nan => simp [Double.isNaN] at hb
    | num y =>
      cases v with
      | nan => simp [Double.lt] at h2
      | num z =>
        simp only [Double.lt, decide_eq_true_eq, decide_eq_false_iff_not, not_lt] at h1 h2 ⊢
        exact lt_of_le_of_lt h1 h2

theorem build_entry (block : Block) (forest : Forest) (sorted : List InternalNode) (j : Nat)
    (n : InternalNode) (hj : sorted[j]? = some n) :
    (LinearizedRapidScorer.build block forest sorted).entry j =
      (epitomeOf forest n, n.treeIndex) ∧
    (LinearizedRapidScorer.build block forest sorted).featureThresholds.getD j .nan =
      n.splittingThreshold := by
  obtain ⟨_, _, h3, h4, h5, _⟩ := build_fields block forest sorted
  simp [LinearizedRapidScorer.entry, h3, h4, h5, List.getD_eq_getElem?_getD, List.getElem?_map, hj]

theorem build_slice_mono (block : Block) (forest : Forest) (nodes sorted : List InternalNode)
    (hsort : IsStdSortResult nodes sorted)
    (hnan : ∀ n ∈ nodes, n.splittingThreshold.isNaN = false) (value : Double) (f : Nat)
    (hf : f < (LinearizedRapidScorer.build block forest sorted).offsets.length)
    (i j : Nat)
    (hi : (LinearizedRapidScorer.build block forest sorted).offsets.getD f 0 ≤ i)
    (hij : i ≤ j) (hj : j < (LinearizedRapidScorer.build block forest sorted).stopOf f)
    (hlt : ((LinearizedRapidScorer.build block forest sorted).featureThresholds.getD j .nan).lt
      value = true) :
    ((LinearizedRapidScorer.build block forest sorted).featureThresholds.getD i .nan).lt
      value = true := by
  have hs := hsort.featureSorted
  have hstop := (build_slice_le block forest sorted hs f hf).2
  have hjl : j < sorted.length := by omega
  have hil : i < sorted.length := by omega
  have hjn : sorted[j]? = some sorted[j] := List.getElem?_eq_getElem hjl
  have hin : sorted[i]? = some sorted[i] := List.getElem?_eq_getElem hil
  rw [(build_entry block forest sorted j _ hjn).2] at hlt
  rw [(build_entry block forest sorted i _ hin).2]
  rcases Nat.eq_or_lt_of_le hij with heq | hlt2
  · subst heq; exact hlt
  · have hfi := (build_slice block forest sorted hs f hf i _ hin).mp ⟨hi, by omega⟩
    have hfj := (build_slice block forest sorted hs f hf j _ hjn).mp ⟨by omega, hj⟩
    have hpair := List.pairwise_iff_getElem.mp hsort.2 i j hil hjl hlt2
    have hcmp := (nodeComparator_false _ _ hpair).2 (by rw [hfi, hfj])
    exact Double.lt_of_sorted _ _ value
      (hnan _ (hsort.1.subset (List.getElem_mem hil)))
      (hnan _ (hsort.1.subset (List.getElem_mem hjl))) hcmp hlt

theorem mem_appliedAt (s : LinearizedRapidScorer) (document : SingleDocument) (f j : Nat) :
    j ∈ s.appliedAt document f ↔
      s.offsets.getD f 0 ≤ j ∧
      j < lowerBound s.featureThresholds (s.offsets.getD f 0) (s.stopOf f)
        (document.features.getD f .nan) := by
  simp only [LinearizedRapidScorer.appliedAt, LinearizedRapidScorer.stopOf, List.mem_range'_1]
  omega

theorem appliedAt_feature (block : Block) (forest : Forest) (sorted : List InternalNode)
    (hs : FeatureSorted sorted) (document : SingleDocument) (f j : Nat)
    (hf : f < (LinearizedRapidScorer.build block forest sorted).offsets.length)
    (hj : j ∈ (LinearizedRapidScorer.build block forest sorted).appliedAt document f) :
    ∃ n, sorted[j]? = some n ∧ n.splittingFeatureIndex = f := by
  rw [mem_appliedAt] at hj
  obtain ⟨h1, h2⟩ := build_slice_le block forest sorted hs f hf
  have hb := (lowerBound_bounds
    (LinearizedRapidScorer.build block forest sorted).featureThresholds _ _
    (document.features.getD f .nan) h1).2
  have hjl : j < sorted.length := by omega
  have hjn : sorted[j]? = some sorted[j] := List.getElem?_eq_getElem hjl
  exact ⟨_, hjn, (build_slice block forest sorted hs f hf j _ hjn).mp ⟨hj.1, by omega⟩⟩

theorem mem_applied_iff (block : Block) (forest : Forest) (nodes sorted : List InternalNode)
    (hsort : IsStdSortResult nodes sorted)
    (hnan : ∀ n ∈ nodes, n.splittingThreshold.isNaN = false)
    (document : SingleDocument) (j : Nat) :
    j ∈ (LinearizedRapidScorer.build block forest sorted).applied document ↔
      ∃ n, sorted[j]? = some n ∧
        conditionFails document.features n.splittingFeatureIndex n.splittingThreshold = true := by
  have hs := hsort.featureSorted
  simp only [LinearizedRapidScorer.applied, LinearizedRapidScorer.appliedInOrder,
    List.mem_flatMap, List.mem_range]
  constructor
  · rintro ⟨f, hf, hj⟩
    obtain ⟨n, hjn, hfn⟩ := appliedAt_feature block forest sorted hs document f j hf hj
    refine ⟨n, hjn, ?_⟩
    rw [mem_appliedAt] at hj
    have hsl := (build_slice block forest sorted hs f hf j n hjn).mpr hfn
    have := (lowerBound_spec _ _ _ _
      (build_slice_mono block forest nodes sorted hsort hnan _ f hf) j hsl.1 hsl.2).mp hj.2
    rw [(build_entry block forest sorted j n hjn).2] at this
    rw [conditionFails, hfn]
    exact this
  · rintro ⟨n, hjn, hc⟩
    have hf := (build_offsets block forest sorted hs).1 n (List.getElem?_mem hjn)
    refine ⟨n.splittingFeatureIndex, hf, ?_⟩
    rw [mem_appliedAt]
    have hsl := (build_slice block forest sorted hs _ hf j n hjn).mpr rfl
    refine ⟨hsl.1, ?_⟩
    apply (lowerBound_spec _ _ _ _
      (build_slice_mono block forest nodes sorted hsort hnan _ _ hf) j hsl.1 hsl.2).mpr
    rw [(build_entry block forest sorted j n hjn).2]
    exact hc

/-! ## The accumulators after the feature loop -/

theorem Node.leavesBefore_nil (root : Node) : root.leavesBefore [] = 0 := by
  cases root <;> rfl

theorem Node.subtreeAt_nil (root : Node) : root.subtreeAt [] = some root := by
  cases root <;> rfl

theorem Block.width_pos (b : Block) : 0 < b.width := by
  cases b <;> decide

theorem Block.le_roundUp (b : Block) (n : Nat) : n ≤ b.roundUp n := by
  cases b <;> simp only [Block.roundUp, Block.width] <;> omega

theorem epitomeOf_eq (forest : Forest) (ti : Nat) (t : Tree) (n : InternalNode)
    (ht : forest.trees[ti]? = some t) (hn : n.treeIndex = ti) :
    epitomeOf forest n =
      ⟨t.root.leavesBefore n.position, n.leftNode.numberOfLeaves⟩ := by
  simp [epitomeOf, hn, ht, Tree.countLeavesUntil]

theorem all_entries_iff (block : Block) (forest : Forest) (sorted : List InternalNode)
    (features : List Double) (apps : List Nat) (ti : Nat) (t : Tree) (i : Nat)
    (hperm : sorted.Perm (forestNodes forest.trees 0))
    (happs : ∀ j, j ∈ apps ↔ ∃ n, sorted[j]? = some n ∧
      conditionFails features n.splittingFeatureIndex n.splittingThreshold = true)
    (ht : forest.trees[ti]? = some t) :
    (apps.map (LinearizedRapidScorer.build block forest sorted).entry).all
        (fun a => decide (a.2 ≠ ti) || a.1.bit i) = true ↔
      t.root.survives features i 0 = true := by
  have hsurv := nodesOf_survives features i ti t.root [] t.root (Node.subtreeAt_nil _)
  rw [Node.leavesBefore_nil] at hsurv
  rw [← hsurv]
  simp only [List.all_eq_true, List.mem_map]
  constructor
  · intro hall n hn hc
    obtain ⟨hmem, hti⟩ := (mem_forestNodes_tree forest.trees ti t n ht).mpr hn
    obtain ⟨j, hj⟩ := List.getElem?_of_mem (hperm.symm.subset hmem)
    have hja : j ∈ apps := (happs j).mpr ⟨n, hj, hc⟩
    have := hall _ ⟨j, hja, rfl⟩
    rw [(build_entry block forest sorted j n hj).1, epitomeOf_eq forest ti t n ht hti] at this
    simpa [hti] using this
  · rintro hall a ⟨j, hja, rfl⟩
    obtain ⟨n, hj, hc⟩ := (happs j).mp hja
    rw [(build_entry block forest sorted j n hj).1]
    by_cases hti : n.treeIndex = ti
    · have hn : n ∈ nodesOf ti [] t.root :=
        (mem_forestNodes_tree forest.trees ti t n ht).mp ⟨hperm.subset (List.getElem?_mem hj), hti⟩
      rw [epitomeOf_eq forest ti t n ht hti]
      simp [hall n hn hc]
    · simp [hti]

theorem acc_getD (block : Block) (forest : Forest) (sorted : List InternalNode)
    (features : List Double) (apps : List Nat) (ti : Nat) (t : Tree) (i : Nat)
    (hperm : sorted.Perm (forestNodes forest.trees 0))
    (happs : ∀ j, j ∈ apps ↔ ∃ n, sorted[j]? = some n ∧
      conditionFails features n.splittingFeatureIndex n.splittingThreshold = true)
    (ht : forest.trees[ti]? = some t) :
    ((applyAll (ResultMask.init block forest)
        (apps.map (LinearizedRapidScorer.build block forest sorted).entry)).getD ti []).getD
        i false =
      (decide (i < block.roundUp t.leafCount) && t.root.survives features i 0) := by
  rw [applyAll_getD]
  have hinit : (ResultMask.init block forest).getD ti [] =
      List.replicate (block.roundUp t.leafCount) true := by
    simp [ResultMask.init, List.getD_eq_getElem?_getD, List.getElem?_map, ht]
  have hrep : (List.replicate (block.roundUp t.leafCount) true).getD i false =
      decide (i < block.roundUp t.leafCount) := by
    by_cases h : i < block.roundUp t.leafCount <;>
      simp [List.getD_eq_getElem?_getD, List.getElem?_replicate, h]
  rw [hinit, hrep]
  congr 1
  rw [Bool.eq_iff_iff]
  exact all_entries_iff block forest sorted features apps ti t i hperm happs ht

theorem acc_lowestSetBit (block : Block) (forest : Forest) (sorted : List InternalNode)
    (features : List Double) (apps : List Nat) (ti : Nat) (t : Tree)
    (hperm : sorted.Perm (forestNodes forest.trees 0))
    (happs : ∀ j, j ∈ apps ↔ ∃ n, sorted[j]? = some n ∧
      conditionFails features n.splittingFeatureIndex n.splittingThreshold = true)
    (ht : forest.trees[ti]? = some t) :
    lowestSetBit ((applyAll (ResultMask.init block forest)
        (apps.map (LinearizedRapidScorer.build block forest sorted).entry)).getD ti []) =
      some (t.root.exitIndex features) := by
  apply lowestSetBit_eq_some
  · rw [acc_getD block forest sorted features apps ti t _ hperm happs ht]
    have h1 := Node.exitIndex_lt features t.root
    have h2 := Block.le_roundUp block t.leafCount
    have h3 := Node.survives_exitIndex features t.root 0
    rw [Nat.zero_add] at h3
    have h4 : t.root.exitIndex features < block.roundUp t.leafCount := by
      unfold Tree.leafCount at h2 ⊢; omega
    simp [h3, h4]
  · intro i hi
    rw [acc_getD block forest sorted features apps ti t _ hperm happs ht]
    have h3 := Node.survives_below_exitIndex features t.root 0 i hi
    rw [Nat.zero_add] at h3
    simp [h3]

/-! ## The score -/

theorem computeScoreFrom_eq (features : List Double) (trees : List Tree) (result : ResultMask)
    (sum : Double)
    (h : ∀ ti t, trees[ti]? = some t →
      lowestSetBit (result.getD ti []) = some (t.root.exitIndex features)) :
    computeScoreFrom trees result sum = some (exitScoreFrom features trees sum) := by
  induction trees generalizing result sum with
  | nil => simp [computeScoreFrom, exitScoreFrom]
  | cons t ts ih =>
    have h0 := h 0 t (by simp)
    cases result with
    | nil => simp [lowestSetBit] at h0
    | cons acc rest =>
      have h0b : lowestSetBit acc = some (t.root.exitIndex features) := by simpa using h0
      have hlt : t.root.exitIndex features < t.root.leafValues.length := by
        rw [Node.leafValues_length]; exact Node.exitIndex_lt features t.root
      have hget : t.root.leafValues[t.root.exitIndex features]? =
          some (t.root.leafValues.getD (t.root.exitIndex features) .nan) := by
        rw [List.getD_eq_getElem _ _ hlt, List.getElem?_eq_getElem hlt]
      simp only [computeScoreFrom, h0b, hget, exitScoreFrom]
      apply ih
      intro ti u hu
      have := h (ti + 1) u (by simpa using hu)
      simpa using this

theorem collectNodes_perm (forest : Forest) (nodes sorted : List InternalNode)
    (hnodes : collectNodes forest.trees 0 [] = some nodes)
    (hsort : IsStdSortResult nodes sorted) :
    sorted.Perm (forestNodes forest.trees 0) := by
  have h := collectNodes_eq forest.trees 0 []
    (collectNodes_isSome forest.trees 0 [] nodes hnodes)
  rw [hnodes] at h
  simp only [List.nil_append, Option.some.injEq] at h
  rw [← h]
  exact hsort.1

theorem scoreInOrder_eq (s : LinearizedRapidScorer) (junk : Nat → Double) (order : List Nat)
    (document : SingleDocument) (h : ∀ f ∈ order, f < document.features.length) :
    s.scoreInOrder junk order document =
      ((applyAll (ResultMask.init s.block s.forest)
        ((s.appliedInOrder order document).map s.entry)).computeScore s.forest).map
        (fun total => [total]) := by
  unfold LinearizedRapidScorer.scoreInOrder
  rw [foldl_scoreFeature_some s junk document order _ h]
  cases ResultMask.computeScore _ s.forest <;> rfl

theorem score_junk_irrelevant (s : LinearizedRapidScorer) (junk1 junk2 : Nat → Double)
    (document : SingleDocument) (h : s.offsets.length ≤ document.features.length) :
    s.score junk1 document = s.score junk2 document := by
  unfold LinearizedRapidScorer.score
  rw [scoreInOrder_eq s junk1 _ _ (fun f hf => by have := List.mem_range.mp hf; omega),
    scoreInOrder_eq s junk2 _ _ (fun f hf => by have := List.mem_range.mp hf; omega)]

theorem bind_score_junk (o : Option LinearizedRapidScorer) (junk1 junk2 : Nat → Double)
    (document : SingleDocument)
    (h : (o.map (fun s => decide (s.offsets.length ≤ document.features.length))).getD true =
      true) :
    o.bind (fun s => s.score junk1 document) = o.bind (fun s => s.score junk2 document) := by
  cases o with
  | none => rfl
  | some s =>
    simp only [Option.map_some', Option.getD_some, decide_eq_true_eq] at h
    exact score_junk_irrelevant s junk1 junk2 document h

theorem score_eq_exitScore (block : Block) (forest : Forest) (nodes sorted : List InternalNode)
    (document : SingleDocument)
    (hnodes : collectNodes forest.trees 0 [] = some nodes)
    (hsort : IsStdSortResult nodes sorted)
    (hnan : ∀ n ∈ nodes, n.splittingThreshold.isNaN = false)
    (hlen : (LinearizedRapidScorer.build block forest sorted).offsets.length ≤
      document.features.length) (junk : Nat → Double) :
    (LinearizedRapidScorer.build block forest sorted).score junk document =
      some [exitScoreFrom document.features forest.trees (.num 0)] := by
  have hperm := collectNodes_perm forest nodes sorted hnodes hsort
  unfold LinearizedRapidScorer.score
  rw [scoreInOrder_eq _ junk _ _ (fun f hf => by
    have := List.mem_range.mp hf
    omega)]
  rw [(build_fields block forest sorted).1, (build_fields block forest sorted).2.1]
  unfold ResultMask.computeScore
  have key := computeScoreFrom_eq document.features forest.trees _ (.num 0) (fun ti t ht =>
    acc_lowestSetBit block forest sorted document.features
      ((LinearizedRapidScorer.build block forest sorted).applied document) ti t hperm
      (fun j => mem_applied_iff block forest nodes sorted hsort hnan document j) ht)
  unfold LinearizedRapidScorer.applied at key
  rw [key]
  rfl

/-! ## The reference traversal -/

theorem conditionFails_eq_not_le (features : List Double) (f : Nat) (threshold : Double)
    (hf : (features.getD f .nan).isNaN = false) (ht : threshold.isNaN = false) :
    ∃ x, features[f]? = some x ∧ conditionFails features f threshold = !x.le threshold := by
  have hlt : f < features.length := by
    by_contra h
    rw [List.getD_eq_default _ _ (Nat.le_of_not_lt h)] at hf
    simp [Double.isNaN] at hf
  refine ⟨features[f], List.getElem?_eq_getElem hlt, ?_⟩
  rw [List.getD_eq_getElem _ _ hlt] at hf
  rw [conditionFails, List.getD_eq_getElem _ _ hlt]
  cases hx : features[f] with
  | nan => rw [hx] at hf; simp [Double.isNaN] at hf
  | num q =>
    cases threshold with
    | nan => simp [Double.isNaN] at ht
    | num y =>
      simp only [Double.lt, Double.le]
      by_cases h : y < q
      · simp [h, not_le.mpr h]
      · simp [h, not_lt.mp h]

theorem Node.traverse_eq_exit (features : List Double) (treeIndex : Nat) (position : List Bool)
    (node : Node)
    (h : ∀ n ∈ nodesOf treeIndex position node, n.splittingThreshold.isNaN = false ∧
      (features.getD n.splittingFeatureIndex .nan).isNaN = false) :
    node.traverse features = some (node.leafValues.getD (node.exitIndex features) .nan) ∧
    node.reach features = node.leafPaths[node.exitIndex features]? := by
  induction node generalizing position with
  | leaf v => simp [Node.traverse, Node.reach, Node.leafValues, Node.leafPaths, Node.exitIndex]
  | internal f t l r ihl ihr =>
    have h0 := h _ (List.mem_cons_self _ _)
    obtain ⟨x, hx, hc⟩ := conditionFails_eq_not_le features f t h0.2 h0.1
    have hl := ihl (position ++ [false]) (fun n hn =>
      h n (List.mem_cons_of_mem _ (List.mem_append_left _ hn)))
    have hr := ihr (position ++ [true]) (fun n hn =>
      h n (List.mem_cons_of_mem _ (List.mem_append_right _ hn)))
    have hll := Node.leafValues_length l
    have hlp := Node.leafPaths_length l
    have hlt := Node.exitIndex_lt features l
    have hrt := Node.exitIndex_lt features r
    have hrl := Node.leafValues_length r
    have hrp := Node.leafPaths_length r
    simp only [Node.traverse, Node.reach, hx, Node.exitIndex, hc, Node.leafValues, Node.leafPaths]
    by_cases hle : x.le t = true
    · simp only [hle, if_true, Bool.not_true, Bool.false_eq_true, if_false]
      rw [hl.1, hl.2]
      have h1 : l.exitIndex features < l.leafValues.length := by omega
      have h2 : l.exitIndex features < (l.leafPaths.map (fun p => false :: p)).length := by
        rw [List.length_map]; omega
      constructor
      · rw [List.getD_eq_getElem?_getD, List.getD_eq_getElem?_getD,
          List.getElem?_append_left h1]
      · rw [List.getElem?_append_left h2, List.getElem?_map]
    · have hle2 : x.le t = false := by simpa using hle
      simp only [hle2, Bool.false_eq_true, if_false, Bool.not_false, if_true]
      rw [hr.1, hr.2]
      have h1 : l.leafValues.length ≤ l.numberOfLeaves + r.exitIndex features := by omega
      have h2 : (l.leafPaths.map (fun p => false :: p)).length ≤
          l.numberOfLeaves + r.exitIndex features := by
        rw [List.length_map]; omega
      constructor
      · rw [List.getD_eq_getElem?_getD, List.getD_eq_getElem?_getD,
          List.getElem?_append_right h1, hll, Nat.add_sub_cancel_left]
      · rw [List.getElem?_append_right h2, List.length_map, hlp, Nat.add_sub_cancel_left,
          List.getElem?_map]

theorem referenceFrom_eq (features : List Double) (trees : List Tree) (k : Nat) (sum : Double)
    (h : ∀ n ∈ forestNodes trees k, n.splittingThreshold.isNaN = false ∧
      (features.getD n.splittingFeatureIndex .nan).isNaN = false) :
    referenceFrom features trees sum = some (exitScoreFrom features trees sum) := by
  induction trees generalizing k sum with
  | nil => rfl
  | cons t ts ih =>
    have ht := (Node.traverse_eq_exit features k [] t.root (fun n hn =>
      h n (by simp only [forestNodes]; exact List.mem_append_left _ hn))).1
    simp only [referenceFrom, ht, exitScoreFrom]
    exact ih (k + 1) _ (fun n hn =>
      h n (by simp only [forestNodes]; exact List.mem_append_right _ hn))

theorem collectNodes_some_eq (forest : Forest) (nodes : List InternalNode)
    (hnodes : collectNodes forest.trees 0 [] = some nodes) :
    nodes = forestNodes forest.trees 0 := by
  have h := collectNodes_eq forest.trees 0 []
    (collectNodes_isSome forest.trees 0 [] nodes hnodes)
  rw [hnodes] at h
  simpa using h

theorem offsets_le_features (block : Block) (forest : Forest) (nodes sorted : List InternalNode)
    (document : SingleDocument) (hsort : IsStdSortResult nodes sorted)
    (hdoc : ∀ n ∈ nodes, n.splittingFeatureIndex < document.features.length) :
    (LinearizedRapidScorer.build block forest sorted).offsets.length ≤
      document.features.length := by
  by_contra hcon
  obtain ⟨n, hn, hlen⟩ := (build_offsets block forest sorted hsort.featureSorted).2.2 (by omega)
  have := hdoc n (hsort.1.subset hn)
  omega

theorem lt_length_of_not_nan (features : List Double) (f : Nat)
    (h : (features.getD f .nan).isNaN = false) : f < features.length := by
  by_contra hcon
  rw [List.getD_eq_default _ _ (Nat.le_of_not_lt hcon)] at h
  simp [Double.isNaN] at h

/-! ## `stdSort` meets the contract of `std::sort` -/

theorem Double.lt_trans (a b c : Double) (h1 : a.lt b = true) (h2 : b.lt c = true) :
    a.lt c = true := by
  cases a with
  | nan => simp [Double.lt] at h1
  | num x =>
    cases b with
    | nan => simp [Double.lt] at h1
    | num y =>
      cases c with
      | nan => simp [Double.lt] at h2
      | num z =>
        simp only [Double.lt, decide_eq_true_eq] at h1 h2 ⊢
        exact h1.trans h2

theorem Double.lt_asymm (a b : Double) (h : a.lt b = true) : b.lt a = false := by
  cases a with
  | nan => simp [Double.lt] at h
  | num x =>
    cases b with
    | nan => simp [Double.lt] at h
    | num y =>
      simp only [Double.lt, decide_eq_true_eq, decide_eq_false_iff_not] at h ⊢
      exact not_lt.mpr (le_of_lt h)

theorem nodeComparator_asymm (a b : InternalNode) (h : nodeComparator a b = true) :
    nodeComparator b a = false := by
  unfold nodeComparator at h ⊢
  by_cases h1 : a.splittingFeatureIndex < b.splittingFeatureIndex
  · have h2 : ¬ b.splittingFeatureIndex < a.splittingFeatureIndex := by omega
    simp [h2, h1]
  · by_cases h2 : a.splittingFeatureIndex > b.splittingFeatureIndex
    · simp [h1, h2] at h
    · have h3 : ¬ b.splittingFeatureIndex < a.splittingFeatureIndex := by omega
      have h4 : ¬ b.splittingFeatureIndex > a.splittingFeatureIndex := by omega
      simp only [h1, h2, if_false] at h
      simp only [h3, h4, if_false]
      exact Double.lt_asymm _ _ h

theorem nodeComparator_trans (a b c : InternalNode) (h1 : nodeComparator a b = true)
    (h2 : nodeComparator b c = true) : nodeComparator a c = true := by
  unfold nodeComparator at h1 h2 ⊢
  by_cases hab : a.splittingFeatureIndex < b.splittingFeatureIndex
  · by_cases hbc : b.splittingFeatureIndex < c.splittingFeatureIndex
    · have : a.splittingFeatureIndex < c.splittingFeatureIndex := by omega
      simp [this]
    · by_cases hbc2 : b.splittingFeatureIndex > c.splittingFeatureIndex
      · simp [hbc, hbc2] at h2
      · have : a.splittingFeatureIndex < c.splittingFeatureIndex := by omega
        simp [this]
  · by_cases hab2 : a.splittingFeatureIndex > b.splittingFeatureIndex
    · simp [hab, hab2] at h1
    · simp only [hab, hab2, if_false] at h1
      by_cases hbc : b.splittingFeatureIndex < c.splittingFeatureIndex
      · have : a.splittingFeatureIndex < c.splittingFeatureIndex := by omega
        simp [this]
      · by_cases hbc2 : b.splittingFeatureIndex > c.splittingFeatureIndex
        · simp [hbc, hbc2] at h2
        · simp only [hbc, hbc2, if_false] at h2
          have h3 : ¬ a.splittingFeatureIndex < c.splittingFeatureIndex := by omega
          have h4 : ¬ a.splittingFeatureIndex > c.splittingFeatureIndex := by omega
          simp only [h3, h4, if_false]
          exact Double.lt_trans _ _ _ h1 h2

theorem sortInsert_perm (n : InternalNode) (l : List InternalNode) :
    (sortInsert n l).Perm (n :: l) := by
  induction l with
  | nil => exact List.Perm.refl _
  | cons x xs ih =>
    unfold sortInsert
    split
    · exact List.Perm.refl _
    · exact (List.Perm.cons x ih).trans (List.Perm.swap n x xs)

theorem sortInsert_pairwise (n : InternalNode) (l : List InternalNode)
    (h : l.Pairwise (fun a b => nodeComparator b a = false)) :
    (sortInsert n l).Pairwise (fun a b => nodeComparator b a = false) := by
  induction l with
  | nil => simp [sortInsert]
  | cons x xs ih =>
    obtain ⟨hx, hxs⟩ := List.pairwise_cons.mp h
    unfold sortInsert
    split
    · rename_i hc
      refine List.pairwise_cons.mpr ⟨?_, h⟩
      intro z hz
      rcases List.mem_cons.mp hz with rfl | hz
      · exact nodeComparator_asymm _ _ hc
      · by_contra hcon
        have hzn : nodeComparator z n = true := by simpa using hcon
        have := nodeComparator_trans z n x hzn hc
        rw [hx z hz] at this
        cases this
    · rename_i hc
      refine List.pairwise_cons.mpr ⟨?_, ih hxs⟩
      intro z hz
      rcases List.mem_cons.mp ((sortInsert_perm n xs).subset hz) with rfl | hz
      · simpa using hc
      · exact hx z hz

/-- The insertion sort `stdSort` returns a result allowed by the contract of `std::sort`, for
every list of nodes. -/
theorem stdSort_isStdSortResult (nodes : List InternalNode) :
    IsStdSortResult nodes (stdSort nodes) := by
  induction nodes using List.reverseRecOn with
  | nil => exact ⟨List.Perm.refl _, List.Pairwise.nil⟩
  | append_singleton l n ih =>
    have hstep : stdSort (l ++ [n]) = sortInsert n (stdSort l) := by
      simp [stdSort, List.foldl_append]
    rw [hstep]
    refine ⟨?_, sortInsert_pairwise n _ ih.2⟩
    exact (sortInsert_perm n _).trans
      ((List.Perm.cons n ih.1).trans (List.perm_append_singleton n l).symm)

/-! ## Equivalence to tree traversal -/

/-- C1, counterexample: on the forest whose only split has a NaN threshold (feature 0, leaves
1.0 / 2.0) and the document `[5.0]`, `score` returns 1.0 while the reference traversal
(`5.0 <= NaN` is false, so right) gives 2.0. -/
theorem score_ne_reference_nan_threshold :
    (LinearizedRapidScorer.new .uint8 forestNaN).bind
      (fun s => s.score (fun _ => .nan) ⟨[.num 5]⟩) = some [.num 1] ∧
    referenceScore forestNaN ⟨[.num 5]⟩ = some (.num 2) := by
  decide

/-- C1, amended: for every forest whose trees are rooted at internal nodes and whose thresholds
are not NaN, every result of `std::sort` and every document with a non-NaN value for every
feature index the forest uses, `score` returns the one-element sequence holding the reference
score (traverse each tree with "`<=` goes left, otherwise right", sum the leaf weights, in exact
arithmetic); the constructor run with `stdSort` is one such case; on the two-tree forest of S2
the document `[0.6]` scores 4.0 and `[0.4]` scores 2.0. -/
theorem score_eq_referenceScore :
    (∀ (block : Block) (forest : Forest) (nodes sorted : List InternalNode)
        (document : SingleDocument) (junk : Nat → Double),
      collectNodes forest.trees 0 [] = some nodes →
      IsStdSortResult nodes sorted →
      (∀ n ∈ nodes, n.splittingThreshold.isNaN = false) →
      (∀ n ∈ nodes, (document.features.getD n.splittingFeatureIndex .nan).isNaN = false) →
      ∃ total, referenceScore forest document = some total ∧
        (LinearizedRapidScorer.build block forest sorted).score junk document =
          some [total]) ∧
    (∀ (block : Block) (forest : Forest) (document : SingleDocument) (junk : Nat → Double),
      (∀ t ∈ forest.trees, t.root.isInternal = true) →
      (∀ n ∈ forestNodes forest.trees 0, n.splittingThreshold.isNaN = false) →
      (∀ n ∈ forestNodes forest.trees 0,
        (document.features.getD n.splittingFeatureIndex .nan).isNaN = false) →
      ∃ s total, LinearizedRapidScorer.new block forest = some s ∧
        referenceScore forest document = some total ∧
        s.score junk document = some [total]) ∧
    (∀ (block : Block) (junk : Nat → Double), (LinearizedRapidScorer.new block forestS2).bind
      (fun s => s.score junk ⟨[.num (3/5)]⟩) = some [.num 4]) ∧
    (∀ (block : Block) (junk : Nat → Double), (LinearizedRapidScorer.new block forestS2).bind
      (fun s => s.score junk ⟨[.num (2/5)]⟩) = some [.num 2]) := by
  have hgen : ∀ (block : Block) (forest : Forest) (nodes sorted : List InternalNode)
      (document : SingleDocument) (junk : Nat → Double),
      collectNodes forest.trees 0 [] = some nodes →
      IsStdSortResult nodes sorted →
      (∀ n ∈ nodes, n.splittingThreshold.isNaN = false) →
      (∀ n ∈ nodes, (document.features.getD n.splittingFeatureIndex .nan).isNaN = false) →
      ∃ total, referenceScore forest document = some total ∧
        (LinearizedRapidScorer.build block forest sorted).score junk document =
          some [total] := by
    intro block forest nodes sorted document junk hnodes hsort hnan hdoc
    have hlen := offsets_le_features block forest nodes sorted document hsort
      (fun n hn => lt_length_of_not_nan _ _ (hdoc n hn))
    have hnodes2 := collectNodes_some_eq forest nodes hnodes
    refine ⟨exitScoreFrom document.features forest.trees (.num 0), ?_, ?_⟩
    · exact referenceFrom_eq document.features forest.trees 0 _
        (fun n hn => ⟨hnan n (hnodes2 ▸ hn), hdoc n (hnodes2 ▸ hn)⟩)
    · exact score_eq_exitScore block forest nodes sorted document hnodes hsort hnan hlen junk
  refine ⟨hgen, ?_, ?_, ?_⟩
  · intro block forest document junk hroot hnan hdoc
    have hnodes := collectNodes_eq forest.trees 0 [] hroot
    rw [List.nil_append] at hnodes
    obtain ⟨total, h1, h2⟩ := hgen block forest _ _ document junk hnodes
      (stdSort_isStdSortResult _) hnan hdoc
    exact ⟨_, total, by simp [LinearizedRapidScorer.new, hnodes], h1, h2⟩
  · intro block junk
    rw [bind_score_junk _ junk (fun _ => .nan) _ (by cases block <;> decide)]
    cases block <;> decide
  · intro block junk
    rw [bind_score_junk _ junk (fun _ => .nan) _ (by cases block <;> decide)]
    cases block <;> decide

/-- C1, witness: the amended statement applied to the forest of S2 and the document `[0.6]`. -/
theorem score_eq_referenceScore_witness :
    IsStdSortResult (forestNodes forestS2.trees 0) (stdSort (forestNodes forestS2.trees 0)) ∧
    ∃ total, referenceScore forestS2 ⟨[.num (3/5)]⟩ = some total ∧
      (LinearizedRapidScorer.build .uint8 forestS2
        (stdSort (forestNodes forestS2.trees 0))).score (fun _ => .nan) ⟨[.num (3/5)]⟩ =
          some [total] :=
  ⟨⟨by decide, by decide⟩,
    score_eq_referenceScore.1 .uint8 forestS2 (forestNodes forestS2.trees 0)
      (stdSort (forestNodes forestS2.trees 0)) ⟨[.num (3/5)]⟩ (fun _ => .nan) (by decide)
      ⟨by decide, by decide⟩ (by decide) (by decide)⟩

/-! ## Leaf index recovery -/

theorem foldl_andEpitome_getD (es : List Epitome) (acc : List Bool) (i : Nat) :
    (es.foldl andEpitome acc).getD i false = (acc.getD i false && es.all (fun e => e.bit i)) := by
  induction es generalizing acc with
  | nil => simp
  | cons e rest ih =>
    rw [List.foldl_cons, ih, andEpitome_getD]
    simp [Bool.and_assoc]

theorem replicate_true_getD (width i : Nat) :
    (List.replicate width true).getD i false = decide (i < width) := by
  by_cases h : i < width <;> simp [List.getD_eq_getElem?_getD, List.getElem?_replicate, h]

theorem tree_acc_getD (forest : Forest) (ti : Nat) (t : Tree) (features : List Double)
    (width : Nat) (applied : List InternalNode) (i : Nat)
    (ht : forest.trees[ti]? = some t)
    (happ : ∀ n, n ∈ applied ↔ n ∈ nodesOf ti [] t.root ∧
      (features.getD n.splittingFeatureIndex .nan).gt n.splittingThreshold = true) :
    ((applied.map (epitomeOf forest)).foldl andEpitome (List.replicate width true)).getD i false =
      (decide (i < width) && t.root.survives features i 0) := by
  rw [foldl_andEpitome_getD, replicate_true_getD]
  congr 1
  rw [Bool.eq_iff_iff]
  have hsurv := nodesOf_survives features i ti t.root [] t.root (Node.subtreeAt_nil _)
  rw [Node.leavesBefore_nil] at hsurv
  rw [← hsurv]
  simp only [List.all_eq_true, List.mem_map]
  constructor
  · intro hall n hn hc
    have := hall _ ⟨n, (happ n).mpr ⟨hn, hc⟩, rfl⟩
    rwa [epitomeOf_eq forest ti t n ht (nodesOf_treeIndex _ _ _ _ hn)] at this
  · rintro hall e ⟨n, hn, rfl⟩
    obtain ⟨hmem, hc⟩ := (happ n).mp hn
    rw [epitomeOf_eq forest ti t n ht (nodesOf_treeIndex _ _ _ _ hmem)]
    exact hall n hmem hc

/-- C2, counterexample: on the tree of S1 and the document `[NaN]` no node satisfies
`features[f] > threshold`, so the accumulator stays all-ones and its lowest set bit is 0, while
the traversal ("`<=` goes left, otherwise right") reaches the right leaf, whose leaf index
is 1. -/
theorem lowestSetBit_ne_reached_nan :
    lowestSetBit ((((nodesOf 0 [] treeS1.root).filter (fun n =>
        (([Double.nan] : List Double).getD n.splittingFeatureIndex .nan).gt
          n.splittingThreshold)).map (epitomeOf forestS1)).foldl andEpitome
        (List.replicate 8 true)) = some 0 ∧
    treeS1.root.reach [.nan] = some [true] ∧
    treeS1.root.leafPaths[0]? = some [false] ∧
    treeS1.root.leafPaths[1]? = some [true] := by
  decide

/-- C2, amended: for every tree `t` of a forest with non-NaN thresholds and every document with
non-NaN values at the features `t` uses, if an all-ones accumulator over at least the leaves of
`t` is ANDed with the constructor's epitome of exactly the nodes of `t` whose condition fails
(`features[f] > threshold`), then the lowest set bit of the accumulator is the depth-first leaf
index of the leaf the document reaches by traversing `t`. -/
theorem lowestSetBit_eq_reached (forest : Forest) (ti : Nat) (t : Tree)
    (features : List Double) (width : Nat) (applied : List InternalNode)
    (ht : forest.trees[ti]? = some t) (hwidth : t.leafCount ≤ width)
    (happ : ∀ n, n ∈ applied ↔ n ∈ nodesOf ti [] t.root ∧
      (features.getD n.splittingFeatureIndex .nan).gt n.splittingThreshold = true)
    (hnan : ∀ n ∈ nodesOf ti [] t.root, n.splittingThreshold.isNaN = false ∧
      (features.getD n.splittingFeatureIndex .nan).isNaN = false) :
    ∃ k path,
      lowestSetBit ((applied.map (epitomeOf forest)).foldl andEpitome
        (List.replicate width true)) = some k ∧
      t.root.reach features = some path ∧ t.root.leafPaths[k]? = some path := by
  have hlt := Node.exitIndex_lt features t.root
  have hk : t.root.exitIndex features < t.root.leafPaths.length := by
    rw [Node.leafPaths_length]; exact hlt
  refine ⟨t.root.exitIndex features, t.root.leafPaths[t.root.exitIndex features], ?_, ?_, ?_⟩
  · apply lowestSetBit_eq_some
    · rw [tree_acc_getD forest ti t features width applied _ ht happ]
      have h3 := Node.survives_exitIndex features t.root 0
      rw [Nat.zero_add] at h3
      have h4 : t.root.exitIndex features < width := by
        unfold Tree.leafCount at hwidth; omega
      simp [h3, h4]
    · intro i hi
      rw [tree_acc_getD forest ti t features width applied _ ht happ]
      have h3 := Node.survives_below_exitIndex features t.root 0 i hi
      rw [Nat.zero_add] at h3
      simp [h3]
  · rw [(Node.traverse_eq_exit features ti [] t.root hnan).2]
    exact List.getElem?_eq_getElem hk
  · exact List.getElem?_eq_getElem hk

/-- C2, witness: the amended statement on the tree of S1 and the document `[0.6]`. -/
theorem lowestSetBit_eq_reached_witness :
    ∃ k path,
      lowestSetBit (((nodesOf 0 [] treeS1.root).map (epitomeOf forestS1)).foldl andEpitome
        (List.replicate 8 true)) = some k ∧
      treeS1.root.reach [.num (3/5)] = some path ∧ treeS1.root.leafPaths[k]? = some path := by
  have hall : ∀ n ∈ nodesOf 0 [] treeS1.root,
      (([Double.num (3/5)] : List Double).getD n.splittingFeatureIndex .nan).gt
        n.splittingThreshold = true := by decide
  exact lowestSetBit_eq_reached forestS1 0 treeS1 [.num (3/5)] 8 (nodesOf 0 [] treeS1.root)
    (by decide) (by decide) (fun n => ⟨fun h => ⟨h, hall n h⟩, fun h => h.1⟩) (by decide)

/-! ## The applied entries -/

theorem appliedInOrder_nodup (block : Block) (forest : Forest) (sorted : List InternalNode)
    (hs : FeatureSorted sorted) (document : SingleDocument) (order : List Nat)
    (horder : order.Nodup)
    (hsub : ∀ f ∈ order, f < (LinearizedRapidScorer.build block forest sorted).offsets.length) :
    ((LinearizedRapidScorer.build block forest sorted).appliedInOrder order document).Nodup := by
  unfold LinearizedRapidScorer.appliedInOrder
  rw [List.nodup_flatMap]
  constructor
  · intro f _
    exact List.nodup_range' _ _
  · refine List.Pairwise.imp_of_mem ?_ horder
    intro a b ha hb hab
    intro j hja hjb
    obtain ⟨n, hn, hfa⟩ := appliedAt_feature block forest sorted hs document a j (hsub a ha) hja
    obtain ⟨m, hm, hfb⟩ := appliedAt_feature block forest sorted hs document b j (hsub b hb) hjb
    rw [hn] at hm
    cases hm
    exact hab (hfa.symm.trans hfb)

/-- C3, counterexample: on the forest whose root splits feature 0 at NaN and whose right child
splits feature 0 at 1.0, the constructor lays the thresholds out as `[NaN, 1.0]`, and for the
document `[5.0]` the feature loop applies the entries 0 and 1, although `5.0 > NaN` is false for
entry 0. -/
theorem applied_nan_threshold :
    (LinearizedRapidScorer.new .uint8 forestNaNRoot).map
      (fun s => (s.featureThresholds, s.applied ⟨[.num 5]⟩)) =
      some ([.nan, .num 1], [0, 1]) ∧
    (Double.num 5).gt .nan = false := by
  decide

/-- C3, amended: for every forest with non-NaN thresholds, every result of `std::sort` and
every document of sufficient length, `score` is the score of the result mask after the
`applyMask` calls for the entries of `applied`, no entry is applied twice, and entry `j` is
applied if and only if `document.features[f] > featureThresholds[j]`, `f` being the splitting
feature of entry `j` (so not on equality); on the single split of S1 the documents `[0.4]` and
`[0.5]` score 1.0 and `[0.6]` scores 2.0. -/
theorem applied_iff_gt :
    (∀ (block : Block) (forest : Forest) (nodes sorted : List InternalNode)
        (document : SingleDocument),
      collectNodes forest.trees 0 [] = some nodes →
      IsStdSortResult nodes sorted →
      (∀ n ∈ nodes, n.splittingThreshold.isNaN = false) →
      (LinearizedRapidScorer.build block forest sorted).offsets.length ≤
        document.features.length →
      (∀ junk : Nat → Double,
        (LinearizedRapidScorer.build block forest sorted).score junk document =
          ((applyAll (ResultMask.init block forest)
            (((LinearizedRapidScorer.build block forest sorted).applied document).map
              (LinearizedRapidScorer.build block forest sorted).entry)).computeScore forest).map
            (fun total => [total])) ∧
      ((LinearizedRapidScorer.build block forest sorted).applied document).Nodup ∧
      ∀ j, j ∈ (LinearizedRapidScorer.build block forest sorted).applied document ↔
        ∃ n, sorted[j]? = some n ∧
          (document.features.getD n.splittingFeatureIndex .nan).gt
            ((LinearizedRapidScorer.build block forest sorted).featureThresholds.getD j .nan) =
            true) ∧
    (∀ (block : Block) (junk : Nat → Double), (LinearizedRapidScorer.new block forestS1).bind
      (fun s => s.score junk ⟨[.num (2/5)]⟩) = some [.num 1]) ∧
    (∀ (block : Block) (junk : Nat → Double), (LinearizedRapidScorer.new block forestS1).bind
      (fun s => s.score junk ⟨[.num (1/2)]⟩) = some [.num 1]) ∧
    (∀ (block : Block) (junk : Nat → Double), (LinearizedRapidScorer.new block forestS1).bind
      (fun s => s.score junk ⟨[.num (3/5)]⟩) = some [.num 2]) := by
  refine ⟨?_, ?_, ?_, ?_⟩
  · intro block forest nodes sorted document hnodes hsort hnan hlen
    refine ⟨?_, ?_, ?_⟩
    · intro junk
      have h := scoreInOrder_eq (LinearizedRapidScorer.build block forest sorted) junk
        (List.range (LinearizedRapidScorer.build block forest sorted).offsets.length) document
        (fun f hf => by have := List.mem_range.mp hf; omega)
      rw [(build_fields block forest sorted).1, (build_fields block forest sorted).2.1] at h
      exact h
    · exact appliedInOrder_nodup block forest sorted hsort.featureSorted document _
        (List.nodup_range _) (fun f hf => List.mem_range.mp hf)
    · intro j
      rw [mem_applied_iff block forest nodes sorted hsort hnan document j]
      constructor
      · rintro ⟨n, hn, hc⟩
        refine ⟨n, hn, ?_⟩
        rw [(build_entry block forest sorted j n hn).2]
        exact hc
      · rintro ⟨n, hn, hc⟩
        refine ⟨n, hn, ?_⟩
        rw [(build_entry block forest sorted j n hn).2] at hc
        exact hc
  · intro block junk
    rw [bind_score_junk _ junk (fun _ => .nan) _ (by cases block <;> decide)]
    cases block <;> decide
  · intro block junk
    rw [bind_score_junk _ junk (fun _ => .nan) _ (by cases block <;> decide)]
    cases block <;> decide
  · intro block junk
    rw [bind_score_junk _ junk (fun _ => .nan) _ (by cases block <;> decide)]
    cases block <;> decide

/-- C3, witness: the amended statement on the forest of S1 and the document `[0.5]`, for
entry 0. -/
theorem applied_iff_gt_witness :
    ((LinearizedRapidScorer.build .uint8 forestS1
      (stdSort (forestNodes forestS1.trees 0))).applied ⟨[.num (1/2)]⟩).Nodup ∧
    (0 ∈ (LinearizedRapidScorer.build .uint8 forestS1
        (stdSort (forestNodes forestS1.trees 0))).applied ⟨[.num (1/2)]⟩ ↔
      ∃ n, (stdSort (forestNodes forestS1.trees 0))[0]? = some n ∧
        (([Double.num (1/2)] : List Double).getD n.splittingFeatureIndex .nan).gt
          ((LinearizedRapidScorer.build .uint8 forestS1
            (stdSort (forestNodes forestS1.trees 0))).featureThresholds.getD 0 .nan) = true) :=
  ⟨(applied_iff_gt.1 .uint8 forestS1 (forestNodes forestS1.trees 0)
      (stdSort (forestNodes forestS1.trees 0)) ⟨[.num (1/2)]⟩ (by decide)
      ⟨by decide, by decide⟩ (by decide) (by decide)).2.1,
   (applied_iff_gt.1 .uint8 forestS1 (forestNodes forestS1.trees 0)
      (stdSort (forestNodes forestS1.trees 0)) ⟨[.num (1/2)]⟩ (by decide)
      ⟨by decide, by decide⟩ (by decide) (by decide)).2.2 0⟩

/-! ## Epitome algebra -/

theorem Node.leavesBefore_add_le (root : Node) (position : List Bool) (node : Node)
    (h : root.subtreeAt position = some node) :
    root.leavesBefore position + node.numberOfLeaves ≤ root.numberOfLeaves := by
  induction position generalizing root with
  | nil =>
    rw [Node.subtreeAt_nil] at h
    cases h
    rw [Node.leavesBefore_nil]; omega
  | cons b position ih =>
    cases root with
    | leaf v => simp [Node.subtreeAt] at h
    | internal f t l r =>
      cases b with
      | false =>
        have := ih l (by simpa [Node.subtreeAt] using h)
        simp only [Node.leavesBefore, Node.numberOfLeaves]; omega
      | true =>
        have := ih r (by simpa [Node.subtreeAt] using h)
        simp only [Node.leavesBefore, Node.numberOfLeaves]; omega

theorem Node.leafPaths_prefix_iff (root : Node) (position : List Bool) (node : Node)
    (i : Nat) (path : List Bool) (h : root.subtreeAt position = some node)
    (hp : root.leafPaths[i]? = some path) :
    position <+: path ↔
      root.leavesBefore position ≤ i ∧
        i < root.leavesBefore position + node.numberOfLeaves := by
  induction position generalizing root i path with
  | nil =>
    rw [Node.subtreeAt_nil] at h
    cases h
    have hi : i < node.leafPaths.length := by
      by_contra hcon
      rw [List.getElem?_eq_none (Nat.le_of_not_lt hcon)] at hp
      cases hp
    rw [Node.leafPaths_length] at hi
    simp [Node.leavesBefore_nil, hi]
  | cons b position ih =>
    cases root with
    | leaf v => simp [Node.subtreeAt] at h
    | internal f t l r =>
      have hlp := Node.leafPaths_length l
      simp only [Node.leafPaths] at hp
      by_cases hi : i < l.numberOfLeaves
      · have hi2 : i < (l.leafPaths.map (fun p => false :: p)).length := by
          rw [List.length_map]; omega
        rw [List.getElem?_append_left hi2, List.getElem?_map] at hp
        cases hl : l.leafPaths[i]? with
        | none => rw [hl] at hp; cases hp
        | some p =>
          rw [hl] at hp
          simp only [Option.map_some', Option.some.injEq] at hp
          subst hp
          cases b with
          | false =>
            have := ih l i p (by simpa [Node.subtreeAt] using h) hl
            simpa [Node.leavesBefore, List.cons_prefix_cons] using this
          | true =>
            simp only [List.cons_prefix_cons, Node.leavesBefore]
            constructor
            · intro hc; simp at hc
            · intro hc; omega
      · have hi2 : (l.leafPaths.map (fun p => false :: p)).length ≤ i := by
          rw [List.length_map]; omega
        rw [List.getElem?_append_right hi2, List.length_map, hlp, List.getElem?_map] at hp
        cases hr : r.leafPaths[i - l.numberOfLeaves]? with
        | none => rw [hr] at hp; cases hp
        | some p =>
          rw [hr] at hp
          simp only [Option.map_some', Option.some.injEq] at hp
          subst hp
          cases b with
          | false =>
            have hle := Node.leavesBefore_add_le l position node
              (by simpa [Node.subtreeAt] using h)
            simp only [List.cons_prefix_cons, Node.leavesBefore]
            constructor
            · intro hc; simp at hc
            · intro hc; omega
          | true =>
            have := ih r (i - l.numberOfLeaves) p (by simpa [Node.subtreeAt] using h) hr
            simp only [List.cons_prefix_cons, Node.leavesBefore, true_and]
            rw [this]
            omega

theorem nodesOf_subtreeAt (treeIndex : Nat) (root : Node) (position : List Bool) (node : Node)
    (n : InternalNode) (hn : n ∈ nodesOf treeIndex position node)
    (h : root.subtreeAt position = some node) :
    root.subtreeAt n.position =
      some (.internal n.splittingFeatureIndex n.splittingThreshold n.leftNode n.rightNode) := by
  induction node generalizing position with
  | leaf v => simp [nodesOf] at hn
  | internal f t l r ihl ihr =>
    obtain ⟨h1, h2, _, _⟩ := Node.subtreeAt_snoc root position f t l r h
    simp only [nodesOf, List.mem_cons, List.mem_append] at hn
    rcases hn with rfl | hn | hn
    · exact h
    · exact ihl _ hn h1
    · exact ihr _ hn h2

/-- C4: for every internal node `n` of every tree `t` of a forest, applying the epitome the
constructor builds for `n` to the all-ones result mask clears, among the leaf bits of `t`,
exactly the bits of the leaves in the left subtree of `n` (the leaves whose position starts with
the position of `n` followed by a left branch); every other leaf bit of `t` stays set. -/
theorem epitome_clears_left_subtree (block : Block) (forest : Forest) (ti : Nat) (t : Tree)
    (n : InternalNode) (i : Nat) (path : List Bool)
    (ht : forest.trees[ti]? = some t) (hn : n ∈ nodesOf ti [] t.root)
    (hp : t.root.leafPaths[i]? = some path) :
    ((((ResultMask.init block forest).applyMask (epitomeOf forest n) n.treeIndex).getD
        ti []).getD i false = false) ↔
      (n.position ++ [false]) <+: path := by
  have hti := nodesOf_treeIndex _ _ _ _ hn
  have hsub := nodesOf_subtreeAt ti t.root [] t.root n hn (Node.subtreeAt_nil _)
  obtain ⟨h1, _, h3, _⟩ := Node.subtreeAt_snoc t.root n.position _ _ _ _ hsub
  rw [Node.leafPaths_prefix_iff t.root (n.position ++ [false]) n.leftNode i path h1 hp, h3]
  have hi : i < t.root.leafPaths.length := by
    by_contra hcon
    rw [List.getElem?_eq_none (Nat.le_of_not_lt hcon)] at hp
    cases hp
  rw [Node.leafPaths_length] at hi
  have hw := Block.le_roundUp block t.leafCount
  have hiw : i < block.roundUp t.leafCount := by
    unfold Tree.leafCount at hw ⊢; omega
  have hinit : (ResultMask.init block forest).getD ti [] =
      List.replicate (block.roundUp t.leafCount) true := by
    simp [ResultMask.init, List.getD_eq_getElem?_getD, List.getElem?_map, ht]
  rw [applyMask_getD, hti, if_pos rfl, andEpitome_getD, hinit, replicate_true_getD,
    epitomeOf_eq forest ti t n ht hti]
  simp only [hiw, decide_True, Bool.true_and, Epitome.bit, decide_eq_false_iff_not]
  omega

/-- C4, witness: the root of the tree of S1 clears the bit of its left leaf. -/
theorem epitome_clears_left_subtree_witness :
    ((((ResultMask.init .uint8 forestS1).applyMask
        (epitomeOf forestS1 ⟨0, .num (1/2), .leaf (.num 1), .leaf (.num 2), 0, []⟩) 0).getD
        0 []).getD 0 false = false) ↔
      ([] ++ [false]) <+: [false] :=
  epitome_clears_left_subtree .uint8 forestS1 0 treeS1
    ⟨0, .num (1/2), .leaf (.num 1), .leaf (.num 2), 0, []⟩ 0 [false]
    (by decide) (by decide) (by decide)

/-! ## The layout of the flattened arrays -/

/-- C5: after construction, for every feature index `f < offsets.size()`, the entries `j` with
`offsets[f] <= j < end(f)` (`end(f)` is `offsets[f+1]`, or `featureThresholds.size()` for the last
feature) are exactly the entries whose node splits on `f`; the range lies inside the arrays; when
`f` has an internal node, `offsets[f]` is the index of an entry of feature `f` (the first one);
when it has none, `offsets[f]` equals the offset of the next feature and the range is empty. -/
theorem offsets_slice (block : Block) (forest : Forest) (nodes sorted : List InternalNode)
    (f : Nat) (hsort : IsStdSortResult nodes sorted)
    (hf : f < (LinearizedRapidScorer.build block forest sorted).offsets.length) :
    (∀ j n, sorted[j]? = some n →
      (((LinearizedRapidScorer.build block forest sorted).offsets.getD f 0 ≤ j ∧
        j < (LinearizedRapidScorer.build block forest sorted).stopOf f) ↔
        n.splittingFeatureIndex = f)) ∧
    (LinearizedRapidScorer.build block forest sorted).offsets.getD f 0 ≤
      (LinearizedRapidScorer.build block forest sorted).stopOf f ∧
    (LinearizedRapidScorer.build block forest sorted).stopOf f ≤
      (LinearizedRapidScorer.build block forest sorted).featureThresholds.length ∧
    ((∃ n ∈ sorted, n.splittingFeatureIndex = f) →
      ∃ n, sorted[(LinearizedRapidScorer.build block forest sorted).offsets.getD f 0]? = some n ∧
        n.splittingFeatureIndex = f) ∧
    ((∀ n ∈ sorted, n.splittingFeatureIndex ≠ f) →
      f + 1 < (LinearizedRapidScorer.build block forest sorted).offsets.length ∧
      (LinearizedRapidScorer.build block forest sorted).offsets.getD f 0 =
        (LinearizedRapidScorer.build block forest sorted).offsets.getD (f + 1) 0 ∧
      (LinearizedRapidScorer.build block forest sorted).offsets.getD f 0 =
        (LinearizedRapidScorer.build block forest sorted).stopOf f) := by
  have hs := hsort.featureSorted
  have hslice := build_slice block forest sorted hs f hf
  obtain ⟨hle, hstop⟩ := build_slice_le block forest sorted hs f hf
  have hlen : (LinearizedRapidScorer.build block forest sorted).featureThresholds.length =
      sorted.length := by
    rw [(build_fields block forest sorted).2.2.1, List.length_map]
  have hfirst : (LinearizedRapidScorer.build block forest sorted).offsets.getD f 0 <
      (LinearizedRapidScorer.build block forest sorted).stopOf f →
      ∃ n, sorted[(LinearizedRapidScorer.build block forest sorted).offsets.getD f 0]? =
        some n ∧ n.splittingFeatureIndex = f := by
    intro hlt
    have hl : (LinearizedRapidScorer.build block forest sorted).offsets.getD f 0 <
        sorted.length := by omega
    exact ⟨_, List.getElem?_eq_getElem hl,
      (hslice _ _ (List.getElem?_eq_getElem hl)).mp ⟨Nat.le_refl _, hlt⟩⟩
  refine ⟨hslice, hle, by omega, ?_, ?_⟩
  · rintro ⟨n, hn, hfn⟩
    obtain ⟨j, hj⟩ := List.getElem?_of_mem hn
    have := (hslice j n hj).mpr hfn
    exact hfirst (by omega)
  · intro hnone
    have heq : (LinearizedRapidScorer.build block forest sorted).offsets.getD f 0 =
        (LinearizedRapidScorer.build block forest sorted).stopOf f := by
      by_contra hne
      obtain ⟨n, hn, hfn⟩ := hfirst (by omega)
      exact hnone n (List.getElem?_mem hn) hfn
    obtain ⟨m, hm, hmlen⟩ := (build_offsets block forest sorted hs).2.2 (by omega)
    have hmf := hnone m hm
    have hf1 : f + 1 < (LinearizedRapidScorer.build block forest sorted).offsets.length := by
      omega
    refine ⟨hf1, ?_, heq⟩
    rw [heq, LinearizedRapidScorer.stopOf, if_pos hf1]

/-- C5, witness: in the scorer of a forest that only splits on feature 2, feature 0 has no
internal node: its offset equals the offset of feature 1 and its range is empty. -/
theorem offsets_slice_witness :
    0 + 1 < (LinearizedRapidScorer.build .uint8 forestSparse
      (stdSort (forestNodes forestSparse.trees 0))).offsets.length ∧
    (LinearizedRapidScorer.build .uint8 forestSparse
      (stdSort (forestNodes forestSparse.trees 0))).offsets.getD 0 0 =
      (LinearizedRapidScorer.build .uint8 forestSparse
        (stdSort (forestNodes forestSparse.trees 0))).offsets.getD (0 + 1) 0 ∧
    (LinearizedRapidScorer.build .uint8 forestSparse
      (stdSort (forestNodes forestSparse.trees 0))).offsets.getD 0 0 =
      (LinearizedRapidScorer.build .uint8 forestSparse
        (stdSort (forestNodes forestSparse.trees 0))).stopOf 0 :=
  (offsets_slice .uint8 forestSparse (forestNodes forestSparse.trees 0)
    (stdSort (forestNodes forestSparse.trees 0)) 0 ⟨by decide, by decide⟩
    (by decide)).2.2.2.2 (by decide)

/-! ## The sort order -/

theorem Double.le_of_not_lt (a b : Double) (ha : a.isNaN = false) (hb : b.isNaN = false)
    (h : b.lt a = false) : a.le b = true := by
  cases a with
  | nan => simp [Double.isNaN] at ha
  | num x =>
    cases b with
    | nan => simp [Double.isNaN] at hb
    | num y =>
      simp only [Double.lt, Double.le, decide_eq_true_eq, decide_eq_false_iff_not, not_lt] at h ⊢
      exact h

theorem sorted_pair (block : Block) (forest : Forest) (nodes sorted : List InternalNode)
    (hsort : IsStdSortResult nodes sorted)
    (hnan : ∀ n ∈ nodes, n.splittingThreshold.isNaN = false)
    (i j : Nat) (a b : InternalNode) (hij : i < j)
    (ha : sorted[i]? = some a) (hb : sorted[j]? = some b) :
    a.splittingFeatureIndex ≤ b.splittingFeatureIndex ∧
    (a.splittingFeatureIndex = b.splittingFeatureIndex →
      ((LinearizedRapidScorer.build block forest sorted).featureThresholds.getD i .nan).le
        ((LinearizedRapidScorer.build block forest sorted).featureThresholds.getD j .nan) =
        true) := by
  have hil : i < sorted.length := by
    by_contra hcon
    rw [List.getElem?_eq_none (Nat.le_of_not_lt hcon)] at ha
    cases ha
  have hjl : j < sorted.length := by
    by_contra hcon
    rw [List.getElem?_eq_none (Nat.le_of_not_lt hcon)] at hb
    cases hb
  have hpair := List.pairwise_iff_getElem.mp hsort.2 i j hil hjl hij
  rw [List.getElem?_eq_getElem hil, Option.some.injEq] at ha
  rw [List.getElem?_eq_getElem hjl, Option.some.injEq] at hb
  rw [ha, hb] at hpair
  obtain ⟨h1, h2⟩ := nodeComparator_false a b hpair
  refine ⟨h1, fun he => ?_⟩
  rw [(build_entry block forest sorted i a (by rw [List.getElem?_eq_getElem hil, ha])).2,
    (build_entry block forest sorted j b (by rw [List.getElem?_eq_getElem hjl, hb])).2]
  exact Double.le_of_not_lt _ _
    (hnan a (hsort.1.subset (ha ▸ List.getElem_mem hil)))
    (hnan b (hsort.1.subset (hb ▸ List.getElem_mem hjl))) (h2 he)

/-- C6: after construction on a forest with non-NaN thresholds, the flattened entries are in
(featureIndex ascending, threshold ascending) order: for entries `i < j` the splitting feature of
`i` is at most that of `j`, and when the features are equal
`featureThresholds[i] <= featureThresholds[j]`; hence every per-feature slice
`[offsets[f], end(f))` of `featureThresholds` is non-decreasing. -/
theorem entries_sorted (block : Block) (forest : Forest) (nodes sorted : List InternalNode)
    (hsort : IsStdSortResult nodes sorted)
    (hnan : ∀ n ∈ nodes, n.splittingThreshold.isNaN = false) :
    (∀ i j a b, i < j → sorted[i]? = some a → sorted[j]? = some b →
      a.splittingFeatureIndex ≤ b.splittingFeatureIndex ∧
      (a.splittingFeatureIndex = b.splittingFeatureIndex →
        ((LinearizedRapidScorer.build block forest sorted).featureThresholds.getD i .nan).le
          ((LinearizedRapidScorer.build block forest sorted).featureThresholds.getD j .nan) =
          true)) ∧
    (∀ f i j, f < (LinearizedRapidScorer.build block forest sorted).offsets.length →
      (LinearizedRapidScorer.build block forest sorted).offsets.getD f 0 ≤ i → i < j →
      j < (LinearizedRapidScorer.build block forest sorted).stopOf f →
      ((LinearizedRapidScorer.build block forest sorted).featureThresholds.getD i .nan).le
        ((LinearizedRapidScorer.build block forest sorted).featureThresholds.getD j .nan) =
        true) := by
  refine ⟨fun i j a b hij ha hb =>
    sorted_pair block forest nodes sorted hsort hnan i j a b hij ha hb, ?_⟩
  intro f i j hf hi hij hj
  have hs := hsort.featureSorted
  have hstop := (build_slice_le block forest sorted hs f hf).2
  have hjl : j < sorted.length := by omega
  have hil : i < sorted.length := by omega
  have hjn : sorted[j]? = some sorted[j] := List.getElem?_eq_getElem hjl
  have hin : sorted[i]? = some sorted[i] := List.getElem?_eq_getElem hil
  have hfi := (build_slice block forest sorted hs f hf i _ hin).mp ⟨hi, by omega⟩
  have hfj := (build_slice block forest sorted hs f hf j _ hjn).mp ⟨by omega, hj⟩
  exact (sorted_pair block forest nodes sorted hsort hnan i j _ _ hij hin hjn).2
    (by rw [hfi, hfj])

/-- C6, witness: in the scorer of `forestDeep` the two entries of feature 1 (entries 1 and 2)
have non-decreasing thresholds. -/
theorem entries_sorted_witness :
    ((LinearizedRapidScorer.build .uint8 forestDeep
        (stdSort (forestNodes forestDeep.trees 0))).featureThresholds.getD 1 .nan).le
      ((LinearizedRapidScorer.build .uint8 forestDeep
        (stdSort (forestNodes forestDeep.trees 0))).featureThresholds.getD 2 .nan) = true :=
  (entries_sorted .uint8 forestDeep (forestNodes forestDeep.trees 0)
    (stdSort (forestNodes forestDeep.trees 0)) ⟨by decide, by decide⟩ (by decide)).2 1 1 2
    (by decide) (by decide) (by decide) (by decide)

/-! ## NaN features -/

theorem lowerBoundLoop_never (v : List Double) (value : Double) (fuel first len : Nat)
    (h : ∀ j, (v.getD j .nan).lt value = false) :
    lowerBoundLoop v value fuel first len = first := by
  induction fuel generalizing len with
  | zero => rfl
  | succ fuel ih =>
    unfold lowerBoundLoop
    by_cases hlen : len = 0
    · simp [hlen]
    · simp only [hlen, if_false, h, Bool.false_eq_true]
      exact ih _

theorem Double.lt_nan (a : Double) : a.lt .nan = false := by
  cases a <;> rfl

/-- C7, counterexample: on the forest of S1 the document `[NaN]` scores 1.0, the weight of the
left leaf, not 2.0. -/
theorem score_nan_feature_S1 :
    (LinearizedRapidScorer.new .uint8 forestS1).bind
      (fun s => s.score (fun _ => .nan) ⟨[.nan]⟩) = some [.num 1] ∧
    (LinearizedRapidScorer.new .uint8 forestS1).bind
      (fun s => s.score (fun _ => .nan) ⟨[.nan]⟩) ≠ some [.num 2] := by
  decide

/-- C7, amended: a NaN feature value makes every comparison `threshold < value` of
`lower_bound` false, so for that feature `score` applies no epitome and the document follows the
left branch at every node on that feature: for the single split of S1, `score` on `[NaN]` yields
1.0 for every block type; the iteration of the feature loop that reads NaN leaves the result
mask as it was. -/
theorem nan_feature_applies_nothing :
    (∀ (s : LinearizedRapidScorer) (document : SingleDocument) (f : Nat),
      document.features.getD f .nan = .nan → s.appliedAt document f = []) ∧
    (∀ (features : List Double) (f : Nat) (threshold : Double),
      features.getD f .nan = .nan → conditionFails features f threshold = false) ∧
    (∀ (block : Block) (junk : Nat → Double), (LinearizedRapidScorer.new block forestS1).bind
      (fun s => s.score junk ⟨[.nan]⟩) = some [.num 1]) ∧
    (∀ (s : LinearizedRapidScorer) (junk : Nat → Double) (document : SingleDocument)
        (result : ResultMask) (f : Nat),
      document.read junk f = .nan → s.scoreFeature junk document result f = result) := by
  refine ⟨?_, ?_, ?_, ?_⟩
  · intro s document f hf
    simp only [LinearizedRapidScorer.appliedAt, hf, lowerBound]
    rw [lowerBoundLoop_never _ _ _ _ _ (fun j => Double.lt_nan _)]
    simp
  · intro features f threshold hf
    rw [conditionFails, hf, Double.lt_nan]
  · intro block junk
    rw [bind_score_junk _ junk (fun _ => .nan) _ (by cases block <;> decide)]
    cases block <;> decide
  · intro s junk document result f hf
    simp only [LinearizedRapidScorer.scoreFeature, hf, lowerBound]
    rw [lowerBoundLoop_never _ _ _ _ _ (fun j => Double.lt_nan _)]
    simp

/-- C7, witness: the scorer of the forest of S1 applies nothing for feature 0 of `[NaN]`. -/
theorem nan_feature_applies_nothing_witness :
    (LinearizedRapidScorer.build .uint8 forestS1
      (stdSort (forestNodes forestS1.trees 0))).appliedAt ⟨[.nan]⟩ 0 = [] :=
  nan_feature_applies_nothing.1 _ ⟨[.nan]⟩ 0 (by decide)

/-! ## `score` on a document that is too short -/

theorem lowestSetBit_exists (bs : List Bool) (m : Nat) (h : bs.getD m false = true) :
    ∃ k, k ≤ m ∧ lowestSetBit bs = some k := by
  induction bs generalizing m with
  | nil => simp at h
  | cons b bs ih =>
    cases b with
    | true => exact ⟨0, Nat.zero_le _, rfl⟩
    | false =>
      cases m with
      | zero => simp at h
      | succ m =>
        obtain ⟨k, hk, hlow⟩ := ih m (by simpa using h)
        exact ⟨k + 1, by omega, by simp [lowestSetBit, hlow]⟩

theorem nodesOf_run_lt (treeIndex : Nat) (root : Node) (n : InternalNode)
    (hn : n ∈ nodesOf treeIndex [] root) :
    root.leavesBefore n.position + n.leftNode.numberOfLeaves < root.numberOfLeaves := by
  have hsub := nodesOf_subtreeAt treeIndex root [] root n hn (Node.subtreeAt_nil _)
  have hle := Node.leavesBefore_add_le root n.position _ hsub
  have hr := Node.numberOfLeaves_pos n.rightNode
  simp only [Node.numberOfLeaves] at hle
  omega

theorem acc_rightmost (block : Block) (forest : Forest) (sorted : List InternalNode)
    (apps : List Nat) (ti : Nat) (t : Tree)
    (hperm : sorted.Perm (forestNodes forest.trees 0))
    (happs : ∀ j ∈ apps, j < sorted.length)
    (ht : forest.trees[ti]? = some t) :
    ((applyAll (ResultMask.init block forest)
        (apps.map (LinearizedRapidScorer.build block forest sorted).entry)).getD ti []).getD
        (t.leafCount - 1) false = true := by
  rw [applyAll_getD]
  have hinit : (ResultMask.init block forest).getD ti [] =
      List.replicate (block.roundUp t.leafCount) true := by
    simp [ResultMask.init, List.getD_eq_getElem?_getD, List.getElem?_map, ht]
  have hpos := Node.numberOfLeaves_pos t.root
  have hw := Block.le_roundUp block t.leafCount
  have hlt : t.leafCount - 1 < block.roundUp t.leafCount := by
    unfold Tree.leafCount at hw ⊢; omega
  rw [hinit, replicate_true_getD]
  simp only [hlt, decide_True, Bool.true_and, List.all_eq_true, List.mem_map]
  rintro a ⟨j, hj, rfl⟩
  have hjl := happs j hj
  rw [(build_entry block forest sorted j _ (List.getElem?_eq_getElem hjl)).1]
  by_cases hti : sorted[j].treeIndex = ti
  · have hn : sorted[j] ∈ nodesOf ti [] t.root :=
      (mem_forestNodes_tree forest.trees ti t _ ht).mp
        ⟨hperm.subset (List.getElem_mem hjl), hti⟩
    have hrun := nodesOf_run_lt ti t.root _ hn
    rw [epitomeOf_eq forest ti t _ ht hti]
    simp only [Epitome.bit, Tree.leafCount, Bool.or_eq_true, decide_eq_true_eq]
    right
    omega
  · simp [hti]

theorem mem_appliedInOrder_lt (block : Block) (forest : Forest) (sorted : List InternalNode)
    (hs : FeatureSorted sorted) (document : SingleDocument) (order : List Nat)
    (hsub : ∀ f ∈ order, f < (LinearizedRapidScorer.build block forest sorted).offsets.length)
    (j : Nat)
    (hj : j ∈ (LinearizedRapidScorer.build block forest sorted).appliedInOrder order document) :
    j < sorted.length := by
  simp only [LinearizedRapidScorer.appliedInOrder, List.mem_flatMap] at hj
  obtain ⟨f, hf, hjf⟩ := hj
  obtain ⟨n, hn, _⟩ := appliedAt_feature block forest sorted hs document f j (hsub f hf) hjf
  by_contra hcon
  rw [List.getElem?_eq_none (Nat.le_of_not_lt hcon)] at hn
  cases hn

theorem parseNode_of_rejected :
    ∀ json : JsonObject, json.rejected = true → parseNode json = none
  | .mk none _ _ _ _ _ _, h => by simp [JsonObject.rejected] at h
  | .mk (some sf) dt dl th lv none rc, _ => by
      unfold parseNode
      split <;> try rfl
      split <;> try rfl
      cases sf.getInt <;> cases th.bind JsonScalar.getDouble <;> rfl
  | .mk (some sf) dt dl th lv (some jl) none, _ => by
      unfold parseNode
      split <;> try rfl
      split <;> try rfl
      cases sf.getInt <;> cases th.bind JsonScalar.getDouble <;> rfl
  | .mk (some sf) dt dl th lv (some jl) (some jr), h => by
      unfold parseNode
      split <;> try rfl
      split <;> try rfl
      rename_i h1 h2
      simp only [JsonObject.rejected, h1, h2, Bool.or_eq_true, decide_eq_true_eq] at h
      have hc : jl.rejected = true ∨ jr.rejected = true := by
        rcases h with ((h | h) | h) | h
        · exact absurd h (by simp at h1; simp [h1])
        · exact absurd h (by simp at h2; simp [h2])
        · exact Or.inl h
        · exact Or.inr h
      cases hi : sf.getInt <;> cases hx : th.bind JsonScalar.getDouble <;> try rfl
      rcases hc with hc | hc
      · simp [parseNode_of_rejected jl hc]
      · simp [parseNode_of_rejected jr hc]

theorem parseNode_of_wellFormed :
    ∀ json : JsonObject, json.wellFormed = true → json.rejected = false →
      ∃ node, parseNode json = some node
  | .mk none _ _ _ lv _ _, h, _ => by
      simp only [JsonObject.wellFormed] at h
      obtain ⟨v, hv⟩ := Option.isSome_iff_exists.mp h
      exact ⟨.leaf v, by simp [parseNode, hv]⟩
  | .mk (some sf) dt dl th lv none rc, h, _ => by
      cases rc <;> simp [JsonObject.wellFormed] at h
  | .mk (some sf) dt dl th lv (some jl) none, h, _ => by simp [JsonObject.wellFormed] at h
  | .mk (some sf) dt dl th lv (some jl) (some jr), h, hr => by
      simp only [JsonObject.wellFormed, Bool.and_eq_true] at h
      simp only [JsonObject.rejected, Bool.or_eq_false_iff, decide_eq_false_iff_not,
        not_not] at hr
      obtain ⟨⟨⟨hsf, hth⟩, hjl⟩, hjr⟩ := h
      obtain ⟨⟨⟨hdt, hdl⟩, hrl⟩, hrr⟩ := hr
      obtain ⟨l, hl⟩ := parseNode_of_wellFormed jl hjl hrl
      obtain ⟨r, hr2⟩ := parseNode_of_wellFormed jr hjr hrr
      obtain ⟨x, hx⟩ := Option.isSome_iff_exists.mp hth
      cases hi : sf.getInt with
      | none => simp [JsonScalar.isFeatureIndex, hi] at hsf
      | some i => exact ⟨.internal (i % 2 ^ 32).toNat x l r, by simp [parseNode, hdt, hdl, hi, hx, hl, hr2]⟩

theorem JsonScalar.getInt_range (v : JsonScalar) (i : Int) (h : v.getInt = some i) :
    -2 ^ 31 ≤ i ∧ i < 2 ^ 31 := by
  cases v with
  | int k =>
    simp only [JsonScalar.getInt] at h
    split at h
    · rename_i hk
      cases h
      exact hk
    · cases h
  | null => simp [JsonScalar.getInt] at h
  | bool b => simp [JsonScalar.getInt] at h
  | double d => simp [JsonScalar.getInt] at h
  | string s => simp [JsonScalar.getInt] at h

/-- C9: `parseNode` rejects every JSON tree that has, at any depth, a node with a
`split_feature` member whose `decision_type` is not `"<="` or whose `default_left` is not `true`;
every other well-formed tree is parsed; a node with a (non-negative) `split_feature` gives the
internal node carrying that feature, the `threshold` and the recursively parsed `left_child` and
`right_child`; a node without `split_feature` gives the leaf carrying `leaf_value`. -/
theorem parseNode_spec :
    (∀ json : JsonObject, json.rejected = true → parseNode json = none) ∧
    (∀ json : JsonObject, json.wellFormed = true → json.rejected = false →
      ∃ node, parseNode json = some node) ∧
    (∀ (sf : JsonScalar) (dt dl : Option JsonScalar) (th : JsonScalar) (lv : Option JsonScalar)
        (jl jr : JsonObject) (i : Int) (x : Double) (l r : Node),
      sf.getInt = some i → 0 ≤ i → th.getDouble = some x →
      dt = some (.string "<=") → dl = some (.bool true) →
      parseNode jl = some l → parseNode jr = some r →
      parseNode (.mk (some sf) dt dl (some th) lv (some jl) (some jr)) =
        some (.internal i.toNat x l r)) ∧
    (∀ (dt dl th : Option JsonScalar) (lv : JsonScalar) (lc rc : Option JsonObject)
        (v : Double),
      lv.getDouble = some v → parseNode (.mk none dt dl th (some lv) lc rc) = some (.leaf v)) := by
  refine ⟨parseNode_of_rejected, parseNode_of_wellFormed, ?_, ?_⟩
  · intro sf dt dl th lv jl jr i x l r hi hpos hx hdt hdl hl hr
    have hrange := JsonScalar.getInt_range sf i hi
    have hmod : i % 4294967296 = i := Int.emod_eq_of_lt hpos (by omega)
    simp [parseNode, hdt, hdl, hi, hx, hl, hr, hmod]
  · intro dt dl th lv lc rc v hv
    simp [parseNode, hv]

/-- C9, witness: the JSON of the tree of S1 with decision type `"<"` in the right child of the
root is rejected, and the JSON of the tree of S1 is parsed to that tree. -/
theorem parseNode_spec_witness :
    parseNode jsonBadChild = none ∧ parseNode jsonS1 = some treeS1.root :=
  ⟨parseNode_spec.1 jsonBadChild (by decide),
   parseNode_spec.2.2.1 (.int 0) _ _ (.double (.num (1/2))) none _ _ 0 (.num (1/2))
     (.leaf (.num 1)) (.leaf (.num 2)) (by decide) (by decide) rfl rfl rfl (by decide)
     (by decide)⟩

/-! ## Order independence -/

theorem list_ext_getD {α : Type} (d : α) (a b : List α) (hlen : a.length = b.length)
    (h : ∀ i, i < a.length → a.getD i d = b.getD i d) : a = b := by
  apply List.ext_getElem hlen
  intro i h1 h2
  have := h i h1
  rwa [List.getD_eq_getElem _ _ h1, List.getD_eq_getElem _ _ h2] at this

theorem andEpitome_comm (acc : List Bool) (e1 e2 : Epitome) :
    andEpitome (andEpitome acc e1) e2 = andEpitome (andEpitome acc e2) e1 := by
  apply list_ext_getD false
  · simp [andEpitome_length]
  · intro i _
    rw [andEpitome_getD, andEpitome_getD, andEpitome_getD, andEpitome_getD,
      Bool.and_assoc, Bool.and_assoc, Bool.and_comm (e1.bit i)]

theorem applyMask_comm (r : ResultMask) (e1 : Epitome) (t1 : Nat) (e2 : Epitome) (t2 : Nat) :
    (r.applyMask e1 t1).applyMask e2 t2 = (r.applyMask e2 t2).applyMask e1 t1 := by
  induction r generalizing t1 t2 with
  | nil => rfl
  | cons acc rest ih =>
    cases t1 with
    | zero =>
      cases t2 with
      | zero => simp [ResultMask.applyMask, andEpitome_comm]
      | succ t2 => simp [ResultMask.applyMask]
    | succ t1 =>
      cases t2 with
      | zero => simp [ResultMask.applyMask]
      | succ t2 => simp [ResultMask.applyMask, ih]

theorem applyAll_perm (r : ResultMask) (xs ys : List (Epitome × Nat)) (h : xs.Perm ys) :
    applyAll r xs = applyAll r ys :=
  List.Perm.foldl_eq' h (fun x _ y _ z => applyMask_comm z x.1 x.2 y.1 y.2) r

theorem foldl_scoreFeature_perm (s : LinearizedRapidScorer) (junk : Nat → Double)
    (document : SingleDocument) (n : Nat) (order1 order2 : List Nat) (r : ResultMask)
    (h : order1.Perm order2) (hn : ∀ f ∈ order2, f < n) :
    order1.foldl (s.scoreFeature junk document) r =
      order2.foldl (s.scoreFeature junk document) r := by
  rw [foldl_scoreFeature_pad s junk document n order1 r (fun f hf => hn f (h.subset hf)),
    foldl_scoreFeature_pad s junk document n order2 r hn]
  apply applyAll_perm
  apply List.Perm.map
  exact List.Perm.flatMap_right _ h

theorem build_offsets_length_le (block : Block) (forest : Forest)
    (nodes sorted1 sorted2 : List InternalNode)
    (h1 : IsStdSortResult nodes sorted1) (h2 : IsStdSortResult nodes sorted2) :
    (LinearizedRapidScorer.build block forest sorted1).offsets.length ≤
      (LinearizedRapidScorer.build block forest sorted2).offsets.length := by
  by_contra hcon
  obtain ⟨n, hn, hlen⟩ := (build_offsets block forest sorted1 h1.featureSorted).2.2 (by omega)
  have := (build_offsets block forest sorted2 h2.featureSorted).1 n
    (h2.1.symm.subset (h1.1.subset hn))
  omega

theorem accumulators_eq (block : Block) (forest : Forest)
    (nodes sorted1 sorted2 : List InternalNode) (document : SingleDocument)
    (hnodes : collectNodes forest.trees 0 [] = some nodes)
    (h1 : IsStdSortResult nodes sorted1) (h2 : IsStdSortResult nodes sorted2)
    (hnan : ∀ n ∈ nodes, n.splittingThreshold.isNaN = false) :
    applyAll (ResultMask.init block forest)
        (((LinearizedRapidScorer.build block forest sorted1).applied document).map
          (LinearizedRapidScorer.build block forest sorted1).entry) =
      applyAll (ResultMask.init block forest)
        (((LinearizedRapidScorer.build block forest sorted2).applied document).map
          (LinearizedRapidScorer.build block forest sorted2).entry) := by
  have hp1 := collectNodes_perm forest nodes sorted1 hnodes h1
  have hp2 := collectNodes_perm forest nodes sorted2 hnodes h2
  apply list_ext_getD []
  · rw [applyAll_length, applyAll_length]
  · intro ti hti
    rw [applyAll_length] at hti
    have hti2 : ti < forest.trees.length := by simpa [ResultMask.init] using hti
    have ht : forest.trees[ti]? = some forest.trees[ti] := List.getElem?_eq_getElem hti2
    apply list_ext_getD false
    · rw [applyAll_getD_length, applyAll_getD_length]
    · intro i _
      rw [acc_getD block forest sorted1 document.features _ ti _ i hp1
          (fun j => mem_applied_iff block forest nodes sorted1 h1 hnan document j) ht,
        acc_getD block forest sorted2 document.features _ ti _ i hp2
          (fun j => mem_applied_iff block forest nodes sorted2 h2 hnan document j) ht]

theorem foldl_build_eq (block : Block) (forest : Forest)
    (nodes sorted1 sorted2 : List InternalNode) (junk : Nat → Double)
    (document : SingleDocument)
    (hnodes : collectNodes forest.trees 0 [] = some nodes)
    (h1 : IsStdSortResult nodes sorted1) (h2 : IsStdSortResult nodes sorted2)
    (hnan : ∀ n ∈ nodes, n.splittingThreshold.isNaN = false) :
    (List.range (LinearizedRapidScorer.build block forest sorted1).offsets.length).foldl
        ((LinearizedRapidScorer.build block forest sorted1).scoreFeature junk document)
        (ResultMask.init block forest) =
      (List.range (LinearizedRapidScorer.build block forest sorted2).offsets.length).foldl
        ((LinearizedRapidScorer.build block forest sorted2).scoreFeature junk document)
        (ResultMask.init block forest) := by
  have hlen : (LinearizedRapidScorer.build block forest sorted1).offsets.length =
      (LinearizedRapidScorer.build block forest sorted2).offsets.length :=
    Nat.le_antisymm (build_offsets_length_le block forest nodes sorted1 sorted2 h1 h2)
      (build_offsets_length_le block forest nodes sorted2 sorted1 h2 h1)
  rw [foldl_scoreFeature_pad _ junk document
      (LinearizedRapidScorer.build block forest sorted1).offsets.length _ _
      (fun f hf => List.mem_range.mp hf),
    foldl_scoreFeature_pad _ junk document
      (LinearizedRapidScorer.build block forest sorted1).offsets.length _ _
      (fun f hf => by have := List.mem_range.mp hf; omega)]
  exact accumulators_eq block forest nodes sorted1 sorted2
    (document.pad junk (LinearizedRapidScorer.build block forest sorted1).offsets.length)
    hnodes h1 h2 hnan

/-- C10, counterexample: in `forestTies` the root and its grandchild have the same split
(feature 0, threshold 1.0) and a NaN threshold sits between them; the node order of `addNodes`
and its reverse are both results of `std::sort`, differing in the relative order of the two equal
nodes, and on the document `[5.0]` the first scores 2.0 and the second 1.0. -/
theorem score_depends_on_tie_order :
    IsStdSortResult (forestNodes forestTies.trees 0) (forestNodes forestTies.trees 0) ∧
    IsStdSortResult (forestNodes forestTies.trees 0) (forestNodes forestTies.trees 0).reverse ∧
    (LinearizedRapidScorer.build .uint8 forestTies
      (forestNodes forestTies.trees 0)).score (fun _ => .nan) ⟨[.num 5]⟩ = some [.num 2] ∧
    (LinearizedRapidScorer.build .uint8 forestTies
      (forestNodes forestTies.trees 0).reverse).score (fun _ => .nan) ⟨[.num 5]⟩ =
        some [.num 1] :=
  ⟨⟨by decide, by decide⟩, ⟨by decide, by decide⟩, by decide, by decide⟩

/-- C10, amended: the per-tree accumulators after the feature loop, and the returned score, are
the same for every order in which the iterations of the feature loop are executed (for every
scorer and document), and, on a forest with non-NaN thresholds, for every result of `std::sort`,
in particular for every relative order of nodes with equal (featureIndex, threshold). -/
theorem score_order_independent :
    (∀ (s : LinearizedRapidScorer) (junk : Nat → Double) (order : List Nat)
        (document : SingleDocument),
      order.Perm (List.range s.offsets.length) →
      order.foldl (s.scoreFeature junk document) (ResultMask.init s.block s.forest) =
        (List.range s.offsets.length).foldl (s.scoreFeature junk document)
          (ResultMask.init s.block s.forest) ∧
      s.scoreInOrder junk order document = s.score junk document) ∧
    (∀ (block : Block) (forest : Forest) (nodes sorted1 sorted2 : List InternalNode)
        (junk : Nat → Double) (document : SingleDocument),
      collectNodes forest.trees 0 [] = some nodes →
      IsStdSortResult nodes sorted1 → IsStdSortResult nodes sorted2 →
      (∀ n ∈ nodes, n.splittingThreshold.isNaN = false) →
      (List.range (LinearizedRapidScorer.build block forest sorted1).offsets.length).foldl
          ((LinearizedRapidScorer.build block forest sorted1).scoreFeature junk document)
          (ResultMask.init block forest) =
        (List.range (LinearizedRapidScorer.build block forest sorted2).offsets.length).foldl
          ((LinearizedRapidScorer.build block forest sorted2).scoreFeature junk document)
          (ResultMask.init block forest) ∧
      (LinearizedRapidScorer.build block forest sorted1).score junk document =
        (LinearizedRapidScorer.build block forest sorted2).score junk document) := by
  constructor
  · intro s junk order document horder
    have h := foldl_scoreFeature_perm s junk document s.offsets.length order
      (List.range s.offsets.length) (ResultMask.init s.block s.forest) horder
      (fun f hf => List.mem_range.mp hf)
    refine ⟨h, ?_⟩
    unfold LinearizedRapidScorer.score LinearizedRapidScorer.scoreInOrder
    rw [h]
  · intro block forest nodes sorted1 sorted2 junk document hnodes h1 h2 hnan
    have h := foldl_build_eq block forest nodes sorted1 sorted2 junk document hnodes h1 h2 hnan
    refine ⟨h, ?_⟩
    unfold LinearizedRapidScorer.score LinearizedRapidScorer.scoreInOrder
    rw [(build_fields block forest sorted1).1, (build_fields block forest sorted1).2.1,
      (build_fields block forest sorted2).1, (build_fields block forest sorted2).2.1, h]

/-- C10, witness: on `forestDeep`, running the feature loop in the order 1, 0 gives the score of
the order 0, 1; on the forest of S2, whose two nodes have the same split, both orders of the two
nodes give the same score. -/
theorem score_order_independent_witness :
    (LinearizedRapidScorer.build .uint8 forestDeep
      (stdSort (forestNodes forestDeep.trees 0))).scoreInOrder (fun _ => .nan) [1, 0]
        ⟨[.num (1/2), .num (3/2)]⟩ =
      (LinearizedRapidScorer.build .uint8 forestDeep
        (stdSort (forestNodes forestDeep.trees 0))).score (fun _ => .nan)
          ⟨[.num (1/2), .num (3/2)]⟩ ∧
    (LinearizedRapidScorer.build .uint8 forestS2
      (forestNodes forestS2.trees 0)).score (fun _ => .nan) ⟨[.num (3/5)]⟩ =
      (LinearizedRapidScorer.build .uint8 forestS2
        (forestNodes forestS2.trees 0).reverse).score (fun _ => .nan) ⟨[.num (3/5)]⟩ :=
  ⟨(score_order_independent.1 _ (fun _ => .nan) [1, 0] ⟨[.num (1/2), .num (3/2)]⟩
      (by decide)).2,
   (score_order_independent.2 .uint8 forestS2 (forestNodes forestS2.trees 0)
      (forestNodes forestS2.trees 0) (forestNodes forestS2.trees 0).reverse (fun _ => .nan)
      ⟨[.num (3/5)]⟩ (by decide) ⟨by decide, by decide⟩ ⟨by decide, by decide⟩ (by decide)).2⟩

/-! ## The zero run of an epitome -/

/-- C11, counterexample: for the root of the tree of S1 the epitome has bit 1, the bit of the
leaf of the right subtree, set and bit 0, the bit of the leaf of the left subtree, cleared. -/
theorem epitome_zeros_not_right_subtree :
    (epitomeOf forestS1 ⟨0, .num (1/2), .leaf (.num 1), .leaf (.num 2), 0, []⟩).bit 1 = true ∧
    treeS1.root.leafPaths[1]? = some [true] ∧
    (epitomeOf forestS1 ⟨0, .num (1/2), .leaf (.num 1), .leaf (.num 2), 0, []⟩).bit 0 = false ∧
    treeS1.root.leafPaths[0]? = some [false] ∧
    (⟨0, .num (1/2), .leaf (.num 1), .leaf (.num 2), 0, []⟩ : InternalNode) ∈
      nodesOf 0 [] treeS1.root := by
  decide

/-- C11, amended: for every internal node `n` of a tree `t` of the forest, the epitome the
constructor builds for `n` is a contiguous, non-empty run of zeros (bits `leavesBefore` up to
`leavesBefore + zeroRunLength - 1`) with ones everywhere else, the run ends before the last leaf
of `t`, and among the leaf bits of `t` the zero bits are exactly the leaves of the left subtree
of `n`. -/
theorem epitome_zero_run (forest : Forest) (ti : Nat) (t : Tree) (n : InternalNode)
    (ht : forest.trees[ti]? = some t) (hn : n ∈ nodesOf ti [] t.root) :
    (∀ i, (epitomeOf forest n).bit i = false ↔
      ((epitomeOf forest n).leavesBefore ≤ i ∧
        i < (epitomeOf forest n).leavesBefore + (epitomeOf forest n).zeroRunLength)) ∧
    0 < (epitomeOf forest n).zeroRunLength ∧
    (epitomeOf forest n).leavesBefore + (epitomeOf forest n).zeroRunLength < t.leafCount ∧
    (∀ i path, t.root.leafPaths[i]? = some path →
      ((epitomeOf forest n).bit i = false ↔ (n.position ++ [false]) <+: path)) := by
  have hti := nodesOf_treeIndex _ _ _ _ hn
  have hsub := nodesOf_subtreeAt ti t.root [] t.root n hn (Node.subtreeAt_nil _)
  obtain ⟨h1, _, h3, _⟩ := Node.subtreeAt_snoc t.root n.position _ _ _ _ hsub
  have hrun := nodesOf_run_lt ti t.root n hn
  have hpos := Node.numberOfLeaves_pos n.leftNode
  rw [epitomeOf_eq forest ti t n ht hti]
  refine ⟨?_, hpos, hrun, ?_⟩
  · intro i
    simp only [Epitome.bit, decide_eq_false_iff_not]
    omega
  · intro i path hp
    rw [Node.leafPaths_prefix_iff t.root (n.position ++ [false]) n.leftNode i path h1 hp, h3]
    simp only [Epitome.bit, decide_eq_false_iff_not]
    omega

/-- C11, witness: the amended statement for the root of the tree of S1. -/
theorem epitome_zero_run_witness :
    0 < (epitomeOf forestS1
      ⟨0, .num (1/2), .leaf (.num 1), .leaf (.num 2), 0, []⟩).zeroRunLength ∧
    (epitomeOf forestS1 ⟨0, .num (1/2), .leaf (.num 1), .leaf (.num 2), 0, []⟩).leavesBefore +
      (epitomeOf forestS1 ⟨0, .num (1/2), .leaf (.num 1), .leaf (.num 2), 0, []⟩).zeroRunLength <
      treeS1.leafCount :=
  ⟨(epitome_zero_run forestS1 0 treeS1 ⟨0, .num (1/2), .leaf (.num 1), .leaf (.num 2), 0, []⟩
      (by decide) (by decide)).2.1,
   (epitome_zero_run forestS1 0 treeS1 ⟨0, .num (1/2), .leaf (.num 1), .leaf (.num 2), 0, []⟩
      (by decide) (by decide)).2.2.1⟩

/-! ## The order on `EqNode` -/

theorem EqNode.lt_irrefl (a : EqNode) : a.lt a = false := by
  cases h : a.featureThreshold <;> simp [EqNode.lt, Double.lt, h]

theorem EqNode.lt_asymmetric (a b : EqNode) (h : a.lt b = true) : b.lt a = false := by
  unfold EqNode.lt at h ⊢
  by_cases h1 : a.featureIndex < b.featureIndex
  · have h2 : ¬ b.featureIndex < a.featureIndex := by omega
    simp [h2, h1]
  · by_cases h2 : a.featureIndex > b.featureIndex
    · simp [h1, h2] at h
    · have h3 : ¬ b.featureIndex < a.featureIndex := by omega
      have h4 : ¬ b.featureIndex > a.featureIndex := by omega
      simp only [h1, h2, if_false] at h
      simp only [h3, h4, if_false]
      exact Double.lt_asymm _ _ h

theorem EqNode.lt_transitive (a b c : EqNode) (h1 : a.lt b = true) (h2 : b.lt c = true) :
    a.lt c = true := by
  unfold EqNode.lt at h1 h2 ⊢
  by_cases hab : a.featureIndex < b.featureIndex
  · by_cases hbc : b.featureIndex < c.featureIndex
    · have : a.featureIndex < c.featureIndex := by omega
      simp [this]
    · by_cases hbc2 : b.featureIndex > c.featureIndex
      · simp [hbc, hbc2] at h2
      · have : a.featureIndex < c.featureIndex := by omega
        simp [this]
  · by_cases hab2 : a.featureIndex > b.featureIndex
    · simp [hab, hab2] at h1
    · simp only [hab, hab2, if_false] at h1
      by_cases hbc : b.featureIndex < c.featureIndex
      · have : a.featureIndex < c.featureIndex := by omega
        simp [this]
      · by_cases hbc2 : b.featureIndex > c.featureIndex
        · simp [hbc, hbc2] at h2
        · simp only [hbc, hbc2, if_false] at h2
          have h3 : ¬ a.featureIndex < c.featureIndex := by omega
          have h4 : ¬ a.featureIndex > c.featureIndex := by omega
          simp only [h3, h4, if_false]
          exact Double.lt_trans _ _ _ h1 h2

theorem Double.incomparable_iff_eq (x y : Double) (hx : x.isNaN = false)
    (hy : y.isNaN = false) : (x.lt y = false ∧ y.lt x = false) ↔ x.eq y = true := by
  cases x with
  | nan => simp [Double.isNaN] at hx
  | num p =>
    cases y with
    | nan => simp [Double.isNaN] at hy
    | num q =>
      simp only [Double.lt, Double.eq, decide_eq_false_iff_not, decide_eq_true_eq, not_lt]
      constructor
      · rintro ⟨h1, h2⟩; exact le_antisymm h2 h1
      · intro h; exact ⟨h.ge, h.le⟩

theorem EqNode.incomparable_iff (a b : EqNode) (ha : a.featureThreshold.isNaN = false)
    (hb : b.featureThreshold.isNaN = false) :
    (a.lt b = false ∧ b.lt a = false) ↔
      (a.featureIndex = b.featureIndex ∧ a.featureThreshold.eq b.featureThreshold = true) := by
  unfold EqNode.lt
  by_cases h1 : a.featureIndex < b.featureIndex
  · have h2 : a.featureIndex ≠ b.featureIndex := by omega
    simp [h1, h2]
  · by_cases h2 : b.featureIndex < a.featureIndex
    · have h3 : a.featureIndex ≠ b.featureIndex := by omega
      simp [h2, h3]
    · have h3 : a.featureIndex = b.featureIndex := by omega
      have h4 : ¬ b.featureIndex < b.featureIndex := Nat.lt_irrefl _
      have h5 : ¬ b.featureIndex > b.featureIndex := Nat.lt_irrefl _
      simp only [h3, h4, h5, if_false, true_and]
      exact Double.incomparable_iff_eq _ _ ha hb

/-- C12: for `EqNode`s `a` and `b` with non-NaN thresholds, neither `a < b` nor `b < a` holds if
and only if they have the same feature index and equal thresholds, whatever their tree indices
and epitomes. -/
theorem eqNode_incomparable_iff_same_split (a b : EqNode)
    (ha : a.featureThreshold.isNaN = false) (hb : b.featureThreshold.isNaN = false) :
    (a.lt b = false ∧ b.lt a = false) ↔
      (a.featureIndex = b.featureIndex ∧ a.featureThreshold.eq b.featureThreshold = true) :=
  EqNode.incomparable_iff a b ha hb

/-- C12, witness: two `EqNode`s with the same split but different tree indices and epitomes are
incomparable. -/
theorem eqNode_incomparable_iff_same_split_witness :
    eqNodeA.lt eqNodeB = false ∧ eqNodeB.lt eqNodeA = false :=
  (eqNode_incomparable_iff_same_split eqNodeA eqNodeB (by decide) (by decide)).mpr
    ⟨by decide, by decide⟩

/-- C15: `EqNode::operator<` on the `EqNode`s built from two internal nodes (with any epitomes)
returns what `nodeComparator` returns on the two nodes. -/
theorem eqNode_lt_eq_nodeComparator (n1 n2 : InternalNode) (e1 e2 : Epitome) :
    (EqNode.ofNode n1 e1).lt (EqNode.ofNode n2 e2) = nodeComparator n1 n2 := by
  simp only [EqNode.lt, EqNode.ofNode, nodeComparator]

/-- C16: on `EqNode`s with non-NaN thresholds `operator<` is a strict weak ordering: it is
irreflexive, asymmetric and transitive, and incomparability is transitive. -/
theorem eqNode_strict_weak_order (a b c : EqNode)
    (ha : a.featureThreshold.isNaN = false) (hb : b.featureThreshold.isNaN = false)
    (hc : c.featureThreshold.isNaN = false) :
    a.lt a = false ∧
    (a.lt b = true → b.lt a = false) ∧
    (a.lt b = true → b.lt c = true → a.lt c = true) ∧
    ((a.lt b = false ∧ b.lt a = false) → (b.lt c = false ∧ c.lt b = false) →
      (a.lt c = false ∧ c.lt a = false)) := by
  refine ⟨EqNode.lt_irrefl a, EqNode.lt_asymmetric a b, EqNode.lt_transitive a b c, ?_⟩
  intro hab hbc
  rw [EqNode.incomparable_iff a b ha hb] at hab
  rw [EqNode.incomparable_iff b c hb hc] at hbc
  rw [EqNode.incomparable_iff a c ha hc]
  refine ⟨hab.1.trans hbc.1, ?_⟩
  have h1 := hab.2
  have h2 := hbc.2
  cases hx : a.featureThreshold with
  | nan => rw [hx] at ha; simp [Double.isNaN] at ha
  | num x =>
    cases hy : b.featureThreshold with
    | nan => rw [hy] at hb; simp [Double.isNaN] at hb
    | num y =>
      cases hz : c.featureThreshold with
      | nan => rw [hz] at hc; simp [Double.isNaN] at hc
      | num z =>
        rw [hx, hy] at h1
        rw [hy, hz] at h2
        simp only [Double.eq, decide_eq_true_eq] at h1 h2 ⊢
        exact h1.trans h2

/-- C16, witness: the four properties on three concrete `EqNode`s. -/
theorem eqNode_strict_weak_order_witness :
    eqNodeA.lt eqNodeA = false ∧
    (eqNodeA.lt eqNodeC = true → eqNodeC.lt eqNodeA = false) ∧
    (eqNodeA.lt eqNodeC = true → eqNodeC.lt eqNodeB = true → eqNodeA.lt eqNodeB = true) ∧
    ((eqNodeA.lt eqNodeC = false ∧ eqNodeC.lt eqNodeA = false) →
      (eqNodeC.lt eqNodeB = false ∧ eqNodeB.lt eqNodeC = false) →
      (eqNodeA.lt eqNodeB = false ∧ eqNodeB.lt eqNodeA = false)) :=
  eqNode_strict_weak_order eqNodeA eqNodeC eqNodeB (by decide) (by decide) (by decide)

/-- C20: the four comparison operators of `EqNode` are consistent: `a > b` is `b < a`, `a <= b`
is the negation of `b < a`, `a >= b` is the negation of `a < b`, at least one of `a <= b` and
`b <= a` holds, and exactly one of `a < b` and `a >= b` holds. -/
theorem eqNode_operators_consistent (a b : EqNode) :
    a.gt b = b.lt a ∧
    a.le b = !(b.lt a) ∧
    a.ge b = !(a.lt b) ∧
    (a.le b = true ∨ b.le a = true) ∧
    ((a.lt b = true ∧ a.ge b = false) ∨ (a.lt b = false ∧ a.ge b = true)) := by
  refine ⟨rfl, rfl, rfl, ?_, ?_⟩
  · simp only [EqNode.le, Bool.not_eq_true']
    by_cases h : a.lt b = true
    · exact Or.inl (EqNode.lt_asymmetric a b h)
    · exact Or.inr (by simpa using h)
  · simp only [EqNode.ge]
    cases a.lt b <;> simp

/-! ## The accumulators never run empty -/

/-- C14: for every forest whose trees are rooted at internal nodes, every result of `std::sort`
and every document (whatever the reads past the end of a too short feature vector find), in the
result mask the feature loop of `score` leaves, the accumulator of each tree still has the bit
of its right-most leaf set, so its lowest set bit exists and is the index of a leaf of the tree
(below `leafCount`, never a position added by rounding the width up to the block width). -/
theorem accumulator_keeps_rightmost (block : Block) (forest : Forest)
    (nodes sorted : List InternalNode) (junk : Nat → Double) (document : SingleDocument)
    (ti : Nat) (t : Tree)
    (hnodes : collectNodes forest.trees 0 [] = some nodes)
    (hsort : IsStdSortResult nodes sorted)
    (ht : forest.trees[ti]? = some t) :
    (((List.range (LinearizedRapidScorer.build block forest sorted).offsets.length).foldl
      ((LinearizedRapidScorer.build block forest sorted).scoreFeature junk document)
      (ResultMask.init block forest)).getD ti []).getD (t.leafCount - 1) false = true ∧
    ∃ k, k < t.leafCount ∧
      lowestSetBit
        (((List.range (LinearizedRapidScorer.build block forest sorted).offsets.length).foldl
          ((LinearizedRapidScorer.build block forest sorted).scoreFeature junk document)
          (ResultMask.init block forest)).getD ti []) = some k := by
  have hs := hsort.featureSorted
  have hperm := collectNodes_perm forest nodes sorted hnodes hsort
  rw [foldl_scoreFeature_pad _ junk document
    (LinearizedRapidScorer.build block forest sorted).offsets.length _ _
    (fun f hf => List.mem_range.mp hf)]
  have hbit := acc_rightmost block forest sorted
    ((LinearizedRapidScorer.build block forest sorted).appliedInOrder
      (List.range (LinearizedRapidScorer.build block forest sorted).offsets.length)
      (document.pad junk (LinearizedRapidScorer.build block forest sorted).offsets.length))
    ti t hperm
    (fun j hj => mem_appliedInOrder_lt block forest sorted hs _ _
      (fun f hf => List.mem_range.mp hf) j hj) ht
  refine ⟨hbit, ?_⟩
  obtain ⟨k, hk, hlow⟩ := lowestSetBit_exists _ _ hbit
  have hpos := Node.numberOfLeaves_pos t.root
  exact ⟨k, by unfold Tree.leafCount at hk ⊢; omega, hlow⟩

/-- C14, witness: the scorer of `forestDeep` (4 leaves, accumulator of 8 bits) on the document
`[0.5, 1.5]`. -/
theorem accumulator_keeps_rightmost_witness :
    ∃ k, k < (⟨.internal 1 (.num 2)
        (.internal 0 (.num 1) (.leaf (.num 10)) (.leaf (.num 20)))
        (.internal 1 (.num 1) (.leaf (.num 30)) (.leaf (.num 40)))⟩ : Tree).leafCount ∧
      lowestSetBit (((List.range (LinearizedRapidScorer.build .uint8 forestDeep
          (stdSort (forestNodes forestDeep.trees 0))).offsets.length).foldl
        ((LinearizedRapidScorer.build .uint8 forestDeep
          (stdSort (forestNodes forestDeep.trees 0))).scoreFeature (fun _ => .nan)
            ⟨[.num (1/2), .num (3/2)]⟩)
        (ResultMask.init .uint8 forestDeep)).getD 0 []) = some k :=
  (accumulator_keeps_rightmost .uint8 forestDeep (forestNodes forestDeep.trees 0)
    (stdSort (forestNodes forestDeep.trees 0)) (fun _ => .nan) ⟨[.num (1/2), .num (3/2)]⟩ 0 _
    (by decide) ⟨by decide, by decide⟩ (by decide)).2

/-! ## The score depends only on the features the forest uses -/

theorem lowerBound_empty (v : List Double) (start : Nat) (value : Double) :
    lowerBound v start start value = start := by
  simp [lowerBound, lowerBoundLoop]

theorem appliedAt_congr (block : Block) (forest : Forest) (sorted : List InternalNode)
    (hs : FeatureSorted sorted) (document1 document2 : SingleDocument) (f : Nat)
    (hf : f < (LinearizedRapidScorer.build block forest sorted).offsets.length)
    (hagree : ∀ n ∈ sorted,
      document1.features.getD n.splittingFeatureIndex .nan =
        document2.features.getD n.splittingFeatureIndex .nan) :
    (LinearizedRapidScorer.build block forest sorted).appliedAt document1 f =
      (LinearizedRapidScorer.build block forest sorted).appliedAt document2 f := by
  obtain ⟨hle, hstop⟩ := build_slice_le block forest sorted hs f hf
  by_cases hlt : (LinearizedRapidScorer.build block forest sorted).offsets.getD f 0 <
      (LinearizedRapidScorer.build block forest sorted).stopOf f
  · have hl : (LinearizedRapidScorer.build block forest sorted).offsets.getD f 0 <
        sorted.length := by omega
    have hfn := (build_slice block forest sorted hs f hf _ _
      (List.getElem?_eq_getElem hl)).mp ⟨Nat.le_refl _, hlt⟩
    have := hagree _ (List.getElem_mem hl)
    rw [hfn] at this
    simp only [LinearizedRapidScorer.appliedAt, this]
  · have heq : (LinearizedRapidScorer.build block forest sorted).stopOf f =
        (LinearizedRapidScorer.build block forest sorted).offsets.getD f 0 := by omega
    have h1 : ∀ d : SingleDocument,
        (LinearizedRapidScorer.build block forest sorted).appliedAt d f = [] := by
      intro d
      have : (LinearizedRapidScorer.build block forest sorted).appliedAt d f =
          List.range' ((LinearizedRapidScorer.build block forest sorted).offsets.getD f 0)
            (lowerBound (LinearizedRapidScorer.build block forest sorted).featureThresholds
              ((LinearizedRapidScorer.build block forest sorted).offsets.getD f 0)
              ((LinearizedRapidScorer.build block forest sorted).stopOf f)
              (d.features.getD f .nan) -
              (LinearizedRapidScorer.build block forest sorted).offsets.getD f 0) := rfl
      rw [this, heq, lowerBound_empty]
      simp
    rw [h1 document1, h1 document2]

/-- C19: for every forest, every result of `std::sort` and any two documents with at least
`offsets.size()` features that have the same value at every feature index some internal node
splits on, `score` returns the same result; the values at other indices, and what lies behind
the feature vectors, play no role. -/
theorem score_depends_on_used_features (block : Block) (forest : Forest)
    (nodes sorted : List InternalNode) (junk1 junk2 : Nat → Double)
    (document1 document2 : SingleDocument)
    (hsort : IsStdSortResult nodes sorted)
    (hlen1 : (LinearizedRapidScorer.build block forest sorted).offsets.length ≤
      document1.features.length)
    (hlen2 : (LinearizedRapidScorer.build block forest sorted).offsets.length ≤
      document2.features.length)
    (hagree : ∀ n ∈ nodes,
      document1.features.getD n.splittingFeatureIndex .nan =
        document2.features.getD n.splittingFeatureIndex .nan) :
    (LinearizedRapidScorer.build block forest sorted).score junk1 document1 =
      (LinearizedRapidScorer.build block forest sorted).score junk2 document2 := by
  have hs := hsort.featureSorted
  unfold LinearizedRapidScorer.score
  rw [scoreInOrder_eq _ junk1 _ _ (fun f hf => by have := List.mem_range.mp hf; omega),
    scoreInOrder_eq _ junk2 _ _ (fun f hf => by have := List.mem_range.mp hf; omega)]
  have happ : (LinearizedRapidScorer.build block forest sorted).appliedInOrder
      (List.range (LinearizedRapidScorer.build block forest sorted).offsets.length) document1 =
      (LinearizedRapidScorer.build block forest sorted).appliedInOrder
      (List.range (LinearizedRapidScorer.build block forest sorted).offsets.length)
      document2 := by
    unfold LinearizedRapidScorer.appliedInOrder
    apply List.flatMap_congr
    intro f hf
    exact appliedAt_congr block forest sorted hs document1 document2 f (List.mem_range.mp hf)
      (fun n hn => hagree n (hsort.1.subset hn))
  rw [happ]

/-- C19, witness: `forestSparse` only splits on feature 2; two documents that differ at
features 0, 1 and 3 but agree at feature 2 get the same score. -/
theorem score_depends_on_used_features_witness :
    (LinearizedRapidScorer.build .uint8 forestSparse
      (stdSort (forestNodes forestSparse.trees 0))).score (fun _ => .nan)
        ⟨[.num 1, .num 2, .num (3/2), .num 4]⟩ =
      (LinearizedRapidScorer.build .uint8 forestSparse
        (stdSort (forestNodes forestSparse.trees 0))).score (fun _ => .num 0)
          ⟨[.nan, .num 7, .num (3/2)]⟩ :=
  score_depends_on_used_features .uint8 forestSparse (forestNodes forestSparse.trees 0)
    (stdSort (forestNodes forestSparse.trees 0)) (fun _ => .nan) (fun _ => .num 0)
    ⟨[.num 1, .num 2, .num (3/2), .num 4]⟩
    ⟨[.nan, .num 7, .num (3/2)]⟩ ⟨by decide, by decide⟩ (by decide) (by decide) (by decide)

/-! ## The flattened entries are the internal nodes -/

theorem nodesOf_length (treeIndex : Nat) (position : List Bool) (node : Node) :
    (nodesOf treeIndex position node).length = node.internalCount := by
  induction node generalizing position with
  | leaf v => rfl
  | internal f t l r ihl ihr =>
    simp only [nodesOf, List.length_cons, List.length_append, ihl, ihr, Node.internalCount]
    omega

theorem forestNodes_length (trees : List Tree) (k : Nat) :
    (forestNodes trees k).length = (trees.map (fun t => t.root.internalCount)).sum := by
  induction trees generalizing k with
  | nil => rfl
  | cons t ts ih =>
    simp only [forestNodes, List.length_append, nodesOf_length, ih, List.map_cons,
      List.sum_cons]

theorem nodesOf_extends_position (treeIndex : Nat) (position : List Bool) (node : Node)
    (n : InternalNode) (h : n ∈ nodesOf treeIndex position node) : position <+: n.position := by
  induction node generalizing position with
  | leaf v => simp [nodesOf] at h
  | internal f t l r ihl ihr =>
    simp only [nodesOf, List.mem_cons, List.mem_append] at h
    rcases h with rfl | h | h
    · exact List.prefix_refl _
    · exact (List.prefix_append position [false]).trans (ihl _ h)
    · exact (List.prefix_append position [true]).trans (ihr _ h)

theorem nodesOf_nodup (treeIndex : Nat) (position : List Bool) (node : Node) :
    (nodesOf treeIndex position node).Nodup := by
  induction node generalizing position with
  | leaf v => simp [nodesOf]
  | internal f t l r ihl ihr =>
    simp only [nodesOf]
    rw [List.nodup_cons, List.nodup_append]
    refine ⟨?_, ihl _, ihr _, ?_⟩
    · intro hmem
      rcases List.mem_append.mp hmem with h | h
      · have := (nodesOf_extends_position _ _ _ _ h).length_le
        simp at this
      · have := (nodesOf_extends_position _ _ _ _ h).length_le
        simp at this
    · intro n hl hr
      have h1 := nodesOf_extends_position _ _ _ _ hl
      have h2 := nodesOf_extends_position _ _ _ _ hr
      have h3 := List.prefix_of_prefix_length_le h1 h2 (by simp)
      have h4 := h3.eq_of_length (by simp)
      simp at h4

theorem forestNodes_nodup (trees : List Tree) (k : Nat) : (forestNodes trees k).Nodup := by
  induction trees generalizing k with
  | nil => simp [forestNodes]
  | cons t ts ih =>
    simp only [forestNodes]
    rw [List.nodup_append]
    refine ⟨nodesOf_nodup _ _ _, ih _, ?_⟩
    intro n h1 h2
    have hk := nodesOf_treeIndex _ _ _ _ h1
    obtain ⟨idx, u, _, hu⟩ := (mem_forestNodes ts (k + 1) n).mp h2
    have hk2 := nodesOf_treeIndex _ _ _ _ hu
    omega

/-- C17: after construction, `featureThresholds`, `treeIndexes` and `epitomes` have the same
length, the number of internal nodes of the forest; the nodes `addNodes` collects are pairwise
distinct, and the flattened entries (threshold, tree index, epitome) are a rearrangement of the
entries of these nodes: entry `i` is the threshold, tree index and epitome of the node `std::sort`
puts at place `i`. -/
theorem entries_are_nodes (block : Block) (forest : Forest) (nodes sorted : List InternalNode)
    (hnodes : collectNodes forest.trees 0 [] = some nodes)
    (hsort : IsStdSortResult nodes sorted) :
    (LinearizedRapidScorer.build block forest sorted).featureThresholds.length =
      (forest.trees.map (fun t => t.root.internalCount)).sum ∧
    (LinearizedRapidScorer.build block forest sorted).treeIndexes.length =
      (forest.trees.map (fun t => t.root.internalCount)).sum ∧
    (LinearizedRapidScorer.build block forest sorted).epitomes.length =
      (forest.trees.map (fun t => t.root.internalCount)).sum ∧
    nodes = forestNodes forest.trees 0 ∧
    nodes.Nodup ∧
    (List.zip (LinearizedRapidScorer.build block forest sorted).featureThresholds
      (List.zip (LinearizedRapidScorer.build block forest sorted).treeIndexes
        (LinearizedRapidScorer.build block forest sorted).epitomes)).Perm
      (nodes.map (fun n => (n.splittingThreshold, n.treeIndex, epitomeOf forest n))) ∧
    (∀ (i : Nat) (n : InternalNode), sorted[i]? = some n →
      (LinearizedRapidScorer.build block forest sorted).featureThresholds[i]? =
        some n.splittingThreshold ∧
      (LinearizedRapidScorer.build block forest sorted).treeIndexes[i]? = some n.treeIndex ∧
      (LinearizedRapidScorer.build block forest sorted).epitomes[i]? =
        some (epitomeOf forest n)) := by
  obtain ⟨_, _, h3, h4, h5, _⟩ := build_fields block forest sorted
  have hnodes2 := collectNodes_some_eq forest nodes hnodes
  have hlen : sorted.length = (forest.trees.map (fun t => t.root.internalCount)).sum := by
    rw [hsort.1.length_eq, hnodes2, forestNodes_length]
  refine ⟨?_, ?_, ?_, hnodes2, ?_, ?_, ?_⟩
  · rw [h3, List.length_map, hlen]
  · rw [h4, List.length_map, hlen]
  · rw [h5, List.length_map, hlen]
  · rw [hnodes2]; exact forestNodes_nodup _ _
  · rw [h3, h4, h5, List.zip_map', List.zip_map']
    exact hsort.1.map _
  · intro i n hi
    rw [h3, h4, h5]
    simp [List.getElem?_map, hi]

/-- C17, witness: the scorer of `forestDeep` has three entries. -/
theorem entries_are_nodes_witness :
    (LinearizedRapidScorer.build .uint8 forestDeep
      (stdSort (forestNodes forestDeep.trees 0))).featureThresholds.length =
      (forestDeep.trees.map (fun t => t.root.internalCount)).sum :=
  (entries_are_nodes .uint8 forestDeep (forestNodes forestDeep.trees 0)
    (stdSort (forestNodes forestDeep.trees 0)) (by decide) ⟨by decide, by decide⟩).1

/-! ## Index bounds in `score` -/

theorem forestNodes_treeIndex_lt (trees : List Tree) (n : InternalNode)
    (h : n ∈ forestNodes trees 0) : n.treeIndex < trees.length := by
  obtain ⟨idx, t, ht, hn⟩ := (mem_forestNodes trees 0 n).mp h
  have hidx := nodesOf_treeIndex _ _ _ _ hn
  have hlt : idx < trees.length := by
    by_contra hcon
    rw [List.getElem?_eq_none (Nat.le_of_not_lt hcon)] at ht
    cases ht
  omega

/-- C18: for every forest, every result of `std::sort` and every document with at least
`offsets.size()` features, the indices `score` uses are in bounds: each `featureIndex` of the
loop is inside the feature vector; `offsets` is non-decreasing; for every feature
`start <= end <= featureThresholds.size()` and the `lower_bound` result lies between `start` and
`end`; every applied `j` is inside `epitomes` and `treeIndexes`, and `treeIndexes[j]` is the index
of a tree of the forest. -/
theorem indices_in_bounds (block : Block) (forest : Forest) (nodes sorted : List InternalNode)
    (document : SingleDocument)
    (hnodes : collectNodes forest.trees 0 [] = some nodes)
    (hsort : IsStdSortResult nodes sorted)
    (hlen : (LinearizedRapidScorer.build block forest sorted).offsets.length ≤
      document.features.length) :
    (∀ f, f < (LinearizedRapidScorer.build block forest sorted).offsets.length →
      f < document.features.length) ∧
    (∀ f g, f ≤ g → g < (LinearizedRapidScorer.build block forest sorted).offsets.length →
      (LinearizedRapidScorer.build block forest sorted).offsets.getD f 0 ≤
        (LinearizedRapidScorer.build block forest sorted).offsets.getD g 0) ∧
    (∀ f, f < (LinearizedRapidScorer.build block forest sorted).offsets.length →
      (LinearizedRapidScorer.build block forest sorted).offsets.getD f 0 ≤
        (LinearizedRapidScorer.build block forest sorted).stopOf f ∧
      (LinearizedRapidScorer.build block forest sorted).stopOf f ≤
        (LinearizedRapidScorer.build block forest sorted).featureThresholds.length ∧
      (LinearizedRapidScorer.build block forest sorted).offsets.getD f 0 ≤
        lowerBound (LinearizedRapidScorer.build block forest sorted).featureThresholds
          ((LinearizedRapidScorer.build block forest sorted).offsets.getD f 0)
          ((LinearizedRapidScorer.build block forest sorted).stopOf f)
          (document.features.getD f .nan) ∧
      lowerBound (LinearizedRapidScorer.build block forest sorted).featureThresholds
          ((LinearizedRapidScorer.build block forest sorted).offsets.getD f 0)
          ((LinearizedRapidScorer.build block forest sorted).stopOf f)
          (document.features.getD f .nan) ≤
        (LinearizedRapidScorer.build block forest sorted).stopOf f) ∧
    (∀ j ∈ (LinearizedRapidScorer.build block forest sorted).applied document,
      j < (LinearizedRapidScorer.build block forest sorted).epitomes.length ∧
      j < (LinearizedRapidScorer.build block forest sorted).treeIndexes.length ∧
      (LinearizedRapidScorer.build block forest sorted).treeIndexes.getD j 0 <
        forest.trees.length) := by
  have hs := hsort.featureSorted
  have hperm := collectNodes_perm forest nodes sorted hnodes hsort
  obtain ⟨_, _, h3, h4, h5, _⟩ := build_fields block forest sorted
  refine ⟨fun f hf => by omega, ?_, ?_, ?_⟩
  · intro f g hfg hg
    rw [(build_offsets block forest sorted hs).2.1 f (by omega),
      (build_offsets block forest sorted hs).2.1 g hg]
    apply List.countP_mono_left
    intro n _ hn
    simp only [decide_eq_true_eq] at hn ⊢
    omega
  · intro f hf
    obtain ⟨hle, hstop⟩ := build_slice_le block forest sorted hs f hf
    have hb := lowerBound_bounds
      (LinearizedRapidScorer.build block forest sorted).featureThresholds _ _
      (document.features.getD f .nan) hle
    refine ⟨hle, ?_, hb.1, hb.2⟩
    rw [h3, List.length_map]
    exact hstop
  · intro j hj
    have hjl := mem_appliedInOrder_lt block forest sorted hs document _
      (fun f hf => List.mem_range.mp hf) j hj
    refine ⟨by rw [h5, List.length_map]; exact hjl, by rw [h4, List.length_map]; exact hjl, ?_⟩
    have hti : (LinearizedRapidScorer.build block forest sorted).treeIndexes.getD j 0 =
        sorted[j].treeIndex := by
      rw [h4, List.getD_eq_getElem?_getD, List.getElem?_map, List.getElem?_eq_getElem hjl]
      rfl
    rw [hti]
    exact forestNodes_treeIndex_lt _ _ (hperm.subset (List.getElem_mem hjl))

/-- C18, witness: in the scorer of `forestDeep` on the document `[1.5, 1.5]` the slice of feature
1 and its `lower_bound` result are inside `featureThresholds`. -/
theorem indices_in_bounds_witness :
    (LinearizedRapidScorer.build .uint8 forestDeep
      (stdSort (forestNodes forestDeep.trees 0))).offsets.getD 1 0 ≤
      (LinearizedRapidScorer.build .uint8 forestDeep
        (stdSort (forestNodes forestDeep.trees 0))).stopOf 1 ∧
    (LinearizedRapidScorer.build .uint8 forestDeep
      (stdSort (forestNodes forestDeep.trees 0))).stopOf 1 ≤
      (LinearizedRapidScorer.build .uint8 forestDeep
        (stdSort (forestNodes forestDeep.trees 0))).featureThresholds.length ∧
    (LinearizedRapidScorer.build .uint8 forestDeep
      (stdSort (forestNodes forestDeep.trees 0))).offsets.getD 1 0 ≤
      lowerBound (LinearizedRapidScorer.build .uint8 forestDeep
          (stdSort (forestNodes forestDeep.trees 0))).featureThresholds
        ((LinearizedRapidScorer.build .uint8 forestDeep
          (stdSort (forestNodes forestDeep.trees 0))).offsets.getD 1 0)
        ((LinearizedRapidScorer.build .uint8 forestDeep
          (stdSort (forestNodes forestDeep.trees 0))).stopOf 1)
        ((⟨[.num (3/2), .num (3/2)]⟩ : SingleDocument).features.getD 1 .nan) ∧
    lowerBound (LinearizedRapidScorer.build .uint8 forestDeep
          (stdSort (forestNodes forestDeep.trees 0))).featureThresholds
        ((LinearizedRapidScorer.build .uint8 forestDeep
          (stdSort (forestNodes forestDeep.trees 0))).offsets.getD 1 0)
        ((LinearizedRapidScorer.build .uint8 forestDeep
          (stdSort (forestNodes forestDeep.trees 0))).stopOf 1)
        ((⟨[.num (3/2), .num (3/2)]⟩ : SingleDocument).features.getD 1 .nan) ≤
      (LinearizedRapidScorer.build .uint8 forestDeep
        (stdSort (forestNodes forestDeep.trees 0))).stopOf 1 :=
  (indices_in_bounds .uint8 forestDeep (forestNodes forestDeep.trees 0)
    (stdSort (forestNodes forestDeep.trees 0)) ⟨[.num (3/2), .num (3/2)]⟩ (by decide)
    ⟨by decide, by decide⟩ (by decide)).2.2.1 1 (by decide)

/-! ## The document parser -/

theorem getline_eq_none (ss : List Char) (h : getline ss = none) : ss = [] := by
  cases ss with
  | nil => rfl
  | cons c cs =>
    simp only [getline] at h
    split at h
    · cases h
    · split at h <;> cases h

theorem getline_eq_some (ss token rest : List Char) (h : getline ss = some (token, rest)) :
    tokensOf ss = token :: tokensOf rest ∧ rest.length < ss.length := by
  induction ss generalizing token rest with
  | nil => simp [getline] at h
  | cons c cs ih =>
    simp only [getline] at h
    by_cases hc : c = ' '
    · simp only [hc, if_true, Option.some.injEq, Prod.mk.injEq] at h
      obtain ⟨h1, h2⟩ := h
      subst h1 h2
      simp [tokensOf, hc]
    · simp only [hc, if_false] at h
      cases hg : getline cs with
      | none =>
        rw [hg] at h
        simp only [Option.some.injEq, Prod.mk.injEq] at h
        obtain ⟨h1, h2⟩ := h
        subst h1 h2
        have := getline_eq_none cs hg
        subst this
        simp [tokensOf, hc]
      | some p =>
        obtain ⟨t, r⟩ := p
        rw [hg] at h
        simp only [Option.some.injEq, Prod.mk.injEq] at h
        obtain ⟨h1, h2⟩ := h
        subst h1 h2
        obtain ⟨ih1, ih2⟩ := ih t r hg
        simp only [tokensOf, hc, if_false, ih1, List.length_cons]
        exact ⟨trivial, by omega⟩

theorem parseDocumentLoop_eq (sscanf : List Char → Option (Int × Double)) (fuel : Nat)
    (ss : List Char) (ret : List Double) (h : ss.length < fuel) :
    parseDocumentLoop sscanf fuel ss ret = parseTokens sscanf (tokensOf ss) ret := by
  induction fuel generalizing ss ret with
  | zero => omega
  | succ fuel ih =>
    unfold parseDocumentLoop
    cases hg : getline ss with
    | none =>
      have := getline_eq_none ss hg
      subst this
      simp [tokensOf, parseTokens]
    | some p =>
      obtain ⟨token, rest⟩ := p
      obtain ⟨h1, h2⟩ := getline_eq_some ss token rest hg
      simp only [h1, parseTokens]
      cases sscanf token with
      | none => exact ih rest ret (by omega)
      | some q =>
        obtain ⟨featureId, value⟩ := q
        simp only
        split
        · exact ih rest _ (by omega)
        · rfl

theorem skipToken_tokensOf (ss : List Char) :
    tokensOf (skipToken ss) = (tokensOf ss).drop 1 := by
  unfold skipToken
  cases hg : getline ss with
  | none =>
    have := getline_eq_none ss hg
    subst this
    simp [tokensOf]
  | some p =>
    obtain ⟨token, rest⟩ := p
    simp [(getline_eq_some ss token rest hg).1]

theorem parseDocumentLine_eq (sscanf : List Char → Option (Int × Double)) (line : List Char) :
    parseDocumentLine sscanf line = parseTokens sscanf ((tokensOf line).drop 2) [] := by
  unfold parseDocumentLine
  rw [parseDocumentLoop_eq sscanf _ _ _ (Nat.lt_succ_self _), skipToken_tokensOf,
    skipToken_tokensOf, List.drop_drop]

theorem parseTokens_eq (sscanf : List Char → Option (Int × Double)) (tokens : List (List Char))
    (ret : List Double) :
    parseTokens sscanf tokens ret =
      if labelsOk ret.length (tokens.filterMap sscanf) = true then
        some (ret ++ (tokens.filterMap sscanf).map Prod.snd)
      else none := by
  induction tokens generalizing ret with
  | nil => simp [parseTokens, labelsOk]
  | cons token rest ih =>
    unfold parseTokens
    cases hs : sscanf token with
    | none => simp only [List.filterMap_cons, hs]; exact ih ret
    | some q =>
      obtain ⟨featureId, value⟩ := q
      simp only [List.filterMap_cons, hs, labelsOk, List.map_cons]
      by_cases hid : featureId = ((ret ++ [value]).length : Int)
      · have hid2 : featureId = ((ret.length + 1 : Nat) : Int) := by
          simpa using hid
        rw [if_pos hid, ih]
        simp [hid2]
      · have hid2 : ¬ featureId = (ret.length : Int) + 1 := by
          simpa using hid
        rw [if_neg hid]
        simp [hid2]

theorem labelsOk_iff (start : Nat) (parsed : List (Int × Double)) :
    labelsOk start parsed = true ↔
      ∀ (k : Nat) (featureId : Int) (value : Double),
        parsed[k]? = some (featureId, value) → featureId = ((start + k + 1 : Nat) : Int) := by
  induction parsed generalizing start with
  | nil => simp [labelsOk]
  | cons p rest ih =>
    obtain ⟨featureId, value⟩ := p
    simp only [labelsOk, Bool.and_eq_true, decide_eq_true_eq, ih]
    constructor
    · rintro ⟨h0, hrest⟩ k fid v hk
      cases k with
      | zero =>
        simp only [List.getElem?_cons_zero, Option.some.injEq, Prod.mk.injEq] at hk
        rw [← hk.1, h0]
      | succ k =>
        have := hrest k fid v (by simpa using hk)
        rw [this]
        congr 1
        omega
    · intro h
      refine ⟨h 0 featureId value (by simp), ?_⟩
      intro k fid v hk
      have := h (k + 1) fid v (by simpa using hk)
      rw [this]
      congr 1
      omega

theorem tokensOf_append_space (token rest : List Char) (h : ' ' ∉ token) :
    tokensOf (token ++ ' ' :: rest) = token :: tokensOf rest := by
  induction token with
  | nil => simp [tokensOf]
  | cons c cs ih =>
    have hc : c ≠ ' ' := fun hc => h (by simp [hc])
    have hcs : ' ' ∉ cs := fun hcs => h (List.mem_cons_of_mem _ hcs)
    have hstep : tokensOf (c :: (cs ++ ' ' :: rest)) =
        match tokensOf (cs ++ ' ' :: rest) with
        | [] => [[c]]
        | token :: rest => (c :: token) :: rest := by
      simp only [tokensOf, hc, if_false]
    rw [List.cons_append, hstep, ih hcs]

theorem tokensOf_spaceless (token : List Char) (h : ' ' ∉ token) :
    tokensOf token = if token = [] then [] else [token] := by
  induction token with
  | nil => simp [tokensOf]
  | cons c cs ih =>
    have hc : c ≠ ' ' := fun hc => h (by simp [hc])
    have hcs : ' ' ∉ cs := fun hcs => h (List.mem_cons_of_mem _ hcs)
    simp only [tokensOf, hc, if_false, ih hcs]
    by_cases hnil : cs = []
    · simp [hnil]
    · simp [hnil]

theorem tokensOf_joinSpace (tokens : List (List Char))
    (h : ∀ token ∈ tokens, ' ' ∉ token ∧ token ≠ []) :
    tokensOf (joinSpace tokens) = tokens := by
  induction tokens with
  | nil => rfl
  | cons t rest ih =>
    have ht := h t (List.mem_cons_self _ _)
    have hrest : ∀ token ∈ rest, ' ' ∉ token ∧ token ≠ [] :=
      fun token hm => h token (List.mem_cons_of_mem _ hm)
    cases rest with
    | nil =>
      simp only [joinSpace]
      rw [tokensOf_spaceless t ht.1, if_neg ht.2]
    | cons u rest2 =>
      simp only [joinSpace]
      rw [tokensOf_append_space t _ ht.1, ih hrest]

theorem tokensOf_joinSpace_drop (t1 t2 : List Char) (tokens : List (List Char))
    (h1 : ' ' ∉ t1) (h2 : ' ' ∉ t2)
    (h : ∀ token ∈ tokens, ' ' ∉ token ∧ token ≠ []) :
    (tokensOf (joinSpace (t1 :: t2 :: tokens))).drop 2 = tokens := by
  cases tokens with
  | nil =>
    simp only [joinSpace]
    rw [tokensOf_append_space t1 _ h1, tokensOf_spaceless t2 h2]
    by_cases hnil : t2 = [] <;> simp [hnil]
  | cons u rest =>
    have hj : joinSpace (t1 :: t2 :: u :: rest) =
        t1 ++ ' ' :: (t2 ++ ' ' :: joinSpace (u :: rest)) := rfl
    rw [hj, tokensOf_append_space t1 _ h1, tokensOf_append_space t2 _ h2,
      tokensOf_joinSpace (u :: rest) h]
    rfl

theorem parseTokens_labelled (sscanf : List Char → Option (Int × Double))
    (tokens : List (List Char)) (values ret : List Double)
    (hlen : values.length = tokens.length)
    (h : ∀ k, k < tokens.length →
      sscanf (tokens.getD k []) = some (((ret.length + k + 1 : Nat) : Int), values.getD k .nan)) :
    parseTokens sscanf tokens ret = some (ret ++ values) := by
  induction tokens generalizing values ret with
  | nil =>
    have : values = [] := List.length_eq_zero.mp hlen
    simp [parseTokens, this]
  | cons t rest ih =>
    cases values with
    | nil => simp at hlen
    | cons v vs =>
      have h0 := h 0 (by simp)
      simp only [List.getD_cons_zero, Nat.add_zero] at h0
      unfold parseTokens
      rw [h0]
      simp only [List.length_append, List.length_singleton, if_true]
      have := ih vs (ret ++ [v]) (by simpa using hlen) (fun k hk => by
        have hk2 := h (k + 1) (by simpa using hk)
        simp only [List.getD_cons_succ] at hk2
        rw [hk2]
        simp only [List.length_append, List.length_singleton]
        congr 2
        congr 1
        omega)
      rw [this]
      simp

/-- C13: `parseDocumentLine` turns 1-based labels into a dense 0-based vector. On a line made of
two leading tokens and tokens that `sscanf` reads as `1:v1`, ..., `n:vn`, all separated by single
spaces, it returns `[v1, ..., vn]`. On every line it returns the values of the tokens `sscanf`
reads, after the first two tokens, when each label equals its 1-based position among them, and it
fails on the assertion as soon as one label differs from that position. -/
theorem parseDocumentLine_spec :
    (∀ (sscanf : List Char → Option (Int × Double)) (t1 t2 : List Char)
        (tokens : List (List Char)) (values : List Double),
      ' ' ∉ t1 → ' ' ∉ t2 → (∀ token ∈ tokens, ' ' ∉ token ∧ token ≠ []) →
      values.length = tokens.length →
      (∀ k, k < tokens.length →
        sscanf (tokens.getD k []) = some (((k + 1 : Nat) : Int), values.getD k .nan)) →
      parseDocumentLine sscanf (joinSpace (t1 :: t2 :: tokens)) = some values) ∧
    (∀ (sscanf : List Char → Option (Int × Double)) (line : List Char),
      (∀ (k : Nat) (featureId : Int) (value : Double),
        (((tokensOf line).drop 2).filterMap sscanf)[k]? = some (featureId, value) →
        featureId = ((k + 1 : Nat) : Int)) →
      parseDocumentLine sscanf line =
        some ((((tokensOf line).drop 2).filterMap sscanf).map Prod.snd)) ∧
    (∀ (sscanf : List Char → Option (Int × Double)) (line : List Char) (k : Nat)
        (featureId : Int) (value : Double),
      (((tokensOf line).drop 2).filterMap sscanf)[k]? = some (featureId, value) →
      featureId ≠ ((k + 1 : Nat) : Int) →
      parseDocumentLine sscanf line = none) ∧
    parseDocumentLine sscanfDecimal "2 qid:10 1:0.5 2:3 3:-1.25".toList =
      some [.num (1/2), .num 3, .num (-5/4)] ∧
    parseDocumentLine sscanfDecimal "2 qid:10 1:0.5 3:3".toList = none := by
  refine ⟨?_, ?_, ?_, by decide, by decide⟩
  · intro sscanf t1 t2 tokens values h1 h2 htok hlen hscan
    rw [parseDocumentLine_eq, tokensOf_joinSpace_drop t1 t2 tokens h1 h2 htok]
    have := parseTokens_labelled sscanf tokens values [] hlen (fun k hk => by
      rw [hscan k hk]
      simp)
    simpa using this
  · intro sscanf line hall
    rw [parseDocumentLine_eq, parseTokens_eq]
    have hok : labelsOk 0 (((tokensOf line).drop 2).filterMap sscanf) = true :=
      (labelsOk_iff 0 _).mpr (fun k fid v hk => by
        rw [hall k fid v hk]
        simp)
    simp [hok]
  · intro sscanf line k featureId value hk hne
    rw [parseDocumentLine_eq, parseTokens_eq]
    have hok : ¬ labelsOk 0 (((tokensOf line).drop 2).filterMap sscanf) = true := by
      intro hok
      have := (labelsOk_iff 0 _).mp hok k featureId value hk
      apply hne
      rw [this]
      simp
    simp [hok]

/-- C13, witness: a line with two leading tokens and the tokens `1:0.5` and `2:3`. -/
theorem parseDocumentLine_spec_witness :
    parseDocumentLine sscanfDecimal
      (joinSpace ["2".toList, "qid:10".toList, "1:0.5".toList, "2:3".toList]) =
      some [.num (1/2), .num 3] ∧
    parseDocumentLine sscanfDecimal "2 qid:10 1:0.5 3:3".toList = none :=
  ⟨parseDocumentLine_spec.1 sscanfDecimal "2".toList "qid:10".toList
      ["1:0.5".toList, "2:3".toList] [.num (1/2), .num 3] (by decide) (by decide) (by decide)
      (by decide) (by decide),
   parseDocumentLine_spec.2.2.1 sscanfDecimal "2 qid:10 1:0.5 3:3".toList 1 3 (.num 3)
      (by decide) (by decide)⟩

end RapidScorer
